import Mathlib

/-!
Sparse ILU and Vanka preconditioners: a shallow embedding.

The two kernels `SparseILU` (`lac/sparse_ilu.templates.h`) and `SparseVanka`
(`lac/sparse_vanka.templates.h`) are embedded over an arbitrary linearly
ordered field `K`, that is, in exact arithmetic: rounding and the conversions
between `number` and `float` are not part of the embedding.  Vectors and the
value array of a sparse matrix are lists; reads outside a list give `0`, writes
outside a list are dropped.  Unsigned index arithmetic is done in `Nat`.  A
method that raises an exception returns it together with the state it leaves
behind (`Outcome`) or instead of a result (`Except`).
-/

namespace DealII

/-- Exceptions raised through `Assert` and `AssertThrow` in the two kernels. -/
inductive Exc where
  | ExcMatrixNotSquare
  | ExcSizeMismatch (a b : Nat)
  | ExcInvalidStrengthening
  | ExcDivideByZero
  deriving DecidableEq, Repr

/-- Modelled from the spec: the sparse pattern (`lac/sparsity_pattern.h` is not
among the sources).  A compressed pattern: `rowstart_indices` holds `rows + 1`
offsets into the flat array `column_numbers`; the slots of row `i` are
`rowstart_indices[i] .. rowstart_indices[i+1] - 1`.  Column numbers of a
compressed pattern are non-negative and are kept as naturals. -/
structure SparsityPattern where
  rows : Nat
  cols : Nat
  rowstart_indices : List Nat
  column_numbers : List Nat
  deriving DecidableEq, Repr

namespace SparsityPattern

/-- Read `rowstart_indices[i]`. -/
def rowstart (sp : SparsityPattern) (i : Nat) : Nat :=
  sp.rowstart_indices.getD i 0

/-- Read `column_numbers[s]`. -/
def column (sp : SparsityPattern) (s : Nat) : Nat :=
  sp.column_numbers.getD s 0

/-- Modelled from the spec: `row_length(row)`, the number of slots of a row. -/
def row_length (sp : SparsityPattern) (row : Nat) : Nat :=
  sp.rowstart (row + 1) - sp.rowstart row

/-- Modelled from the spec: `column_number(row, i)`, the column of the `i`-th
slot of a row. -/
def column_number (sp : SparsityPattern) (row i : Nat) : Nat :=
  sp.column (sp.rowstart row + i)

/-- Modelled from the spec: `n_nonzero_elements()`, the number of slots. -/
def n_nonzero_elements (sp : SparsityPattern) : Nat :=
  sp.rowstart sp.rows

/-- Modelled from the spec: the lookup `operator()(i, j)` returning the slot
of position `(i, j)`, or nothing when the position is absent (the source
returns the sentinel `-1`). -/
def index (sp : SparsityPattern) (i j : Nat) : Option Nat :=
  (List.range' (sp.rowstart i) (sp.row_length i)).find? (fun s => sp.column s == j)

/-- The layout both kernels of `SparseILU` rely on: the pattern is square,
every row starts with its diagonal slot, and the remaining columns of the row
are off-diagonal, in range and strictly ascending. -/
def WellFormed (sp : SparsityPattern) : Prop :=
  sp.rows = sp.cols ∧
  (∀ i, i < sp.rows → sp.rowstart i < sp.rowstart (i + 1) ∧ sp.column (sp.rowstart i) = i) ∧
  (∀ i, i < sp.rows → ∀ s, sp.rowstart i + 1 ≤ s → s < sp.rowstart (i + 1) →
    sp.column s < sp.cols ∧ sp.column s ≠ i ∧
      (s + 1 < sp.rowstart (i + 1) → sp.column s < sp.column (s + 1)))

instance (sp : SparsityPattern) : Decidable sp.WellFormed := by
  unfold WellFormed; infer_instance

/-- What `SparseVanka` needs of the row `r` it works on: the columns of its
slots are below `bound` and pairwise different.  This holds for every row of a
well-formed pattern, and also when the diagonal is kept at its sorted
position. -/
def RowProper (sp : SparsityPattern) (r bound : Nat) : Prop :=
  (∀ p, p < sp.row_length r → sp.column_number r p < bound) ∧
  (∀ p, p < sp.row_length r → ∀ q, q < sp.row_length r →
    sp.column_number r p = sp.column_number r q → p = q)

instance (sp : SparsityPattern) (r bound : Nat) : Decidable (sp.RowProper r bound) := by
  unfold RowProper; infer_instance

end SparsityPattern

/-- The `std::lower_bound` scan over `column_numbers[first .. first + len)`:
the first position whose column is not below `value`, or the end of the
range.  On an ascending range this is what the binary search returns. -/
def lower_bound_scan (sp : SparsityPattern) (value : Nat) : Nat → Nat → Nat
  | 0, p => p
  | len + 1, p => if sp.column p < value then lower_bound_scan sp value len (p + 1) else p

/-- The call `lower_bound (&column_numbers[first], &column_numbers[last], value)`,
as a slot index. -/
def lower_bound (sp : SparsityPattern) (first last value : Nat) : Nat :=
  lower_bound_scan sp value (last - first) first

/-- Modelled from the spec: the sparse matrix (`lac/sparse_matrix.h` is not
among the sources): a pattern and one value per slot. -/
structure SparseMatrix (K : Type) where
  cols : SparsityPattern
  val : List K

namespace SparseMatrix

variable {K : Type} [LinearOrderedField K]

/-- Number of rows, `m()`. -/
def m (A : SparseMatrix K) : Nat := A.cols.rows

/-- Number of columns, `n()`. -/
def n (A : SparseMatrix K) : Nat := A.cols.cols

/-- Read access `global_entry(i)`. -/
def global_entry (A : SparseMatrix K) (i : Nat) : K := A.val.getD i 0

/-- Read access `diag_element(i)`: the first slot of row `i`. -/
def diag_element (A : SparseMatrix K) (i : Nat) : K := A.val.getD (A.cols.rowstart i) 0

/-- Read access `raw_entry(row, i)`: the `i`-th slot of a row. -/
def raw_entry (A : SparseMatrix K) (row i : Nat) : K := A.val.getD (A.cols.rowstart row + i) 0

/-- Modelled from the spec: `set(i, j, value)`; an entry outside the pattern is
dropped. -/
def set (A : SparseMatrix K) (i j : Nat) (value : K) : SparseMatrix K :=
  match A.cols.index i j with
  | some s => { A with val := A.val.set s value }
  | none => A

/-- The value at position `(i, j)`, zero when the position is absent. -/
def el (A : SparseMatrix K) (i j : Nat) : K :=
  match A.cols.index i j with
  | some s => A.val.getD s 0
  | none => 0

end SparseMatrix

/-- What a call leaves behind: the exception raised, if any, and the state of
the object the call worked on. -/
structure Outcome (K : Type) where
  error : Option Exc
  matrix : SparseMatrix K

namespace SparseILU

variable {K : Type} [LinearOrderedField K]

/-- The call `fill_n (&global_entry(0), n, 0)`. -/
def fill_n (val : List K) (n : Nat) : List K :=
  (List.range n).foldl (fun v k => v.set k 0) val

/-- Step 1 of `decompose`, the inner loop: copy the slots of one row of
`matrix`. -/
def copy_row (matrix : SparseMatrix K) (self : SparseMatrix K) (row : Nat) : SparseMatrix K :=
  (List.range' (matrix.cols.rowstart row) (matrix.cols.rowstart (row + 1) - matrix.cols.rowstart row)).foldl
    (fun t col => t.set row (matrix.cols.column col) (matrix.global_entry col)) self

/-- Step 1 of `decompose`: preset by zeroes, then copy all elements of
`matrix`. -/
def copy_from (self : SparseMatrix K) (matrix : SparseMatrix K) : SparseMatrix K :=
  (List.range self.m).foldl (copy_row matrix)
    { self with val := fill_n self.val self.cols.n_nonzero_elements }

/-- Step 2 of `decompose`, one row: add `strengthen_diagonal * rowsum` to the
diagonal slot, `rowsum` being the sum of the absolute values of the other
slots of the row. -/
def strengthen_row (strengthen_diagonal : K) (self : SparseMatrix K) (row : Nat) : SparseMatrix K :=
  let rowlength := self.cols.rowstart (row + 1) - self.cols.rowstart row - 1
  let rowstart := self.cols.rowstart row + 1
  let rowsum := (List.range' rowstart rowlength).foldl
    (fun acc global_index => acc + abs (self.global_entry global_index)) 0
  let strengthened := self.global_entry (rowstart - 1) + strengthen_diagonal * rowsum
  { self with val := self.val.set (rowstart - 1) strengthened }

/-- Step 2 of `decompose`. -/
def strengthen (self : SparseMatrix K) (strengthen_diagonal : K) : SparseMatrix K :=
  if 0 < strengthen_diagonal then
    (List.range self.m).foldl (strengthen_row strengthen_diagonal) self
  else self

/-- Body of the innermost loop of `decompose` (the loop over `j`), for the
slot `j` of row `row`; `global_index_ik` is the slot of `(row, k)`.  The state
is the value array and the flag `left_of_diagonal`.  The `Assert` inside the
branch `*j > row` cannot fail, and `global_index_ij`, a slot index, is never
`-1`; both tests are left out. -/
def eliminate_j (sp : SparsityPattern) (row global_index_ik : Nat)
    (st : List K × Bool) (j : Nat) : List K × Bool :=
  let k := sp.column global_index_ik
  let st1 : List K × Bool :=
    if st.2 && decide (row < sp.column j) then
      (match sp.index k row with
        | some global_index_ki =>
            st.1.set (sp.rowstart row)
              (st.1.getD (sp.rowstart row) 0 -
                st.1.getD global_index_ik 0 * st.1.getD global_index_ki 0)
        | none => st.1, false)
    else st
  match sp.index k (sp.column j) with
  | some global_index_kj =>
      (st1.1.set j (st1.1.getD j 0 - st1.1.getD global_index_ik 0 * st1.1.getD global_index_kj 0),
        st1.2)
  | none => st1

/-- Body of the loop over `col_ptr` in `decompose`: scale the entry `(row, k)`
by the inverted diagonal of row `k`, then run the loop over `j`. -/
def eliminate_k (sp : SparsityPattern) (row : Nat) (val : List K) (col_ptr : Nat) : List K :=
  let global_index_ik := col_ptr
  let val1 := val.set global_index_ik
    (val.getD global_index_ik 0 * val.getD (sp.rowstart (sp.column col_ptr)) 0)
  ((List.range' (col_ptr + 1) (sp.rowstart (row + 1) - (col_ptr + 1))).foldl
    (eliminate_j sp row global_index_ik) (val1, true)).1

/-- Elimination of one row of `decompose`, after the diagonal of the previous
row has been inverted. -/
def eliminate_row (sp : SparsityPattern) (row : Nat) (val : List K) : List K :=
  let first_of_row := sp.rowstart row + 1
  let first_after_diagonal := lower_bound sp (sp.rowstart row + 1) (sp.rowstart (row + 1)) row
  (List.range' first_of_row (first_after_diagonal - first_of_row)).foldl (eliminate_k sp row) val

/-- Step 3 of `decompose`: the loop over the rows in the list, each iteration
first checking and inverting the diagonal of the previous row. -/
def eliminate (sp : SparsityPattern) : List Nat → List K → Option Exc × List K
  | [], val => (none, val)
  | row :: rest, val =>
      if val.getD (sp.rowstart (row - 1)) 0 = 0 then (some Exc.ExcDivideByZero, val)
      else
        eliminate sp rest
          (eliminate_row sp row
            (val.set (sp.rowstart (row - 1)) (1 / val.getD (sp.rowstart (row - 1)) 0)))

/-- The method `SparseILU::decompose (matrix, strengthen_diagonal)`, run on
the object `self`. -/
def decompose (self : SparseMatrix K) (matrix : SparseMatrix K) (strengthen_diagonal : K) :
    Outcome K :=
  if matrix.m ≠ matrix.n then ⟨some Exc.ExcMatrixNotSquare, self⟩
  else if self.m ≠ self.n then ⟨some Exc.ExcMatrixNotSquare, self⟩
  else if matrix.m ≠ self.m then ⟨some (Exc.ExcSizeMismatch matrix.m self.m), self⟩
  else if strengthen_diagonal < 0 then ⟨some Exc.ExcInvalidStrengthening, self⟩
  else
    let copied := strengthen (copy_from self matrix) strengthen_diagonal
    let r := eliminate copied.cols (List.range' 1 (copied.m - 1)) copied.val
    ⟨r.1, { copied with val := r.2 }⟩

/-- Forward sweep of `apply_decomposition`, one row. -/
def forward_row (self : SparseMatrix K) (dst : List K) (row : Nat) : List K :=
  let rowstart := self.cols.rowstart row + 1
  let first_after_diagonal :=
    lower_bound self.cols rowstart (self.cols.rowstart (row + 1)) row
  (List.range' rowstart (first_after_diagonal - rowstart)).foldl
    (fun d col => d.set row (d.getD row 0 - self.global_entry col * d.getD (self.cols.column col) 0))
    dst

/-- Backward sweep of `apply_decomposition`, one row. -/
def backward_row (self : SparseMatrix K) (dst : List K) (row : Nat) : List K :=
  let rowend := self.cols.rowstart (row + 1)
  let first_after_diagonal :=
    lower_bound self.cols (self.cols.rowstart row + 1) (self.cols.rowstart (row + 1)) row
  let d := (List.range' first_after_diagonal (rowend - first_after_diagonal)).foldl
    (fun d col => d.set row (d.getD row 0 - self.global_entry col * d.getD (self.cols.column col) 0))
    dst
  d.set row (d.getD row 0 * self.diag_element row)

/-- The loop `for (int row=N-1; row>=0; --row)` of `apply_decomposition`,
started with `row + 1 = N`. -/
def backward_sweep (self : SparseMatrix K) : Nat → List K → List K
  | 0, dst => dst
  | row + 1, dst => backward_sweep self row (backward_row self dst row)

/-- The method `SparseILU::apply_decomposition (dst, src)`; the result is the
new content of `dst`. -/
def apply_decomposition (self : SparseMatrix K) (dst src : List K) : Except Exc (List K) :=
  if dst.length ≠ src.length then .error (Exc.ExcSizeMismatch dst.length src.length)
  else if dst.length ≠ self.m then .error (Exc.ExcSizeMismatch dst.length self.m)
  else
    let N := dst.length
    .ok (backward_sweep self N ((List.range N).foldl (forward_row self) src))

end SparseILU

namespace SparseILU

variable {K : Type} [LinearOrderedField K]

/-- The unit lower triangular factor read off the stored values: `L(i,c)` is
the stored value for `c < i`, one on the diagonal. -/
def L_factor (self : SparseMatrix K) : Matrix (Fin self.m) (Fin self.m) K :=
  Matrix.of fun i j =>
    if j.val < i.val then self.el i.val j.val else if j.val = i.val then 1 else 0

/-- The upper triangular factor read off the stored values: `U(i,c)` is the
stored value for `c > i`, and `U(i,i)` is the reciprocal of the stored
diagonal slot. -/
def U_factor (self : SparseMatrix K) : Matrix (Fin self.m) (Fin self.m) K :=
  Matrix.of fun i j =>
    if i.val < j.val then self.el i.val j.val
    else if j.val = i.val then 1 / self.el i.val i.val else 0

/-- A list read as a vector of dimension `N`. -/
def to_vector (N : Nat) (v : List K) : Fin N → K := fun i => v.getD i.val 0

/-- The strictly lower part of row `i` against a vector. -/
def Lsum (A : SparseMatrix K) (i : Nat) (d : List K) : K :=
  ∑ j ∈ Finset.range A.m, (if j < i then A.el i j else 0) * d.getD j 0

/-- The strictly upper part of row `i` against a vector. -/
def Usum (A : SparseMatrix K) (i : Nat) (d : List K) : K :=
  ∑ j ∈ Finset.range A.m, (if i < j then A.el i j else 0) * d.getD j 0

end SparseILU

/-- Modelled from the spec: the dense-matrix collaborator (`lac/full_matrix.h`
is not among the sources): a matrix of runtime size with element read/write.
Entries outside `m × n` are zero. -/
structure FullMatrix (K : Type) where
  m : Nat
  n : Nat
  el : Nat → Nat → K

/-! Modelled from the spec: the full pivoted inversion of the dense-matrix
collaborator (`FullMatrix::gauss_jordan` is not among the sources), as
Gauss-Jordan elimination with row pivoting on a square matrix, carrying the
inverse along in a second matrix. -/

namespace GaussJordan

variable {K : Type} [LinearOrderedField K] {n : Nat}

/-- Pivot search in column `j`: the first row at or below `j` whose entry has
the largest absolute value. -/
def pivot_row (A : Matrix (Fin n) (Fin n) K) (j : Fin n) : Fin n :=
  (List.finRange n).foldl (fun r i => if j ≤ i ∧ abs (A r j) < abs (A i j) then i else r) j

/-- Row interchange of rows `j` and `r`, as a map on row indices. -/
def swap_index (j r i : Fin n) : Fin n :=
  if i = j then r else if i = r then j else i

/-- One elimination step acting on a column `y`: interchange rows `j` and `r`,
divide row `j` by the pivot, and subtract multiples of it from all other rows.
Here `c` is the pivot column after the interchange. -/
def step_column (j r : Fin n) (c y : Fin n → K) : Fin n → K :=
  fun i => if i = j then (c j)⁻¹ * y r else y (swap_index j r i) - c i * ((c j)⁻¹ * y r)

/-- One elimination step acting on all columns of a matrix. -/
def step_matrix (j r : Fin n) (c : Fin n → K) (X : Matrix (Fin n) (Fin n) K) :
    Matrix (Fin n) (Fin n) K :=
  Matrix.of fun i k => step_column j r c (fun a => X a k) i

/-- Elimination of column `j` on the pair (matrix being reduced, inverse being
built). -/
def step (j : Fin n) (S : Matrix (Fin n) (Fin n) K × Matrix (Fin n) (Fin n) K) :
    Matrix (Fin n) (Fin n) K × Matrix (Fin n) (Fin n) K :=
  let r := pivot_row S.1 j
  let c : Fin n → K := fun i => S.1 (swap_index j r i) j
  (step_matrix j r c S.1, step_matrix j r c S.2)

/-- Elimination of the columns `0 .. k - 1`. -/
def loop : Nat → Matrix (Fin n) (Fin n) K × Matrix (Fin n) (Fin n) K →
    Matrix (Fin n) (Fin n) K × Matrix (Fin n) (Fin n) K
  | 0, S => S
  | k + 1, S => if h : k < n then step ⟨k, h⟩ (loop k S) else loop k S

/-- The inverse computed by the elimination. -/
def invert (M : Matrix (Fin n) (Fin n) K) : Matrix (Fin n) (Fin n) K :=
  (loop n (M, 1)).2

end GaussJordan

namespace FullMatrix

variable {K : Type} [LinearOrderedField K]

/-- Modelled from the spec: construction with a given size, all entries zero;
also the result of `reinit (m, n)`. -/
def zero (m n : Nat) : FullMatrix K := ⟨m, n, fun _ _ => 0⟩

/-- Modelled from the spec: `reinit (m, n)` resizes and clears the matrix. -/
def reinit (_F : FullMatrix K) (m n : Nat) : FullMatrix K := zero m n

/-- Modelled from the spec: element write `F(i, j) = value`. -/
def set (F : FullMatrix K) (i j : Nat) (value : K) : FullMatrix K :=
  if i < F.m ∧ j < F.n then
    { F with el := fun a b => if a = i ∧ b = j then value else F.el a b }
  else F

/-- The leading `k × k` block as a matrix. -/
def to_matrix (F : FullMatrix K) (k : Nat) : Matrix (Fin k) (Fin k) K :=
  Matrix.of fun a b => F.el a.val b.val

/-- A `k × k` matrix as a dense matrix of runtime size. -/
def of_matrix (k : Nat) (M : Matrix (Fin k) (Fin k) K) : FullMatrix K :=
  ⟨k, k, fun a b => if h : a < k ∧ b < k then M ⟨a, h.1⟩ ⟨b, h.2⟩ else 0⟩

/-- Modelled from the spec: in-place inversion `gauss_jordan ()` of a square
matrix, of dimension `n`. -/
def gauss_jordan (F : FullMatrix K) : FullMatrix K :=
  of_matrix F.n (GaussJordan.invert (F.to_matrix F.n))

/-- Modelled from the spec: the matrix/vector multiply `vmult (x, b)`; the
result is the new content of `x`. -/
def vmult (F : FullMatrix K) (b : List K) : List K :=
  (List.range F.m).map fun i => ((List.range F.n).map fun j => F.el i j * b.getD j 0).sum

end FullMatrix

/-- The state of a `SparseVanka` object. -/
structure SparseVanka (K : Type) where
  matrix : SparseMatrix K
  selected : List Bool
  conserve_mem : Bool
  inverses : List (Option (FullMatrix K))

namespace SparseVanka

variable {K : Type} [LinearOrderedField K]

/-- The call `local_index.insert (pair (key, value))` on a `std::map`, kept as
a list sorted by key; an existing key is left alone. -/
def map_insert : List (Nat × Nat) → Nat → Nat → List (Nat × Nat)
  | [], key, value => [(key, value)]
  | (k, v) :: rest, key, value =>
      if key < k then (key, value) :: (k, v) :: rest
      else if key = k then (k, v) :: rest
      else (k, v) :: map_insert rest key value

/-- The call `local_index.find (key)`. -/
def map_find (local_index : List (Nat × Nat)) (key : Nat) : Option Nat :=
  local_index.lookup key

/-- The map from the column numbers of the entries of `row` to their position
within the row. -/
def build_local_index (structure_ : SparsityPattern) (row : Nat) : List (Nat × Nat) :=
  (List.range (structure_.row_length row)).foldl
    (fun local_index i => map_insert local_index (structure_.column_number row i) i) []

/-- Body of the loop over the map in `compute_inverses`: gather the entries of
row `irow` that couple back into the local system. -/
def gather_row (matrix : SparseMatrix K) (local_index : List (Nat × Nat))
    (inverse : FullMatrix K) (is_ : Nat × Nat) : FullMatrix K :=
  let irow := is_.1
  let i := is_.2
  let irow_length := matrix.cols.row_length irow
  (List.range irow_length).foldl
    (fun inv j =>
      let col := matrix.cols.column_number irow j
      match map_find local_index col with
      | some js => inv.set i js (matrix.raw_entry irow j)
      | none => inv)
    inverse

/-- The local system of `row` as gathered in `compute_inverses`, before its
inversion. -/
def local_system (matrix : SparseMatrix K) (row : Nat) : FullMatrix K :=
  let row_length := matrix.cols.row_length row
  let local_index := build_local_index matrix.cols row
  local_index.foldl (gather_row matrix local_index) (FullMatrix.zero row_length row_length)

/-- Body of the loop over the rows in `compute_inverses`. -/
def compute_inverses_row (self : SparseVanka K) (row : Nat) : SparseVanka K :=
  if self.selected.getD row false = true then
    { self with inverses :=
        self.inverses.set row (some (local_system self.matrix row).gauss_jordan) }
  else self

/-- The method `SparseVanka::compute_inverses ()`. -/
def compute_inverses (self : SparseVanka K) : SparseVanka K :=
  (List.range self.matrix.m).foldl compute_inverses_row self

/-- The constructor `SparseVanka (M, selected, conserve_mem)`. -/
def construct (M : SparseMatrix K) (selected : List Bool) (conserve_mem : Bool) :
    Except Exc (SparseVanka K) :=
  let self : SparseVanka K := ⟨M, selected, conserve_mem, List.replicate M.m none⟩
  if M.m ≠ M.n then .error Exc.ExcMatrixNotSquare
  else if conserve_mem = false then .ok (compute_inverses self)
  else .ok self

/-- The working state of `operator()`: the destination vector, the table of
inverses and the scratch matrix `local_matrix`. -/
structure ApplyState (K : Type) where
  dst : List K
  inverses : List (Option (FullMatrix K))
  local_matrix : FullMatrix K

/-- Body of the innermost loop of `operator()`: the entry `j` of row `irow`
either modifies the right hand side or, in conserve-memory mode, goes into the
local matrix. -/
def build_entry (matrix : SparseMatrix K) (conserve_mem : Bool) (local_index : List (Nat × Nat))
    (dst : List K) (irow i : Nat) (st : List K × FullMatrix K) (j : Nat) :
    List K × FullMatrix K :=
  let col := matrix.cols.column_number irow j
  match map_find local_index col with
  | none => (st.1.set i (st.1.getD i 0 - matrix.raw_entry irow j * dst.getD col 0), st.2)
  | some js =>
      if conserve_mem = true then (st.1, st.2.set i js (matrix.raw_entry irow j)) else st

/-- Body of the loop over the map in `operator()`: build the right hand side
entry and, in conserve-memory mode, the local matrix row for `irow`. -/
def build_row (matrix : SparseMatrix K) (conserve_mem : Bool) (local_index : List (Nat × Nat))
    (dst src : List K) (st : List K × FullMatrix K) (is_ : Nat × Nat) : List K × FullMatrix K :=
  let irow := is_.1
  let i := is_.2
  let irow_length := matrix.cols.row_length irow
  (List.range irow_length).foldl (build_entry matrix conserve_mem local_index dst irow i)
    (st.1.set i (src.getD irow 0), st.2)

/-- The loop distributing the new values: `dst(irow) = x(i)`. -/
def distribute (local_index : List (Nat × Nat)) (x dst : List K) : List K :=
  local_index.foldl (fun d is_ => d.set is_.1 (x.getD is_.2 0)) dst

/-- Body of the loop over the rows in `operator()`.  In conserve-memory mode
the table slot aliases the scratch matrix while the row is worked on; in the
other mode the matrix of the table slot is used (an empty slot, which the
constructor never leaves for a selected row, reads as a `0 × 0` matrix). -/
def apply_row (self : SparseVanka K) (src : List K) (st : ApplyState K) (row : Nat) :
    ApplyState K :=
  if self.selected.getD row false = true then
    let row_length := self.matrix.cols.row_length row
    let inverse0 : FullMatrix K :=
      if self.conserve_mem = true then st.local_matrix.reinit row_length row_length
      else (st.inverses.getD row none).getD (FullMatrix.zero 0 0)
    let b0 : List K := List.replicate row_length 0
    let local_index := build_local_index self.matrix.cols row
    let built := local_index.foldl
      (build_row self.matrix self.conserve_mem local_index st.dst src) (b0, inverse0)
    let b := built.1
    let inverse := if self.conserve_mem = true then built.2.gauss_jordan else built.2
    let x := inverse.vmult b
    let dst := distribute local_index x st.dst
    if self.conserve_mem = true then ⟨dst, st.inverses.set row none, inverse⟩
    else ⟨dst, st.inverses, st.local_matrix⟩
  else st

/-- The call `dst.clear ()`: all entries zero, size kept. -/
def clear (dst : List K) : List K := List.replicate dst.length 0

/-- Modelled from the spec: `max_entries_per_row ()`. -/
def max_entries_per_row (sp : SparsityPattern) : Nat :=
  (List.range sp.rows).foldl (fun acc row => max acc (sp.row_length row)) 0

/-- The method `SparseVanka::operator() (dst, src)`: the final working state,
whose `dst` is the new destination vector. -/
def apply (self : SparseVanka K) (dst src : List K) : ApplyState K :=
  (List.range self.matrix.m).foldl (apply_row self src)
    ⟨clear dst, self.inverses,
      FullMatrix.zero (max_entries_per_row self.matrix.cols) (max_entries_per_row self.matrix.cols)⟩

end SparseVanka

namespace SparseVanka

variable {K : Type} [LinearOrderedField K]

/-- What `operator()` subtracts from the right hand side entry of the coupling
row `irow`: the entries of `irow` whose column is outside the local system,
against the destination vector. -/
def rhs_correction (matrix : SparseMatrix K) (local_index : List (Nat × Nat)) (dst : List K)
    (irow : Nat) : K :=
  ((List.range (matrix.cols.row_length irow)).map fun j =>
    match map_find local_index (matrix.cols.column_number irow j) with
    | none => matrix.raw_entry irow j * dst.getD (matrix.cols.column_number irow j) 0
    | some _ => 0).sum

end SparseVanka

/-! Concrete matrices over the rationals on which the kernels are run. -/

namespace Examples

/-- The pattern of a `1 × 1` matrix. -/
def single : SparsityPattern := ⟨1, 1, [0, 1], [0]⟩

/-- The pattern of a full `2 × 2` matrix. -/
def full2 : SparsityPattern := ⟨2, 2, [0, 2, 4], [0, 1, 1, 0]⟩

/-- The pattern of a tridiagonal `4 × 4` matrix, diagonal slot first. -/
def tridiag4 : SparsityPattern :=
  ⟨4, 4, [0, 2, 5, 8, 10], [0, 1, 1, 0, 2, 2, 1, 3, 3, 2]⟩

/-- The tridiagonal matrix with `4` on the diagonal and `-1` next to it. -/
def laplace4 : SparseMatrix ℚ := ⟨tridiag4, [4, -1, 4, -1, -1, 4, -1, -1, 4, -1]⟩

/-- A target on the tridiagonal pattern, before `decompose`. -/
def blank4 : SparseMatrix ℚ := ⟨tridiag4, [0, 0, 0, 0, 0, 0, 0, 0, 0, 0]⟩

/-- A target on the tridiagonal pattern that holds values from earlier use. -/
def used4 : SparseMatrix ℚ := ⟨tridiag4, [9, 8, 7, 6, 5, 4, 3, 2, 1, 9]⟩

/-- The pattern of a pentadiagonal `5 × 5` matrix, diagonal slot first. -/
def penta5 : SparsityPattern :=
  ⟨5, 5, [0, 3, 7, 12, 16, 19], [0, 1, 2, 1, 0, 2, 3, 2, 0, 1, 3, 4, 3, 1, 2, 4, 4, 2, 3]⟩

/-- A pentadiagonal matrix: `6` on the diagonal, `-2` and `-1` beside it. -/
def band5 : SparseMatrix ℚ :=
  ⟨penta5, [6, -2, -1, 6, -2, -2, -1, 6, -1, -2, -2, -1, 6, -1, -2, -2, 6, -1, -2]⟩

end Examples

/-- The two kinds of shape error: a matrix that is not square, and a mismatch
of two sizes. -/
def Exc.is_shape_error : Exc → Bool
  | Exc.ExcMatrixNotSquare => true
  | Exc.ExcSizeMismatch _ _ => true
  | _ => false

namespace SparseILU

variable {K : Type} [LinearOrderedField K]

/-- The `rowsum` of step 2 of `decompose` for a row: the sum of the absolute
values of the slots of the row after its first (diagonal) slot. -/
def rowsum (self : SparseMatrix K) (row : Nat) : K :=
  (List.range' (self.cols.rowstart row + 1)
    (self.cols.rowstart (row + 1) - self.cols.rowstart row - 1)).foldl
    (fun acc global_index => acc + abs (self.global_entry global_index)) 0

/-- The sum, over the off-diagonal slots the target `self` stores in a row, of
the absolute values of the entries of `matrix` at these positions. -/
def source_abs_sum (self matrix : SparseMatrix K) (row : Nat) : K :=
  ((List.range' (self.cols.rowstart row + 1)
    (self.cols.rowstart (row + 1) - self.cols.rowstart row - 1)).map
    fun g => abs (matrix.el row (self.cols.column g))).sum

end SparseILU

namespace SparsityPattern

/-- The data model the spec gives for the pattern: the pattern is square and
the columns of every row are in range, strictly ascending and include the
diagonal, which therefore sits at its sorted position. -/
def SortedRows (sp : SparsityPattern) : Prop :=
  sp.rows = sp.cols ∧
  ∀ i, i < sp.rows →
    sp.rowstart i < sp.rowstart (i + 1) ∧
    (∀ s, sp.rowstart i ≤ s → s < sp.rowstart (i + 1) →
      sp.column s < sp.cols ∧ (s + 1 < sp.rowstart (i + 1) → sp.column s < sp.column (s + 1))) ∧
    (∃ s, s < sp.rowstart (i + 1) ∧ sp.rowstart i ≤ s ∧ sp.column s = i)

instance (sp : SparsityPattern) : Decidable sp.SortedRows := by
  unfold SortedRows; infer_instance

end SparsityPattern

/-! The reference pseudo-algorithm written as a comment in `decompose`:
`for i=1..N-1: a[i-1,i-1] = a[i-1,i-1]^{-1}; for k=0..i-1: a[i,k] = a[i,k] * a[k,k];
for j=k+1..N-1: if (a[i,j] exists & a[k,j] exists) a[i,j] -= a[i,k] * a[k,j]`.
An entry `a[i,k]` that is not stored is zero and gives nothing to do. -/

namespace Reference

variable {K : Type} [LinearOrderedField K]

/-- Innermost statement of the pseudo-algorithm, for one `j`:
`if (a[i,j] exists & a[k,j] exists) a[i,j] -= a[i,k] * a[k,j]`; `ik` is the
slot of `a[i,k]`. -/
def update_j (sp : SparsityPattern) (i k ik : Nat) (val : List K) (j : Nat) : List K :=
  match sp.index i j, sp.index k j with
  | some ij, some kj => val.set ij (val.getD ij 0 - val.getD ik 0 * val.getD kj 0)
  | _, _ => val

/-- Body of the loop over `k` of the pseudo-algorithm, for a stored `a[i,k]`:
`a[i,k] = a[i,k] * a[k,k]`, then the loop `for j=k+1..N-1`. -/
def update_k (sp : SparsityPattern) (N i : Nat) (val : List K) (k : Nat) : List K :=
  match sp.index i k, sp.index k k with
  | some ik, some kk =>
      (List.range' (k + 1) (N - (k + 1))).foldl (update_j sp i k ik)
        (val.set ik (val.getD ik 0 * val.getD kk 0))
  | _, _ => val

/-- Body of the loop over `i` of the pseudo-algorithm:
`a[i-1,i-1] = a[i-1,i-1]^{-1}`, then the loop `for k=0..i-1`. -/
def update_i (sp : SparsityPattern) (N : Nat) (val : List K) (i : Nat) : List K :=
  match sp.index (i - 1) (i - 1) with
  | some d => (List.range i).foldl (update_k sp N i) (val.set d (1 / val.getD d 0))
  | none => val

/-- The pseudo-algorithm `for i=1..N-1 ...` on the value array of an `N × N`
matrix. -/
def pseudo_algorithm (sp : SparsityPattern) (N : Nat) (val : List K) : List K :=
  (List.range' 1 (N - 1)).foldl (update_i sp N) val

end Reference

namespace Examples

/-- The pattern of a full `2 × 2` matrix in the spec's layout: columns
ascending, the diagonal at its sorted position. -/
def sorted2 : SparsityPattern := ⟨2, 2, [0, 2, 4], [0, 1, 0, 1]⟩

end Examples

namespace SparseMatrix

variable {K : Type} [LinearOrderedField K]

/-- The entry `g` of the product of the matrix with the vector `d`: the sum
over the slots of row `g` of the slot value times the entry of `d` at the
column of the slot. -/
def vmult_entry (A : SparseMatrix K) (d : List K) (g : Nat) : K :=
  ((List.range (A.cols.row_length g)).map fun j =>
    A.raw_entry g j * d.getD (A.cols.column_number g j) 0).sum

end SparseMatrix

namespace SparseVanka

variable {K : Type} [LinearOrderedField K]

/-- The working state of `operator()` when the loop over the rows has done the
rows below `k`; for `k = m()` this is `apply`. -/
def apply_upto (self : SparseVanka K) (dst src : List K) (k : Nat) : ApplyState K :=
  (List.range k).foldl (apply_row self src)
    ⟨clear dst, self.inverses,
      FullMatrix.zero (max_entries_per_row self.matrix.cols) (max_entries_per_row self.matrix.cols)⟩

end SparseVanka

namespace SparseVanka

variable {K : Type} [LinearOrderedField K]

/-- The vector `x` that `operator()` computes for a selected row from the
working state `st`: the right hand side `b` is built from `src` and the
destination vector, and `x` is the product of the (inverted) local matrix with
`b`. -/
def local_solution (self : SparseVanka K) (src : List K) (st : ApplyState K) (row : Nat) :
    List K :=
  let row_length := self.matrix.cols.row_length row
  let inverse0 : FullMatrix K :=
    if self.conserve_mem = true then st.local_matrix.reinit row_length row_length
    else (st.inverses.getD row none).getD (FullMatrix.zero 0 0)
  let b0 : List K := List.replicate row_length 0
  let local_index := build_local_index self.matrix.cols row
  let built := local_index.foldl
    (build_row self.matrix self.conserve_mem local_index st.dst src) (b0, inverse0)
  let b := built.1
  let inverse := if self.conserve_mem = true then built.2.gauss_jordan else built.2
  inverse.vmult b

/-- The matrix `*inverses[row]` that `operator()` multiplies the right hand
side with: in conserve-memory mode the inverted local system, otherwise the
matrix of the table slot. -/
def row_inverse (self : SparseVanka K) (table : List (Option (FullMatrix K))) (row : Nat) :
    FullMatrix K :=
  if self.conserve_mem = true then (local_system self.matrix row).gauss_jordan
  else (table.getD row none).getD (FullMatrix.zero 0 0)

/-- The object after `operator()` has returned with the working state `st`:
the table of inverses is the only member the call writes to. -/
def after_apply (self : SparseVanka K) (st : ApplyState K) : SparseVanka K :=
  { self with inverses := st.inverses }

end SparseVanka

/-- Modelled from the spec: element-wise arithmetic of the vector
collaborator, the vector `a * u + v`. -/
def sadd {K : Type} [LinearOrderedField K] (a : K) (u v : List K) : List K :=
  List.zipWith (fun x y => a * x + y) u v

namespace SparseILU

variable {K : Type} [LinearOrderedField K]

/-- The factorisation identity of row `i` on the value array `v`, against the
values `a0` the elimination started from, at every off-diagonal slot `x` of
the row: right of the diagonal `v[x]` plus the products of the multipliers of
the row with the entries above `x` gives `a0[x]`; left of the diagonal the
multiplier `v[x]` times the reciprocal of the diagonal slot of its column plus
the products of the earlier multipliers of the row with the entries above `x`
gives `a0[x]`. -/
def RowFactored (sp : SparsityPattern) (a0 v : List K) (i : Nat) : Prop :=
  ∀ x, sp.rowstart i + 1 ≤ x → x < sp.rowstart (i + 1) →
    (i < sp.column x →
      v.getD x 0 + ∑ s ∈ Finset.Ico (sp.rowstart i + 1)
          (lower_bound sp (sp.rowstart i + 1) (sp.rowstart (i + 1)) i),
        v.getD s 0 * SparseMatrix.el ⟨sp, v⟩ (sp.column s) (sp.column x) = a0.getD x 0) ∧
    (sp.column x < i →
      v.getD x 0 * (1 / v.getD (sp.rowstart (sp.column x)) 0) +
        ∑ s ∈ Finset.Ico (sp.rowstart i + 1) x,
          v.getD s 0 * SparseMatrix.el ⟨sp, v⟩ (sp.column s) (sp.column x) = a0.getD x 0)

end SparseILU

section ListLemmas

variable {α : Type}

theorem getD_set_eq (l : List α) (i : Nat) (v d : α) (h : i < l.length) :
    (l.set i v).getD i d = v := by
  simp [List.getD_eq_getElem?_getD, List.getElem?_set, h]

theorem getD_set_ne (l : List α) (i j : Nat) (v d : α) (h : i ≠ j) :
    (l.set i v).getD j d = l.getD j d := by
  simp [List.getD_eq_getElem?_getD, List.getElem?_set, h]

theorem set_of_length_le (l : List α) (i : Nat) (v : α) (h : l.length ≤ i) :
    l.set i v = l := by
  apply List.ext_getElem?
  intro j
  rw [List.getElem?_set]
  split
  · next hij =>
    subst hij
    simp [List.getElem?_eq_none h]
    omega
  · rfl

theorem set_set_same (l : List α) (i : Nat) (v w : α) :
    (l.set i v).set i w = l.set i w := by
  simp

end ListLemmas

section LowerBound

theorem lower_bound_scan_spec (sp : SparsityPattern) (v : Nat) :
    ∀ len p, p ≤ lower_bound_scan sp v len p ∧ lower_bound_scan sp v len p ≤ p + len ∧
      (∀ s, p ≤ s → s < lower_bound_scan sp v len p → sp.column s < v) ∧
      (lower_bound_scan sp v len p < p + len → v ≤ sp.column (lower_bound_scan sp v len p)) := by
  intro len
  induction len with
  | zero =>
    intro p
    simp [lower_bound_scan]
    intro s h1 h2; omega
  | succ len ih =>
    intro p
    unfold lower_bound_scan
    split
    · next hlt =>
      obtain ⟨h1, h2, h3, h4⟩ := ih (p + 1)
      refine ⟨by omega, by omega, ?_, ?_⟩
      · intro s hs1 hs2
        rcases Nat.eq_or_lt_of_le hs1 with h | h
        · subst h; exact hlt
        · exact h3 s h hs2
      · intro h; exact h4 (by omega)
    · next hge =>
      refine ⟨le_refl _, by omega, ?_, ?_⟩
      · intro s h1 h2; omega
      · intro _; omega

end LowerBound

section Pattern

open SparsityPattern

theorem wf_col_mono (sp : SparsityPattern) (hwf : sp.WellFormed) (i : Nat) (hi : i < sp.rows) :
    ∀ d s, sp.rowstart i + 1 ≤ s → s + d + 1 < sp.rowstart (i + 1) →
      sp.column s < sp.column (s + d + 1) := by
  intro d
  induction d with
  | zero =>
    intro s h1 h2
    exact (hwf.2.2 i hi s h1 (by omega)).2.2 (by omega)
  | succ d ih =>
    intro s h1 h2
    have h3 := ih s h1 (by omega)
    have h4 := (hwf.2.2 i hi (s + d + 1) (by omega) (by omega)).2.2 (by omega)
    have : s + (d + 1) + 1 = s + d + 1 + 1 := by omega
    rw [this]
    omega

theorem wf_col_lt (sp : SparsityPattern) (hwf : sp.WellFormed) (i : Nat) (hi : i < sp.rows)
    (s t : Nat) (h1 : sp.rowstart i + 1 ≤ s) (h2 : s < t) (h3 : t < sp.rowstart (i + 1)) :
    sp.column s < sp.column t := by
  have := wf_col_mono sp hwf i hi (t - s - 1) s h1 (by omega)
  have e : s + (t - s - 1) + 1 = t := by omega
  rwa [e] at this

theorem wf_col_inj (sp : SparsityPattern) (hwf : sp.WellFormed) (i : Nat) (hi : i < sp.rows)
    (s t : Nat) (hs1 : sp.rowstart i ≤ s) (hs2 : s < sp.rowstart (i + 1))
    (ht1 : sp.rowstart i ≤ t) (ht2 : t < sp.rowstart (i + 1))
    (h : sp.column s = sp.column t) : s = t := by
  have hd := (hwf.2.1 i hi).2
  by_contra hne
  rcases Nat.lt_or_gt_of_ne hne with hlt | hgt
  · rcases Nat.eq_or_lt_of_le hs1 with e | e
    · have := (hwf.2.2 i hi t (by omega) ht2).2.1
      rw [← e] at h; omega
    · have := wf_col_lt sp hwf i hi s t (by omega) hlt ht2
      omega
  · rcases Nat.eq_or_lt_of_le ht1 with e | e
    · have := (hwf.2.2 i hi s (by omega) hs2).2.1
      rw [← e] at h; omega
    · have := wf_col_lt sp hwf i hi t s (by omega) hgt hs2
      omega

/-- The split point found by `lower_bound` in a well-formed row. -/
theorem wf_lower_bound (sp : SparsityPattern) (hwf : sp.WellFormed) (i : Nat) (hi : i < sp.rows) :
    sp.rowstart i + 1 ≤ lower_bound sp (sp.rowstart i + 1) (sp.rowstart (i + 1)) i ∧
    lower_bound sp (sp.rowstart i + 1) (sp.rowstart (i + 1)) i ≤ sp.rowstart (i + 1) ∧
    (∀ s, sp.rowstart i + 1 ≤ s → s < lower_bound sp (sp.rowstart i + 1) (sp.rowstart (i + 1)) i →
      sp.column s < i) ∧
    (∀ s, lower_bound sp (sp.rowstart i + 1) (sp.rowstart (i + 1)) i ≤ s → s < sp.rowstart (i + 1) →
      i < sp.column s) := by
  have hrow := (hwf.2.1 i hi).1
  obtain ⟨h1, h2, h3, h4⟩ := lower_bound_scan_spec sp i
    (sp.rowstart (i + 1) - (sp.rowstart i + 1)) (sp.rowstart i + 1)
  have e : sp.rowstart i + 1 + (sp.rowstart (i + 1) - (sp.rowstart i + 1)) = sp.rowstart (i + 1) := by
    omega
  rw [e] at h2 h4
  refine ⟨h1, h2, h3, ?_⟩
  intro s hs1 hs2
  have hq := h4 (by unfold lower_bound at hs1; omega)
  have hne := (hwf.2.2 i hi s (by unfold lower_bound at hs1; omega) hs2).2.1
  rcases Nat.eq_or_lt_of_le hs1 with e1 | e1
  · unfold lower_bound at e1
    rw [e1] at hq; omega
  · have := wf_col_lt sp hwf i hi _ s h1 e1 hs2
    unfold lower_bound at this
    omega

theorem index_some_iff (sp : SparsityPattern) (hwf : sp.WellFormed) (i : Nat) (hi : i < sp.rows)
    (j s : Nat) :
    sp.index i j = some s ↔
      (sp.rowstart i ≤ s ∧ s < sp.rowstart (i + 1) ∧ sp.column s = j) := by
  have hrow := (hwf.2.1 i hi).1
  constructor
  · intro h
    unfold SparsityPattern.index at h
    have hm := List.mem_of_find?_eq_some h
    have hp := List.find?_some h
    rw [List.mem_range'_1] at hm
    unfold row_length at hm
    simp at hp
    exact ⟨hm.1, by omega, hp⟩
  · rintro ⟨h1, h2, h3⟩
    cases hfind : sp.index i j with
    | none =>
      unfold SparsityPattern.index at hfind
      rw [List.find?_eq_none] at hfind
      have := hfind s (by rw [List.mem_range'_1]; unfold row_length; omega)
      simp [h3] at this
    | some t =>
      unfold SparsityPattern.index at hfind
      have hm := List.mem_of_find?_eq_some hfind
      have hp := List.find?_some hfind
      rw [List.mem_range'_1] at hm
      unfold row_length at hm
      simp at hp
      have := wf_col_inj sp hwf i hi t s hm.1 (by omega) h1 h2 (by rw [hp, h3])
      rw [this]

theorem index_diag (sp : SparsityPattern) (hwf : sp.WellFormed) (i : Nat) (hi : i < sp.rows) :
    sp.index i i = some (sp.rowstart i) := by
  rw [index_some_iff sp hwf i hi]
  exact ⟨le_refl _, (hwf.2.1 i hi).1, (hwf.2.1 i hi).2⟩

end Pattern

section Sums

variable {K : Type} [LinearOrderedField K]

open SparsityPattern SparseILU

theorem sum_map_range' (f : Nat → K) : ∀ (n a : Nat),
    ((List.range' a n).map f).sum = ∑ s ∈ Finset.Ico a (a + n), f s := by
  intro n
  induction n with
  | zero => intro a; simp
  | succ n ih =>
    intro a
    rw [List.range'_succ, List.map_cons, List.sum_cons, ih (a + 1),
      Finset.sum_eq_sum_Ico_succ_bot (by omega : a < a + (n + 1))]
    have e : a + 1 + n = a + (n + 1) := by omega
    rw [e]

theorem el_eq_sum (A : SparseMatrix K) (hwf : A.cols.WellFormed) (i : Nat) (hi : i < A.m)
    (j : Nat) :
    A.el i j = ∑ s ∈ Finset.Ico (A.cols.rowstart i) (A.cols.rowstart (i + 1)),
      if A.cols.column s = j then A.global_entry s else 0 := by
  unfold SparseMatrix.el
  cases h : A.cols.index i j with
  | some t =>
    obtain ⟨h1, h2, h3⟩ := (index_some_iff A.cols hwf i hi j t).1 h
    rw [Finset.sum_eq_single t]
    · simp [h3, SparseMatrix.global_entry]
    · intro s hs hne
      rw [Finset.mem_Ico] at hs
      rw [if_neg]
      intro hc
      exact hne (wf_col_inj A.cols hwf i hi s t hs.1 hs.2 h1 h2 (by rw [hc, h3]))
    · intro hnot
      exact absurd (Finset.mem_Ico.2 ⟨h1, h2⟩) hnot
  | none =>
    symm
    apply Finset.sum_eq_zero
    intro s hs
    rw [Finset.mem_Ico] at hs
    rw [if_neg]
    intro hc
    have := (index_some_iff A.cols hwf i hi j s).2 ⟨hs.1, hs.2, hc⟩
    rw [h] at this
    exact Option.noConfusion this

theorem wf_col_lt_rows (sp : SparsityPattern) (hwf : sp.WellFormed) (i : Nat) (hi : i < sp.rows)
    (s : Nat) (h1 : sp.rowstart i ≤ s) (h2 : s < sp.rowstart (i + 1)) : sp.column s < sp.rows := by
  rcases Nat.eq_or_lt_of_le h1 with e | e
  · rw [← e, (hwf.2.1 i hi).2]; exact hi
  · have := (hwf.2.2 i hi s (by omega) h2).1
    rw [hwf.1]; exact this

/-- A row of the dense matrix against a vector, as a sum over the row's slots. -/
theorem el_mul_sum (A : SparseMatrix K) (hwf : A.cols.WellFormed) (i : Nat) (hi : i < A.m)
    (g : Nat → K) :
    ∑ j ∈ Finset.range A.m, A.el i j * g j =
      ∑ s ∈ Finset.Ico (A.cols.rowstart i) (A.cols.rowstart (i + 1)),
        A.global_entry s * g (A.cols.column s) := by
  have h1 : ∀ j ∈ Finset.range A.m, A.el i j * g j =
      ∑ s ∈ Finset.Ico (A.cols.rowstart i) (A.cols.rowstart (i + 1)),
        if A.cols.column s = j then A.global_entry s * g j else 0 := by
    intro j _
    rw [el_eq_sum A hwf i hi j, Finset.sum_mul]
    apply Finset.sum_congr rfl
    intro s _
    split <;> simp
  rw [Finset.sum_congr rfl h1, Finset.sum_comm]
  apply Finset.sum_congr rfl
  intro s hs
  rw [Finset.mem_Ico] at hs
  have hc : A.cols.column s ∈ Finset.range A.m :=
    Finset.mem_range.2 (wf_col_lt_rows A.cols hwf i hi s hs.1 hs.2)
  rw [Finset.sum_eq_single (A.cols.column s)]
  · simp
  · intro j _ hne
    rw [if_neg (Ne.symm hne)]
  · intro hnot; exact absurd hc hnot

theorem Lsum_eq_slots (A : SparseMatrix K) (hwf : A.cols.WellFormed) (i : Nat) (hi : i < A.m)
    (d : List K) :
    Lsum A i d = ∑ s ∈ Finset.Ico (A.cols.rowstart i + 1)
        (lower_bound A.cols (A.cols.rowstart i + 1) (A.cols.rowstart (i + 1)) i),
      A.global_entry s * d.getD (A.cols.column s) 0 := by
  obtain ⟨b1, b2, b3, b4⟩ := wf_lower_bound A.cols hwf i hi
  have hd := (hwf.2.1 i hi).2
  unfold Lsum
  have e : ∀ j ∈ Finset.range A.m, (if j < i then A.el i j else 0) * d.getD j 0 =
      A.el i j * (if j < i then d.getD j 0 else 0) := by
    intro j _; split <;> simp
  rw [Finset.sum_congr rfl e, el_mul_sum A hwf i hi]
  have hsub : Finset.Ico (A.cols.rowstart i + 1)
      (lower_bound A.cols (A.cols.rowstart i + 1) (A.cols.rowstart (i + 1)) i) ⊆
      Finset.Ico (A.cols.rowstart i) (A.cols.rowstart (i + 1)) := by
    intro s hs
    rw [Finset.mem_Ico] at hs ⊢
    omega
  rw [← Finset.sum_subset hsub]
  · apply Finset.sum_congr rfl
    intro s hs
    rw [Finset.mem_Ico] at hs
    rw [if_pos (b3 s hs.1 hs.2)]
  · intro s hs hnot
    rw [Finset.mem_Ico] at hs hnot
    have : ¬ A.cols.column s < i := by
      by_cases h0 : s = A.cols.rowstart i
      · rw [h0, hd]; omega
      · have := b4 s (by omega) hs.2
        omega
    rw [if_neg this, mul_zero]

theorem Usum_eq_slots (A : SparseMatrix K) (hwf : A.cols.WellFormed) (i : Nat) (hi : i < A.m)
    (d : List K) :
    Usum A i d = ∑ s ∈ Finset.Ico
        (lower_bound A.cols (A.cols.rowstart i + 1) (A.cols.rowstart (i + 1)) i)
        (A.cols.rowstart (i + 1)),
      A.global_entry s * d.getD (A.cols.column s) 0 := by
  obtain ⟨b1, b2, b3, b4⟩ := wf_lower_bound A.cols hwf i hi
  have hd := (hwf.2.1 i hi).2
  unfold Usum
  have e : ∀ j ∈ Finset.range A.m, (if i < j then A.el i j else 0) * d.getD j 0 =
      A.el i j * (if i < j then d.getD j 0 else 0) := by
    intro j _; split <;> simp
  rw [Finset.sum_congr rfl e, el_mul_sum A hwf i hi]
  have hsub : Finset.Ico
      (lower_bound A.cols (A.cols.rowstart i + 1) (A.cols.rowstart (i + 1)) i)
      (A.cols.rowstart (i + 1)) ⊆
      Finset.Ico (A.cols.rowstart i) (A.cols.rowstart (i + 1)) := by
    intro s hs
    rw [Finset.mem_Ico] at hs ⊢
    omega
  rw [← Finset.sum_subset hsub]
  · apply Finset.sum_congr rfl
    intro s hs
    rw [Finset.mem_Ico] at hs
    rw [if_pos (b4 s hs.1 hs.2)]
  · intro s hs hnot
    rw [Finset.mem_Ico] at hs hnot
    have : ¬ i < A.cols.column s := by
      by_cases h0 : s = A.cols.rowstart i
      · rw [h0, hd]; omega
      · have := b3 s (by omega) (by omega)
        omega
    rw [if_neg this, mul_zero]

end Sums

section Sweeps

variable {K : Type} [LinearOrderedField K]

open SparsityPattern SparseILU

theorem sweep_fold (a : Nat → K) (c : Nat → Nat) (row : Nat) :
    ∀ (slots : List Nat) (d : List K), (∀ s ∈ slots, c s ≠ row) →
      slots.foldl (fun d s => d.set row (d.getD row 0 - a s * d.getD (c s) 0)) d =
        d.set row (d.getD row 0 - (slots.map (fun s => a s * d.getD (c s) 0)).sum) := by
  intro slots
  induction slots with
  | nil =>
    intro d _
    by_cases h : row < d.length
    · simp only [List.foldl_nil, List.map_nil, List.sum_nil, sub_zero]
      apply List.ext_getElem?
      intro j
      by_cases hj : row = j
      · subst hj
        simp [List.getElem?_set, h, List.getD_eq_getElem?_getD]
      · simp [List.getElem?_set, hj]
    · simp only [List.foldl_nil]
      rw [set_of_length_le _ _ _ (by omega)]
  | cons s rest ih =>
    intro d hc
    rw [List.foldl_cons, ih _ (fun t ht => hc t (List.mem_cons_of_mem _ ht))]
    have hs := hc s (List.mem_cons_self _ _)
    by_cases h : row < d.length
    · rw [set_set_same, getD_set_eq _ _ _ _ h]
      congr 1
      rw [List.map_cons, List.sum_cons]
      have e : (rest.map fun t => a t *
          (d.set row (d.getD row 0 - a s * d.getD (c s) 0)).getD (c t) 0) =
          rest.map fun t => a t * d.getD (c t) 0 := by
        apply List.map_congr_left
        intro t ht
        rw [getD_set_ne _ _ _ _ _ (Ne.symm (hc t (List.mem_cons_of_mem _ ht)))]
      rw [e]
      ring
    · have hle : d.length ≤ row := by omega
      rw [set_of_length_le d row _ hle, set_of_length_le d row _ hle,
        set_of_length_le d row _ hle]

theorem forward_row_eq (A : SparseMatrix K) (hwf : A.cols.WellFormed) (i : Nat) (hi : i < A.m)
    (d : List K) :
    forward_row A d i = d.set i (d.getD i 0 - Lsum A i d) := by
  obtain ⟨b1, b2, b3, b4⟩ := wf_lower_bound A.cols hwf i hi
  unfold forward_row
  simp only
  rw [sweep_fold (fun s => A.global_entry s) (fun s => A.cols.column s) i]
  · rw [sum_map_range' (fun s => A.global_entry s * d.getD (A.cols.column s) 0),
      Lsum_eq_slots A hwf i hi]
    have e : A.cols.rowstart i + 1 +
        (lower_bound A.cols (A.cols.rowstart i + 1) (A.cols.rowstart (i + 1)) i -
          (A.cols.rowstart i + 1)) =
        lower_bound A.cols (A.cols.rowstart i + 1) (A.cols.rowstart (i + 1)) i := by omega
    rw [e]
  · intro s hs
    rw [List.mem_range'_1] at hs
    have := b3 s hs.1 (by omega)
    omega

theorem backward_row_eq (A : SparseMatrix K) (hwf : A.cols.WellFormed) (i : Nat) (hi : i < A.m)
    (d : List K) (hd : i < d.length) :
    backward_row A d i = d.set i ((d.getD i 0 - Usum A i d) * A.diag_element i) := by
  obtain ⟨b1, b2, b3, b4⟩ := wf_lower_bound A.cols hwf i hi
  unfold backward_row
  simp only
  rw [sweep_fold (fun s => A.global_entry s) (fun s => A.cols.column s) i]
  · rw [sum_map_range' (fun s => A.global_entry s * d.getD (A.cols.column s) 0),
      Usum_eq_slots A hwf i hi]
    have e : lower_bound A.cols (A.cols.rowstart i + 1) (A.cols.rowstart (i + 1)) i +
        (A.cols.rowstart (i + 1) -
          lower_bound A.cols (A.cols.rowstart i + 1) (A.cols.rowstart (i + 1)) i) =
        A.cols.rowstart (i + 1) := by omega
    rw [e, set_set_same, getD_set_eq _ _ _ _ hd]
  · intro s hs
    rw [List.mem_range'_1] at hs
    have := b4 s hs.1 (by omega)
    omega

theorem Lsum_congr (A : SparseMatrix K) (i : Nat) (d e : List K)
    (h : ∀ j, j < i → d.getD j 0 = e.getD j 0) : Lsum A i d = Lsum A i e := by
  unfold Lsum
  apply Finset.sum_congr rfl
  intro j _
  by_cases hj : j < i
  · rw [h j hj]
  · simp [hj]

theorem Usum_congr (A : SparseMatrix K) (i : Nat) (d e : List K)
    (h : ∀ j, i < j → d.getD j 0 = e.getD j 0) : Usum A i d = Usum A i e := by
  unfold Usum
  apply Finset.sum_congr rfl
  intro j _
  by_cases hj : i < j
  · rw [h j hj]
  · simp [hj]

/-- State of the forward sweep after the rows below `k`. -/
theorem forward_sweep_inv (A : SparseMatrix K) (hwf : A.cols.WellFormed) (src : List K) :
    ∀ k, k ≤ A.m →
      ((List.range k).foldl (forward_row A) src).length = src.length ∧
      (∀ i, i < k → i < src.length →
        ((List.range k).foldl (forward_row A) src).getD i 0 +
          Lsum A i ((List.range k).foldl (forward_row A) src) = src.getD i 0) ∧
      (∀ i, k ≤ i → ((List.range k).foldl (forward_row A) src).getD i 0 = src.getD i 0) := by
  intro k
  induction k with
  | zero =>
    intro _
    refine ⟨rfl, ?_, ?_⟩
    · intro i hi; omega
    · intro i _; rfl
  | succ k ih =>
    intro hk
    obtain ⟨h1, h2, h3⟩ := ih (by omega)
    rw [List.range_succ, List.foldl_append, List.foldl_cons, List.foldl_nil,
      forward_row_eq A hwf k (by omega)]
    generalize (List.range k).foldl (forward_row A) src = d at h1 h2 h3
    refine ⟨by rw [List.length_set, h1], ?_, ?_⟩
    · intro i hik hil
      have hL : Lsum A i (d.set k (d.getD k 0 - Lsum A k d)) = Lsum A i d := by
        apply Lsum_congr
        intro j hj
        rw [getD_set_ne _ _ _ _ _ (by omega)]
      rw [hL]
      rcases Nat.eq_or_lt_of_le (Nat.le_of_lt_succ hik) with e | e
      · subst e
        rw [getD_set_eq _ _ _ _ (by omega), h3 i (le_refl _)]
        ring
      · rw [getD_set_ne _ _ _ _ _ (by omega)]
        exact h2 i e hil
    · intro i hik
      rw [getD_set_ne _ _ _ _ _ (by omega)]
      exact h3 i (by omega)

/-- State of the backward sweep started at row `k - 1`. -/
theorem backward_sweep_inv (A : SparseMatrix K) (hwf : A.cols.WellFormed) :
    ∀ k (d : List K), k ≤ A.m → k ≤ d.length →
      (backward_sweep A k d).length = d.length ∧
      (∀ i, k ≤ i → (backward_sweep A k d).getD i 0 = d.getD i 0) ∧
      (∀ i, i < k → (backward_sweep A k d).getD i 0 =
        (d.getD i 0 - Usum A i (backward_sweep A k d)) * A.diag_element i) := by
  intro k
  induction k with
  | zero =>
    intro d _ _
    refine ⟨rfl, ?_, ?_⟩
    · intro i _; rfl
    · intro i hi; omega
  | succ k ih =>
    intro d hk hd
    unfold backward_sweep
    rw [backward_row_eq A hwf k (by omega) d (by omega)]
    obtain ⟨h1, h2, h3⟩ :=
      ih (d.set k ((d.getD k 0 - Usum A k d) * A.diag_element k)) (by omega)
        (by rw [List.length_set]; omega)
    generalize backward_sweep A k (d.set k ((d.getD k 0 - Usum A k d) * A.diag_element k)) = r
      at h1 h2 h3
    refine ⟨by rw [h1, List.length_set], ?_, ?_⟩
    · intro i hi
      rw [h2 i (by omega), getD_set_ne _ _ _ _ _ (by omega)]
    · intro i hi
      rcases Nat.eq_or_lt_of_le (Nat.le_of_lt_succ hi) with e | e
      · subst e
        rw [h2 i (le_refl _), getD_set_eq _ _ _ _ (by omega)]
        have hU : Usum A i r = Usum A i d := by
          apply Usum_congr
          intro j hj
          rw [h2 j (by omega), getD_set_ne _ _ _ _ _ (by omega)]
        rw [hU]
      · rw [h3 i e, getD_set_ne _ _ _ _ _ (by omega)]

theorem L_factor_mulVec (A : SparseMatrix K) (y : List K) (i : Fin A.m) :
    (L_factor A).mulVec (to_vector A.m y) i = y.getD i.val 0 + Lsum A i.val y := by
  unfold Matrix.mulVec Matrix.dotProduct L_factor to_vector Lsum
  simp only [Matrix.of_apply]
  rw [← Fin.sum_univ_eq_sum_range
    (fun j => (if j < i.val then A.el i.val j else 0) * y.getD j 0) A.m]
  have e : ∀ j : Fin A.m,
      (if j.val < i.val then A.el i.val j.val else if j.val = i.val then 1 else 0) *
          y.getD j.val 0 =
        (if j = i then y.getD j.val 0 else 0) +
          (if j.val < i.val then A.el i.val j.val else 0) * y.getD j.val 0 := by
    intro j
    by_cases h1 : j.val < i.val
    · have : j ≠ i := fun h => by rw [h] at h1; omega
      simp [h1, this]
    · by_cases h2 : j = i
      · subst h2; simp
      · have : j.val ≠ i.val := fun h => h2 (Fin.ext h)
        simp [h1, h2, this]
  rw [Finset.sum_congr rfl (fun j _ => e j), Finset.sum_add_distrib,
    Finset.sum_ite_eq' Finset.univ i (fun j => y.getD j.val 0)]
  simp

theorem U_factor_mulVec (A : SparseMatrix K) (x : List K) (i : Fin A.m) :
    (U_factor A).mulVec (to_vector A.m x) i =
      1 / A.el i.val i.val * x.getD i.val 0 + Usum A i.val x := by
  unfold Matrix.mulVec Matrix.dotProduct U_factor to_vector Usum
  simp only [Matrix.of_apply]
  rw [← Fin.sum_univ_eq_sum_range
    (fun j => (if i.val < j then A.el i.val j else 0) * x.getD j 0) A.m]
  have e : ∀ j : Fin A.m,
      (if i.val < j.val then A.el i.val j.val
          else if j.val = i.val then 1 / A.el i.val i.val else 0) * x.getD j.val 0 =
        (if j = i then 1 / A.el i.val i.val * x.getD j.val 0 else 0) +
          (if i.val < j.val then A.el i.val j.val else 0) * x.getD j.val 0 := by
    intro j
    by_cases h1 : i.val < j.val
    · have : j ≠ i := fun h => by rw [h] at h1; omega
      simp [h1, this]
    · by_cases h2 : j = i
      · subst h2; simp
      · have : j.val ≠ i.val := fun h => h2 (Fin.ext h)
        simp [h1, h2, this]
  rw [Finset.sum_congr rfl (fun j _ => e j), Finset.sum_add_distrib,
    Finset.sum_ite_eq' Finset.univ i (fun j => 1 / A.el i.val i.val * x.getD j.val 0)]
  simp

theorem el_diag (A : SparseMatrix K) (hwf : A.cols.WellFormed) (i : Nat) (hi : i < A.m) :
    A.el i i = A.diag_element i := by
  unfold SparseMatrix.el SparseMatrix.diag_element
  rw [index_diag A.cols hwf i hi]

end Sweeps

section Frame

variable {K : Type} [LinearOrderedField K]

open SparsityPattern SparseILU

theorem foldl_invariant {σ β : Type} (P : σ → Prop) (f : σ → β → σ)
    (hf : ∀ acc x, P acc → P (f acc x)) : ∀ (l : List β) (init : σ), P init → P (l.foldl f init) := by
  intro l
  induction l with
  | nil => intro init h; exact h
  | cons x rest ih => intro init h; exact ih _ (hf _ _ h)

theorem set_frame {T : Type} (A : SparseMatrix T) (i j : Nat) (v : T) :
    (A.set i j v).cols = A.cols ∧ (A.set i j v).val.length = A.val.length := by
  unfold SparseMatrix.set
  split
  · exact ⟨rfl, by simp⟩
  · exact ⟨rfl, rfl⟩

theorem fill_n_length (val : List K) (n : Nat) : (fill_n val n).length = val.length := by
  unfold fill_n
  exact foldl_invariant (fun v : List K => v.length = val.length) (fun v k => v.set k 0)
    (fun acc x h => by simp only [List.length_set]; exact h) _ _ rfl

theorem copy_from_frame (self matrix : SparseMatrix K) :
    (copy_from self matrix).cols = self.cols ∧
      (copy_from self matrix).val.length = self.val.length := by
  unfold copy_from
  refine foldl_invariant
    (fun t : SparseMatrix K => t.cols = self.cols ∧ t.val.length = self.val.length) _ ?_ _ _ ?_
  · intro acc row h
    unfold copy_row
    refine foldl_invariant
      (fun t : SparseMatrix K => t.cols = self.cols ∧ t.val.length = self.val.length) _ ?_ _ _ ?_
    · intro t col ht
      have := set_frame t row (matrix.cols.column col) (matrix.global_entry col)
      exact ⟨this.1.trans ht.1, this.2.trans ht.2⟩
    · exact h
  · exact ⟨rfl, fill_n_length _ _⟩

theorem strengthen_frame (self : SparseMatrix K) (s : K) :
    (strengthen self s).cols = self.cols ∧ (strengthen self s).val.length = self.val.length := by
  unfold strengthen
  split
  · refine foldl_invariant
      (fun t : SparseMatrix K => t.cols = self.cols ∧ t.val.length = self.val.length) _ ?_ _ _ ?_
    · intro acc row h
      unfold strengthen_row
      exact ⟨h.1, by simp only [List.length_set]; exact h.2⟩
    · exact ⟨rfl, rfl⟩
  · exact ⟨rfl, rfl⟩

theorem eliminate_j_length (sp : SparsityPattern) (row ik : Nat) (st : List K × Bool) (j : Nat) :
    (eliminate_j sp row ik st j).1.length = st.1.length := by
  unfold eliminate_j
  simp only
  split <;> split <;> (try split) <;> simp

theorem eliminate_row_length (sp : SparsityPattern) (row : Nat) (val : List K) :
    (eliminate_row sp row val).length = val.length := by
  unfold eliminate_row
  simp only
  refine foldl_invariant (fun v : List K => v.length = val.length) _ ?_ _ _ ?_
  · intro acc col_ptr h
    unfold eliminate_k
    have := foldl_invariant (fun st : List K × Bool => st.1.length = val.length)
      (eliminate_j sp row col_ptr)
      (fun st j hst => (eliminate_j_length sp row col_ptr st j).trans hst)
      (List.range' (col_ptr + 1) (sp.rowstart (row + 1) - (col_ptr + 1)))
      (acc.set col_ptr (acc.getD col_ptr 0 * acc.getD (sp.rowstart (sp.column col_ptr)) 0), true)
      (by simp only [List.length_set]; exact h)
    exact this
  · rfl

theorem eliminate_length (sp : SparsityPattern) :
    ∀ (rows : List Nat) (val : List K), (eliminate sp rows val).2.length = val.length := by
  intro rows
  induction rows with
  | nil => intro val; rfl
  | cons row rest ih =>
    intro val
    unfold eliminate
    split
    · rfl
    · rw [ih, eliminate_row_length, List.length_set]

end Frame

namespace GaussJordan

variable {K : Type} [LinearOrderedField K] {n : Nat}

theorem pivot_fold (A : Matrix (Fin n) (Fin n) K) (j : Fin n) :
    ∀ (l : List (Fin n)) (r0 : Fin n), j ≤ r0 →
      j ≤ l.foldl (fun r i => if j ≤ i ∧ abs (A r j) < abs (A i j) then i else r) r0 ∧
      abs (A r0 j) ≤
        abs (A (l.foldl (fun r i => if j ≤ i ∧ abs (A r j) < abs (A i j) then i else r) r0) j) ∧
      ∀ i ∈ l, j ≤ i → abs (A i j) ≤
        abs (A (l.foldl (fun r i => if j ≤ i ∧ abs (A r j) < abs (A i j) then i else r) r0) j) := by
  intro l
  induction l with
  | nil =>
    intro r0 h
    exact ⟨h, le_refl _, fun i hi => absurd hi (List.not_mem_nil i)⟩
  | cons x rest ih =>
    intro r0 h
    rw [List.foldl_cons]
    by_cases hx : j ≤ x ∧ abs (A r0 j) < abs (A x j)
    · rw [if_pos hx]
      obtain ⟨h1, h2, h3⟩ := ih x hx.1
      refine ⟨h1, le_trans (le_of_lt hx.2) h2, ?_⟩
      intro i hi hji
      rcases List.mem_cons.1 hi with e | e
      · rw [e]; exact h2
      · exact h3 i e hji
    · rw [if_neg hx]
      obtain ⟨h1, h2, h3⟩ := ih r0 h
      refine ⟨h1, h2, ?_⟩
      intro i hi hji
      rcases List.mem_cons.1 hi with e | e
      · rw [e]
        rw [e] at hji
        have : abs (A x j) ≤ abs (A r0 j) := by
          by_contra hc
          exact hx ⟨hji, lt_of_not_le hc⟩
        exact le_trans this h2
      · exact h3 i e hji

theorem pivot_row_ge (A : Matrix (Fin n) (Fin n) K) (j : Fin n) : j ≤ pivot_row A j :=
  (pivot_fold A j (List.finRange n) j (le_refl _)).1

theorem pivot_row_max (A : Matrix (Fin n) (Fin n) K) (j i : Fin n) (h : j ≤ i) :
    abs (A i j) ≤ abs (A (pivot_row A j) j) :=
  (pivot_fold A j (List.finRange n) j (le_refl _)).2.2 i (List.mem_finRange i) h

theorem swap_index_self (j r : Fin n) : swap_index j r j = r := by
  simp [swap_index]

theorem step_column_linear (j r : Fin n) (c : Fin n → K) (Y : Fin n → Fin n → K)
    (w : Fin n → K) (i : Fin n) :
    step_column j r c (fun a => ∑ l, Y a l * w l) i =
      ∑ l, step_column j r c (fun a => Y a l) i * w l := by
  unfold step_column
  by_cases h : i = j
  · simp only [h, if_true]
    rw [Finset.mul_sum]
    apply Finset.sum_congr rfl
    intro l _
    ring
  · simp only [h, if_false]
    rw [Finset.mul_sum, Finset.mul_sum, ← Finset.sum_sub_distrib]
    apply Finset.sum_congr rfl
    intro l _
    ring

theorem step_column_pivot (j r : Fin n) (y : Fin n → K) (hp : y r ≠ 0) (i : Fin n) :
    step_column j r (fun a => y (swap_index j r a)) y i = if i = j then 1 else 0 := by
  unfold step_column
  simp only [swap_index_self]
  by_cases h : i = j
  · simp only [h, if_true]
    exact inv_mul_cancel₀ hp
  · simp only [h, if_false]
    rw [inv_mul_cancel₀ hp]
    ring

theorem step_column_unit (j r k : Fin n) (c : Fin n → K) (hkj : k < j) (hjr : j ≤ r)
    (i : Fin n) :
    step_column j r c (fun a => if a = k then 1 else 0) i = if i = k then 1 else 0 := by
  have hrk : r ≠ k := fun h => by rw [h] at hjr; exact absurd hkj (not_lt.2 hjr)
  have hjk : j ≠ k := fun h => by rw [h] at hkj; exact lt_irrefl _ hkj
  unfold step_column swap_index
  by_cases h : i = j
  · simp [h, hrk, hjk]
  · by_cases h2 : i = r
    · subst h2
      simp [h, hrk, hjk]
    · simp [h, h2, hrk]

theorem step_column_injective (j r : Fin n) (c y : Fin n → K) (hp : c j ≠ 0)
    (h : ∀ i, step_column j r c y i = 0) : ∀ a, y a = 0 := by
  have hr : y r = 0 := by
    have := h j
    unfold step_column at this
    simp only [if_true] at this
    rcases mul_eq_zero.1 this with e | e
    · exact absurd (inv_eq_zero.1 e) hp
    · exact e
  have hs : ∀ i, i ≠ j → y (swap_index j r i) = 0 := by
    intro i hi
    have := h i
    unfold step_column at this
    simp only [hi, if_false, hr, mul_zero, sub_zero] at this
    exact this
  intro a
  by_cases ha : a = r
  · rw [ha]; exact hr
  · by_cases hj : a = j
    · have hrj : r ≠ j := fun e => ha (by rw [hj, e])
      have := hs r hrj
      unfold swap_index at this
      simp only [hrj, if_false, if_true] at this
      rw [hj]; exact this
    · have := hs a hj
      unfold swap_index at this
      simp only [hj, ha, if_false] at this
      exact this

theorem step_matrix_mul (j r : Fin n) (c : Fin n → K) (B M : Matrix (Fin n) (Fin n) K) :
    step_matrix j r c B * M = step_matrix j r c (B * M) := by
  funext i k
  show (∑ l, step_column j r c (fun a => B a l) i * M l k) =
    step_column j r c (fun a => ∑ l, B a l * M l k) i
  rw [step_column_linear]

theorem step_matrix_mulVec (j r : Fin n) (c : Fin n → K) (A : Matrix (Fin n) (Fin n) K)
    (v : Fin n → K) :
    (step_matrix j r c A).mulVec v = step_column j r c (A.mulVec v) := by
  funext i
  show (∑ l, step_column j r c (fun a => A a l) i * v l) =
    step_column j r c (fun a => ∑ l, A a l * v l) i
  rw [step_column_linear]

end GaussJordan

namespace GaussJordan

variable {K : Type} [LinearOrderedField K] {n : Nat}

theorem step_matrix_apply (j r : Fin n) (c : Fin n → K) (X : Matrix (Fin n) (Fin n) K)
    (i k : Fin n) : step_matrix j r c X i k = step_column j r c (fun a => X a k) i := rfl

theorem kernel_vector (A : Matrix (Fin n) (Fin n) K) (j : Fin n)
    (hunit : ∀ c : Fin n, c < j → ∀ i, A i c = if i = c then 1 else 0)
    (hzero : ∀ i, j ≤ i → A i j = 0) :
    A.mulVec (fun a => if a = j then 1 else if a < j then - A a j else 0) = 0 := by
  funext i
  have e : ∀ a : Fin n, A i a * (if a = j then 1 else if a < j then - A a j else 0) =
      (if a = j then A i j else 0) + (if a = i then (if i < j then - A i j else 0) else 0) := by
    intro a
    by_cases h1 : a = j
    · subst h1
      by_cases h2 : a = i
      · subst h2; simp
      · simp [h2]
    · by_cases h2 : a < j
      · rw [hunit a h2 i]
        by_cases h3 : a = i
        · subst h3; simp [h1, h2]
        · have h4 : ¬ i = a := fun h => h3 h.symm
          simp [h1, h2, h3, h4]
      · have h3 : j < a := lt_of_le_of_ne (not_lt.1 h2) (Ne.symm h1)
        by_cases h4 : a = i
        · subst h4
          simp [h1, h2]
        · simp [h1, h2, h4]
  simp only [Matrix.mulVec, Matrix.dotProduct, Pi.zero_apply]
  rw [Finset.sum_congr rfl (fun a _ => e a), Finset.sum_add_distrib,
    Finset.sum_ite_eq' Finset.univ j (fun _ => A i j),
    Finset.sum_ite_eq' Finset.univ i (fun _ => if i < j then - A i j else 0)]
  by_cases h : i < j
  · simp [h]
  · simp [h, hzero i (not_lt.1 h)]

theorem loop_inv (M : Matrix (Fin n) (Fin n) K) (hM : ∀ v, M.mulVec v = 0 → v = 0) :
    ∀ k, k ≤ n →
      (loop k (M, 1)).2 * M = (loop k (M, 1)).1 ∧
      (∀ v, (loop k (M, 1)).1.mulVec v = 0 → v = 0) ∧
      (∀ c : Fin n, c.val < k → ∀ i, (loop k (M, 1)).1 i c = if i = c then 1 else 0) := by
  intro k
  induction k with
  | zero =>
    intro _
    refine ⟨by simp [loop], by simpa [loop] using hM, ?_⟩
    intro c hc; omega
  | succ k ih =>
    intro hk
    have hkn : k < n := by omega
    obtain ⟨i1, i2, i3⟩ := ih (by omega)
    unfold loop
    rw [dif_pos hkn]
    generalize loop k (M, 1) = S at i1 i2 i3
    unfold step
    simp only
    have hge := pivot_row_ge S.1 ⟨k, hkn⟩
    have hp : S.1 (pivot_row S.1 ⟨k, hkn⟩) ⟨k, hkn⟩ ≠ 0 := by
      intro h0
      have hz : ∀ i, (⟨k, hkn⟩ : Fin n) ≤ i → S.1 i ⟨k, hkn⟩ = 0 := by
        intro i hi
        have := pivot_row_max S.1 ⟨k, hkn⟩ i hi
        rw [h0, abs_zero] at this
        exact abs_eq_zero.1 (le_antisymm this (abs_nonneg _))
      have hker := kernel_vector S.1 ⟨k, hkn⟩ (fun c hc => i3 c hc) hz
      have := congrFun (i2 _ hker) ⟨k, hkn⟩
      simp at this
    refine ⟨?_, ?_, ?_⟩
    · rw [step_matrix_mul, i1]
    · intro v hv
      rw [step_matrix_mulVec] at hv
      apply i2
      funext a
      refine step_column_injective ⟨k, hkn⟩ (pivot_row S.1 ⟨k, hkn⟩) _ (S.1.mulVec v) ?_
        (fun i => congrFun hv i) a
      simp only [swap_index_self]
      exact hp
    · intro c hc i
      rw [step_matrix_apply]
      rcases Nat.eq_or_lt_of_le (Nat.le_of_lt_succ hc) with e | e
      · have hcj : c = ⟨k, hkn⟩ := Fin.ext e
        subst hcj
        exact step_column_pivot _ (pivot_row S.1 ⟨k, hkn⟩) (fun a => S.1 a ⟨k, hkn⟩) hp i
      · have hu : (fun a => S.1 a c) = fun a => if a = c then 1 else 0 := by
          funext a; exact i3 c e a
        rw [hu]
        exact step_column_unit _ _ c _ (Fin.lt_iff_val_lt_val.2 e) hge i

/-- The elimination inverts every invertible matrix. -/
theorem invert_mul (M : Matrix (Fin n) (Fin n) K) (hM : IsUnit M.det) : invert M * M = 1 := by
  have hinj : ∀ v, M.mulVec v = 0 → v = 0 := by
    intro v hv
    have h1 : M⁻¹ * M = 1 := Matrix.nonsing_inv_mul M hM
    have : (M⁻¹ * M).mulVec v = v := by rw [h1, Matrix.one_mulVec]
    rw [← this, ← Matrix.mulVec_mulVec, hv, Matrix.mulVec_zero]
  obtain ⟨h1, _, h3⟩ := loop_inv M hinj n (le_refl _)
  unfold invert
  rw [h1]
  funext i c
  rw [h3 c c.isLt i, Matrix.one_apply]

end GaussJordan

section VankaTable

variable {K : Type} [LinearOrderedField K]

open SparseVanka

theorem getD_set_eq_some {α : Type} (l : List (Option α)) (i : Nat) (v : Option α)
    (h : i < l.length) : (l.set i v).getD i none = v :=
  getD_set_eq l i v none h

theorem getD_replicate_none {α : Type} (n r : Nat) :
    (List.replicate n (none : Option α)).getD r none = none := by
  simp only [List.getD_eq_getElem?_getD, List.getElem?_replicate]
  split <;> rfl

theorem full_set_shape {T : Type} (F : FullMatrix T) (i j : Nat) (v : T) :
    (F.set i j v).m = F.m ∧ (F.set i j v).n = F.n := by
  unfold FullMatrix.set
  split
  · exact ⟨rfl, rfl⟩
  · exact ⟨rfl, rfl⟩

theorem gather_row_shape (matrix : SparseMatrix K) (L : List (Nat × Nat)) (F : FullMatrix K)
    (p : Nat × Nat) :
    (gather_row matrix L F p).m = F.m ∧ (gather_row matrix L F p).n = F.n := by
  unfold gather_row
  simp only
  refine foldl_invariant (fun G : FullMatrix K => G.m = F.m ∧ G.n = F.n) _ ?_ _ _ ⟨rfl, rfl⟩
  intro G j hG
  split
  · have := full_set_shape G p.2 ‹Nat› (matrix.raw_entry p.1 j)
    exact ⟨this.1.trans hG.1, this.2.trans hG.2⟩
  · exact hG

theorem local_system_shape (matrix : SparseMatrix K) (row : Nat) :
    (local_system matrix row).m = matrix.cols.row_length row ∧
      (local_system matrix row).n = matrix.cols.row_length row := by
  unfold local_system
  simp only
  refine foldl_invariant (fun G : FullMatrix K => G.m = matrix.cols.row_length row ∧
    G.n = matrix.cols.row_length row) _ ?_ _ _ ⟨rfl, rfl⟩
  intro G p hG
  have := gather_row_shape matrix (build_local_index matrix.cols row) G p
  exact ⟨this.1.trans hG.1, this.2.trans hG.2⟩

theorem of_matrix_to_matrix (k : Nat) (X : Matrix (Fin k) (Fin k) K) :
    (FullMatrix.of_matrix k X).to_matrix k = X := by
  funext a b
  simp [FullMatrix.of_matrix, FullMatrix.to_matrix]

/-- State of the table while `compute_inverses` runs over the rows below `k`. -/
theorem compute_inverses_fold (self : SparseVanka K) :
    ∀ k, k ≤ self.inverses.length →
      ((List.range k).foldl compute_inverses_row self).matrix = self.matrix ∧
      ((List.range k).foldl compute_inverses_row self).selected = self.selected ∧
      ((List.range k).foldl compute_inverses_row self).conserve_mem = self.conserve_mem ∧
      ((List.range k).foldl compute_inverses_row self).inverses.length = self.inverses.length ∧
      ∀ r, ((List.range k).foldl compute_inverses_row self).inverses.getD r none =
        if r < k ∧ self.selected.getD r false = true then
          some (local_system self.matrix r).gauss_jordan
        else self.inverses.getD r none := by
  intro k
  induction k with
  | zero =>
    intro _
    refine ⟨rfl, rfl, rfl, rfl, ?_⟩
    intro r
    simp
  | succ k ih =>
    intro hk
    obtain ⟨h1, h2, h3, h4, h5⟩ := ih (by omega)
    rw [List.range_succ, List.foldl_append, List.foldl_cons, List.foldl_nil]
    generalize (List.range k).foldl compute_inverses_row self = t at h1 h2 h3 h4 h5
    unfold compute_inverses_row
    by_cases hs : self.selected.getD k false = true
    · have hs2 : t.selected.getD k false = true := by rw [h2]; exact hs
      rw [if_pos hs2]
      refine ⟨h1, h2, h3, by simp only [List.length_set]; exact h4, ?_⟩
      intro r
      by_cases hr : r = k
      · subst hr
        simp only
        rw [getD_set_eq_some _ _ _ (by omega), h1, if_pos ⟨Nat.lt_succ_self _, hs⟩]
      · simp only
        rw [getD_set_ne _ _ _ _ _ (fun h => hr h.symm), h5 r]
        by_cases hc : r < k ∧ self.selected.getD r false = true
        · rw [if_pos hc, if_pos ⟨by omega, hc.2⟩]
        · rw [if_neg hc, if_neg]
          intro hc2
          exact hc ⟨by omega, hc2.2⟩
    · have hs2 : ¬ t.selected.getD k false = true := by rw [h2]; exact hs
      rw [if_neg hs2]
      refine ⟨h1, h2, h3, h4, ?_⟩
      intro r
      rw [h5 r]
      by_cases hc : r < k ∧ self.selected.getD r false = true
      · rw [if_pos hc, if_pos ⟨by omega, hc.2⟩]
      · rw [if_neg hc, if_neg]
        intro hc2
        have : r = k := by
          by_contra hne
          exact hc ⟨by omega, hc2.2⟩
        rw [this] at hc2
        exact hs hc2.2

/-- The table of an engine constructed without `conserve_mem`. -/
theorem construct_eager (M : SparseMatrix K) (selected : List Bool) (h : M.m = M.n) :
    ∃ e : SparseVanka K, construct M selected false = .ok e ∧ e.matrix = M ∧
      e.selected = selected ∧ e.conserve_mem = false ∧ e.inverses.length = M.m ∧
      ∀ r, e.inverses.getD r none =
        if r < M.m ∧ selected.getD r false = true then
          some (local_system M r).gauss_jordan
        else none := by
  obtain ⟨h1, h2, h3, h4, h5⟩ := compute_inverses_fold
    (⟨M, selected, false, List.replicate M.m none⟩ : SparseVanka K) M.m (by simp)
  refine ⟨compute_inverses ⟨M, selected, false, List.replicate M.m none⟩, ?_, h1, h2, h3, ?_, ?_⟩
  · unfold construct
    simp [h]
  · unfold compute_inverses
    simpa using h4
  · intro r
    unfold compute_inverses
    have := h5 r
    simp only at this
    rw [this]
    split
    · rfl
    · exact getD_replicate_none M.m r

end VankaTable

section VankaModes

variable {K : Type} [LinearOrderedField K]

open SparseVanka

theorem build_entry_modes (matrix : SparseMatrix K) (L : List (Nat × Nat)) (dst : List K)
    (irow i : Nat) :
    ∀ (l : List Nat) (st_t st_f : List K × FullMatrix K), st_t.1 = st_f.1 →
      (l.foldl (build_entry matrix true L dst irow i) st_t).1 =
          (l.foldl (build_entry matrix false L dst irow i) st_f).1 ∧
      (l.foldl (build_entry matrix true L dst irow i) st_t).2 =
          l.foldl (fun inv j =>
            match map_find L (matrix.cols.column_number irow j) with
            | some js => inv.set i js (matrix.raw_entry irow j)
            | none => inv) st_t.2 ∧
      (l.foldl (build_entry matrix false L dst irow i) st_f).2 = st_f.2 := by
  intro l
  induction l with
  | nil => intro st_t st_f h; exact ⟨h, rfl, rfl⟩
  | cons j rest ih =>
    intro st_t st_f h
    simp only [List.foldl_cons]
    have key : (build_entry matrix true L dst irow i st_t j).1 =
          (build_entry matrix false L dst irow i st_f j).1 ∧
        (build_entry matrix true L dst irow i st_t j).2 =
          (match map_find L (matrix.cols.column_number irow j) with
            | some js => st_t.2.set i js (matrix.raw_entry irow j)
            | none => st_t.2) ∧
        (build_entry matrix false L dst irow i st_f j).2 = st_f.2 := by
      unfold build_entry
      simp only
      cases map_find L (matrix.cols.column_number irow j) with
      | none => simp [h]
      | some js => simp [h]
    obtain ⟨k1, k2, k3⟩ := key
    obtain ⟨h1, h2, h3⟩ := ih _ _ k1
    refine ⟨h1, ?_, h3.trans k3⟩
    rw [h2, k2]

theorem build_row_modes (matrix : SparseMatrix K) (L : List (Nat × Nat)) (dst src : List K) :
    ∀ (l : List (Nat × Nat)) (st_t st_f : List K × FullMatrix K), st_t.1 = st_f.1 →
      (l.foldl (build_row matrix true L dst src) st_t).1 =
          (l.foldl (build_row matrix false L dst src) st_f).1 ∧
      (l.foldl (build_row matrix true L dst src) st_t).2 = l.foldl (gather_row matrix L) st_t.2 ∧
      (l.foldl (build_row matrix false L dst src) st_f).2 = st_f.2 := by
  intro l
  induction l with
  | nil => intro st_t st_f h; exact ⟨h, rfl, rfl⟩
  | cons p rest ih =>
    intro st_t st_f h
    simp only [List.foldl_cons]
    have key := build_entry_modes matrix L dst p.1 p.2 (List.range (matrix.cols.row_length p.1))
      (st_t.1.set p.2 (src.getD p.1 0), st_t.2) (st_f.1.set p.2 (src.getD p.1 0), st_f.2)
      (by simp only [h])
    obtain ⟨k1, k2, k3⟩ := key
    obtain ⟨h1, h2, h3⟩ := ih (build_row matrix true L dst src st_t p)
      (build_row matrix false L dst src st_f p) k1
    refine ⟨h1, ?_, h3.trans k3⟩
    rw [h2]
    congr 1

theorem apply_row_modes (e c : SparseVanka K) (src : List K) (st_e st_c : ApplyState K)
    (k : Nat) (hM : e.matrix = c.matrix) (hs : e.selected = c.selected)
    (he : e.conserve_mem = false) (hc : c.conserve_mem = true) (hd : st_e.dst = st_c.dst)
    (ht : e.selected.getD k false = true →
      st_e.inverses.getD k none = some (local_system e.matrix k).gauss_jordan) :
    (apply_row e src st_e k).dst = (apply_row c src st_c k).dst ∧
      (apply_row e src st_e k).inverses = st_e.inverses := by
  unfold apply_row
  by_cases hsel : e.selected.getD k false = true
  · have hsel2 : c.selected.getD k false = true := by rw [← hs]; exact hsel
    rw [if_pos hsel, if_pos hsel2]
    simp only [he, hc, if_true, Bool.false_eq_true, if_false, ht hsel, Option.getD_some]
    obtain ⟨h1, h2, h3⟩ := build_row_modes c.matrix (build_local_index c.matrix.cols k)
      st_c.dst src (build_local_index c.matrix.cols k)
      (List.replicate (c.matrix.cols.row_length k) 0,
        st_c.local_matrix.reinit (c.matrix.cols.row_length k) (c.matrix.cols.row_length k))
      (List.replicate (c.matrix.cols.row_length k) 0, (local_system c.matrix k).gauss_jordan) rfl
    refine ⟨?_, trivial⟩
    rw [hM, hd, ← h1, h3, h2]
    rfl
  · have hsel2 : ¬ c.selected.getD k false = true := by rw [← hs]; exact hsel
    rw [if_neg hsel, if_neg hsel2]
    exact ⟨hd, rfl⟩

end VankaModes

section VankaEquiv

variable {K : Type} [LinearOrderedField K]

open SparseVanka

theorem apply_modes_fold (e c : SparseVanka K) (src : List K) (st_e st_c : ApplyState K)
    (hM : e.matrix = c.matrix) (hs : e.selected = c.selected)
    (he : e.conserve_mem = false) (hc : c.conserve_mem = true) (hd : st_e.dst = st_c.dst)
    (ht : ∀ r, r < e.matrix.m → e.selected.getD r false = true →
      st_e.inverses.getD r none = some (local_system e.matrix r).gauss_jordan) :
    ∀ k, k ≤ e.matrix.m →
      ((List.range k).foldl (apply_row e src) st_e).dst =
          ((List.range k).foldl (apply_row c src) st_c).dst ∧
      ((List.range k).foldl (apply_row e src) st_e).inverses = st_e.inverses := by
  intro k
  induction k with
  | zero => intro _; exact ⟨hd, rfl⟩
  | succ k ih =>
    intro hk
    obtain ⟨h1, h2⟩ := ih (by omega)
    rw [List.range_succ, List.foldl_append, List.foldl_append, List.foldl_cons, List.foldl_nil,
      List.foldl_cons, List.foldl_nil]
    have := apply_row_modes e c src ((List.range k).foldl (apply_row e src) st_e)
      ((List.range k).foldl (apply_row c src) st_c) k hM hs he hc h1
      (by rw [h2]; exact ht k (by omega))
    exact ⟨this.1, this.2.trans h2⟩

end VankaEquiv

section LocalIndex

open SparseVanka

theorem map_insert_mem (key value : Nat) : ∀ (m : List (Nat × Nat)) (x : Nat × Nat),
    x ∈ map_insert m key value → x ∈ m ∨ x = (key, value) := by
  intro m
  induction m with
  | nil =>
    intro x hx
    simp [map_insert] at hx
    exact Or.inr hx
  | cons hd tl ih =>
    intro x hx
    obtain ⟨k, v⟩ := hd
    unfold map_insert at hx
    split at hx
    · rcases List.mem_cons.1 hx with e | e
      · exact Or.inr e
      · exact Or.inl e
    · split at hx
      · exact Or.inl hx
      · rcases List.mem_cons.1 hx with e | e
        · exact Or.inl (List.mem_cons.2 (Or.inl e))
        · rcases ih x e with e2 | e2
          · exact Or.inl (List.mem_cons_of_mem _ e2)
          · exact Or.inr e2

theorem map_insert_mem_old (key value : Nat) : ∀ (m : List (Nat × Nat)) (x : Nat × Nat),
    x ∈ m → x ∈ map_insert m key value := by
  intro m
  induction m with
  | nil => intro x hx; exact absurd hx (List.not_mem_nil x)
  | cons hd tl ih =>
    intro x hx
    obtain ⟨k, v⟩ := hd
    unfold map_insert
    split
    · exact List.mem_cons_of_mem _ hx
    · split
      · exact hx
      · rcases List.mem_cons.1 hx with e | e
        · exact List.mem_cons.2 (Or.inl e)
        · exact List.mem_cons_of_mem _ (ih x e)

theorem map_insert_mem_new (key value : Nat) : ∀ (m : List (Nat × Nat)),
    (∀ x ∈ m, x.1 ≠ key) → (key, value) ∈ map_insert m key value := by
  intro m
  induction m with
  | nil => intro _; simp [map_insert]
  | cons hd tl ih =>
    intro h
    obtain ⟨k, v⟩ := hd
    unfold map_insert
    split
    · exact List.mem_cons_self _ _
    · split
      · next hk =>
        exact absurd hk.symm (h (k, v) (List.mem_cons_self _ _))
      · exact List.mem_cons_of_mem _ (ih (fun x hx => h x (List.mem_cons_of_mem _ hx)))

theorem map_insert_sorted (key value : Nat) : ∀ (m : List (Nat × Nat)),
    m.Pairwise (fun a b => a.1 < b.1) →
      (map_insert m key value).Pairwise (fun a b => a.1 < b.1) := by
  intro m
  induction m with
  | nil => intro _; simp [map_insert]
  | cons hd tl ih =>
    intro h
    obtain ⟨k, v⟩ := hd
    rw [List.pairwise_cons] at h
    unfold map_insert
    split
    · next hlt =>
      rw [List.pairwise_cons]
      refine ⟨?_, List.pairwise_cons.2 h⟩
      intro x hx
      rcases List.mem_cons.1 hx with e | e
      · rw [e]; exact hlt
      · exact lt_trans hlt (h.1 x e)
    · split
      · exact List.pairwise_cons.2 h
      · next h1 h2 =>
        rw [List.pairwise_cons]
        refine ⟨?_, ih h.2⟩
        intro x hx
        rcases map_insert_mem key value tl x hx with e | e
        · exact h.1 x e
        · rw [e]
          show k < key
          omega

theorem lookup_of_mem : ∀ (m : List (Nat × Nat)) (k v : Nat),
    m.Pairwise (fun a b => a.1 < b.1) → (k, v) ∈ m → map_find m k = some v := by
  intro m
  induction m with
  | nil => intro k v _ h; exact absurd h (List.not_mem_nil _)
  | cons hd tl ih =>
    intro k v hp h
    obtain ⟨k', v'⟩ := hd
    rw [List.pairwise_cons] at hp
    unfold map_find
    rcases List.mem_cons.1 h with e | e
    · injection e with e1 e2
      subst e1; subst e2
      simp [List.lookup]
    · have hlt := hp.1 (k, v) e
      have hne : (k == k') = false := by
        simp only [beq_eq_false_iff_ne]
        show k ≠ k'
        intro hc
        rw [hc] at hlt
        exact lt_irrefl _ hlt
      rw [List.lookup_cons, hne]
      exact ih k v hp.2 e

theorem lookup_none_of_not_mem : ∀ (m : List (Nat × Nat)) (k : Nat),
    (∀ x ∈ m, x.1 ≠ k) → map_find m k = none := by
  intro m
  induction m with
  | nil => intro k _; rfl
  | cons hd tl ih =>
    intro k h
    obtain ⟨k', v'⟩ := hd
    unfold map_find
    have hne : (k == k') = false := by
      simp only [beq_eq_false_iff_ne]
      exact fun hc => h (k', v') (List.mem_cons_self _ _) hc.symm
    rw [List.lookup_cons, hne]
    exact ih k (fun x hx => h x (List.mem_cons_of_mem _ hx))

/-- The map built for a row whose columns are pairwise different. -/
theorem build_local_index_fold (sp : SparsityPattern) (row : Nat)
    (hinj : ∀ p q, p < sp.row_length row → q < sp.row_length row →
      sp.column_number row p = sp.column_number row q → p = q) :
    ∀ k, k ≤ sp.row_length row →
      ((List.range k).foldl
        (fun local_index i => map_insert local_index (sp.column_number row i) i) []).Pairwise
        (fun a b => a.1 < b.1) ∧
      (∀ x ∈ (List.range k).foldl
        (fun local_index i => map_insert local_index (sp.column_number row i) i) [],
        x.2 < k ∧ x.1 = sp.column_number row x.2) ∧
      (∀ p, p < k → (sp.column_number row p, p) ∈ (List.range k).foldl
        (fun local_index i => map_insert local_index (sp.column_number row i) i) []) := by
  intro k
  induction k with
  | zero =>
    intro _
    refine ⟨List.Pairwise.nil, ?_, ?_⟩
    · intro x hx; exact absurd hx (List.not_mem_nil x)
    · intro p hp; omega
  | succ k ih =>
    intro hk
    obtain ⟨h1, h2, h3⟩ := ih (by omega)
    rw [List.range_succ, List.foldl_append, List.foldl_cons, List.foldl_nil]
    generalize (List.range k).foldl
      (fun local_index i => map_insert local_index (sp.column_number row i) i) [] = L
      at h1 h2 h3
    refine ⟨map_insert_sorted _ _ L h1, ?_, ?_⟩
    · intro x hx
      rcases map_insert_mem _ _ L x hx with e | e
      · exact ⟨by have := (h2 x e).1; omega, (h2 x e).2⟩
      · rw [e]; exact ⟨Nat.lt_succ_self _, rfl⟩
    · intro p hp
      rcases Nat.eq_or_lt_of_le (Nat.le_of_lt_succ hp) with e | e
      · rw [e]
        apply map_insert_mem_new
        intro x hx hc
        have hx2 := h2 x hx
        rw [hx2.2] at hc
        have := hinj x.2 k (by omega) (by omega) hc
        omega
      · exact map_insert_mem_old _ _ L _ (h3 p e)

theorem build_local_index_spec (sp : SparsityPattern) (row : Nat)
    (hinj : ∀ p q, p < sp.row_length row → q < sp.row_length row →
      sp.column_number row p = sp.column_number row q → p = q) :
    (build_local_index sp row).Pairwise (fun a b => a.1 < b.1) ∧
      (∀ x ∈ build_local_index sp row,
        x.2 < sp.row_length row ∧ x.1 = sp.column_number row x.2) ∧
      (∀ p, p < sp.row_length row → (sp.column_number row p, p) ∈ build_local_index sp row) :=
  build_local_index_fold sp row hinj (sp.row_length row) (le_refl _)

end LocalIndex

section VankaRhs

variable {K : Type} [LinearOrderedField K]

open SparseVanka

theorem foldl_set_spec {α β : Type} (idx : β → Nat) (val : β → α) (dflt : α) :
    ∀ (l : List β) (d0 : List α),
      (l.foldl (fun d p => d.set (idx p) (val p)) d0).length = d0.length ∧
      (∀ g, (∀ p ∈ l, idx p ≠ g) →
        (l.foldl (fun d p => d.set (idx p) (val p)) d0).getD g dflt = d0.getD g dflt) ∧
      ((∀ p q, p ∈ l → q ∈ l → idx p = idx q → val p = val q) →
        ∀ p ∈ l, idx p < d0.length →
          (l.foldl (fun d p => d.set (idx p) (val p)) d0).getD (idx p) dflt = val p) := by
  intro l
  induction l with
  | nil =>
    intro d0
    refine ⟨rfl, fun _ _ => rfl, ?_⟩
    intro _ p hp
    exact absurd hp (List.not_mem_nil p)
  | cons x rest ih =>
    intro d0
    rw [List.foldl_cons]
    obtain ⟨h1, h2, h3⟩ := ih (d0.set (idx x) (val x))
    refine ⟨by rw [h1, List.length_set], ?_, ?_⟩
    · intro g hg
      rw [h2 g (fun p hp => hg p (List.mem_cons_of_mem _ hp)),
        getD_set_ne _ _ _ _ _ (hg x (List.mem_cons_self _ _))]
    · intro hfun p hp hlt
      have hfun2 : ∀ p q, p ∈ rest → q ∈ rest → idx p = idx q → val p = val q :=
        fun p q hp hq => hfun p q (List.mem_cons_of_mem _ hp) (List.mem_cons_of_mem _ hq)
      by_cases hex : ∃ q ∈ rest, idx q = idx p
      · obtain ⟨q, hq, hqi⟩ := hex
        have := h3 hfun2 q hq (by rw [List.length_set, hqi]; exact hlt)
        rw [hqi] at this
        rw [this]
        exact hfun q p (List.mem_cons_of_mem _ hq) hp hqi
      · have hne : ∀ q ∈ rest, idx q ≠ idx p := fun q hq hc => hex ⟨q, hq, hc⟩
        have hpx : p = x := by
          rcases List.mem_cons.1 hp with e | e
          · exact e
          · exact absurd rfl (hne p e)
        rw [h2 (idx p) hne, hpx, getD_set_eq _ _ _ _ (by rw [← hpx]; exact hlt)]

theorem build_entry_false (matrix : SparseMatrix K) (L : List (Nat × Nat)) (dst : List K)
    (irow i : Nat) (st : List K × FullMatrix K) (j : Nat) :
    build_entry matrix false L dst irow i st j =
      match map_find L (matrix.cols.column_number irow j) with
      | none => (st.1.set i (st.1.getD i 0 -
          matrix.raw_entry irow j * dst.getD (matrix.cols.column_number irow j) 0), st.2)
      | some _ => st := by
  unfold build_entry
  simp only
  split <;> simp

theorem build_entry_rhs (matrix : SparseMatrix K) (L : List (Nat × Nat)) (dst : List K)
    (irow i : Nat) :
    ∀ (l : List Nat) (b : List K) (F : FullMatrix K),
      (l.foldl (build_entry matrix false L dst irow i) (b, F)).1 =
        b.set i (b.getD i 0 - (l.map fun j =>
          match map_find L (matrix.cols.column_number irow j) with
          | none => matrix.raw_entry irow j * dst.getD (matrix.cols.column_number irow j) 0
          | some _ => 0).sum) := by
  intro l
  induction l with
  | nil =>
    intro b F
    simp only [List.foldl_nil, List.map_nil, List.sum_nil, sub_zero]
    by_cases h : i < b.length
    · apply List.ext_getElem?
      intro j
      by_cases hj : i = j
      · subst hj
        simp [List.getElem?_set, h, List.getD_eq_getElem?_getD]
      · simp [List.getElem?_set, hj]
    · rw [set_of_length_le b i _ (by omega)]
  | cons j rest ih =>
    intro b F
    rw [List.foldl_cons, List.map_cons, List.sum_cons, build_entry_false]
    cases hfind : map_find L (matrix.cols.column_number irow j) with
    | none =>
      simp only
      rw [ih]
      by_cases h : i < b.length
      · rw [set_set_same, getD_set_eq _ _ _ _ h]
        congr 1
        ring
      · have hle : b.length ≤ i := by omega
        rw [set_of_length_le b i _ hle, set_of_length_le b i _ hle, set_of_length_le b i _ hle]
    | some js =>
      simp only
      rw [ih, zero_add]

theorem build_row_rhs (matrix : SparseMatrix K) (L : List (Nat × Nat)) (dst src : List K)
    (st : List K × FullMatrix K) (p : Nat × Nat) :
    build_row matrix false L dst src st p =
      (st.1.set p.2 (src.getD p.1 0 - rhs_correction matrix L dst p.1), st.2) := by
  have h2 := (build_entry_modes matrix L dst p.1 p.2 (List.range (matrix.cols.row_length p.1))
    (st.1.set p.2 (src.getD p.1 0), st.2) (st.1.set p.2 (src.getD p.1 0), st.2) rfl).2.2
  have h1 := build_entry_rhs matrix L dst p.1 p.2 (List.range (matrix.cols.row_length p.1))
    (st.1.set p.2 (src.getD p.1 0)) st.2
  unfold build_row
  simp only
  apply Prod.ext
  · rw [h1]
    unfold rhs_correction
    by_cases h : p.2 < st.1.length
    · rw [set_set_same, getD_set_eq _ _ _ _ h]
    · have hle : st.1.length ≤ p.2 := by omega
      rw [set_of_length_le st.1 p.2 _ hle, set_of_length_le st.1 p.2 _ hle,
        set_of_length_le st.1 p.2 _ hle]
  · exact h2

/-- The right hand side built by `operator()`, as a plain sequence of writes. -/
theorem build_rhs_fold (matrix : SparseMatrix K) (L : List (Nat × Nat)) (dst src : List K) :
    ∀ (l : List (Nat × Nat)) (st : List K × FullMatrix K),
      (l.foldl (build_row matrix false L dst src) st).1 =
        l.foldl (fun b p => b.set p.2 (src.getD p.1 0 - rhs_correction matrix L dst p.1)) st.1 := by
  intro l
  induction l with
  | nil => intro st; rfl
  | cons p rest ih =>
    intro st
    rw [List.foldl_cons, List.foldl_cons, ih, build_row_rhs]

theorem getD_replicate_zero (n g : Nat) : (List.replicate n (0 : K)).getD g 0 = 0 := by
  simp only [List.getD_eq_getElem?_getD, List.getElem?_replicate]
  split <;> rfl

theorem rhs_correction_clear (matrix : SparseMatrix K) (L : List (Nat × Nat)) (n irow : Nat) :
    rhs_correction matrix L (List.replicate n 0) irow = 0 := by
  unfold rhs_correction
  apply List.sum_eq_zero
  intro x hx
  rw [List.mem_map] at hx
  obtain ⟨j, _, hj⟩ := hx
  rw [← hj]
  split
  · rw [getD_replicate_zero, mul_zero]
  · rfl

theorem vmult_spec (F : FullMatrix K) (b : List K) :
    (F.vmult b).length = F.m ∧
      ∀ p, p < F.m → (F.vmult b).getD p 0 = ∑ q ∈ Finset.range F.n, F.el p q * b.getD q 0 := by
  unfold FullMatrix.vmult
  refine ⟨by simp, ?_⟩
  intro p hp
  rw [List.getD_eq_getElem?_getD, List.getElem?_map, List.getElem?_range hp]
  simp only [Option.map_some', Option.getD_some]
  rw [List.range_eq_range', sum_map_range', Nat.zero_add, ← Finset.range_eq_Ico]

end VankaRhs

section VankaSingle

variable {K : Type} [LinearOrderedField K]

open SparseVanka

/-- What `operator()` does to the destination vector on a selected row, in
either mode: solve with the inverted local system and distribute. -/
theorem apply_row_selected (self : SparseVanka K) (src : List K) (st : ApplyState K) (row : Nat)
    (hsel : self.selected.getD row false = true)
    (htable : self.conserve_mem = false →
      st.inverses.getD row none = some (local_system self.matrix row).gauss_jordan) :
    (apply_row self src st row).dst =
      distribute (build_local_index self.matrix.cols row)
        ((local_system self.matrix row).gauss_jordan.vmult
          ((build_local_index self.matrix.cols row).foldl
            (fun b p => b.set p.2 (src.getD p.1 0 -
              rhs_correction self.matrix (build_local_index self.matrix.cols row) st.dst p.1))
            (List.replicate (self.matrix.cols.row_length row) 0)))
        st.dst := by
  unfold apply_row
  rw [if_pos hsel]
  cases hc : self.conserve_mem with
  | false =>
    simp only [Bool.false_eq_true, if_false, htable hc, Option.getD_some]
    obtain ⟨_, _, h3⟩ := build_row_modes self.matrix (build_local_index self.matrix.cols row)
      st.dst src (build_local_index self.matrix.cols row)
      (List.replicate (self.matrix.cols.row_length row) 0,
        (local_system self.matrix row).gauss_jordan)
      (List.replicate (self.matrix.cols.row_length row) 0,
        (local_system self.matrix row).gauss_jordan) rfl
    rw [h3, build_rhs_fold]
  | true =>
    simp only [if_true]
    obtain ⟨h1, h2, _⟩ := build_row_modes self.matrix (build_local_index self.matrix.cols row)
      st.dst src (build_local_index self.matrix.cols row)
      (List.replicate (self.matrix.cols.row_length row) 0,
        st.local_matrix.reinit (self.matrix.cols.row_length row)
          (self.matrix.cols.row_length row))
      (List.replicate (self.matrix.cols.row_length row) 0,
        st.local_matrix.reinit (self.matrix.cols.row_length row)
          (self.matrix.cols.row_length row)) rfl
    rw [h2, h1, build_rhs_fold]
    rfl

theorem apply_row_unselected (self : SparseVanka K) (src : List K) (st : ApplyState K)
    (row : Nat) (hsel : self.selected.getD row false = false) :
    apply_row self src st row = st := by
  unfold apply_row
  rw [if_neg (by rw [hsel]; exact Bool.false_ne_true)]

theorem apply_single_fold (self : SparseVanka K) (src : List K) (st : ApplyState K) (r n : Nat)
    (hothers : ∀ k, k < n → k ≠ r → self.selected.getD k false = false) :
    ∀ k, k ≤ n → (List.range k).foldl (apply_row self src) st =
      if k ≤ r then st else apply_row self src st r := by
  intro k
  induction k with
  | zero => intro _; simp
  | succ k ih =>
    intro hk
    rw [List.range_succ, List.foldl_append, List.foldl_cons, List.foldl_nil, ih (by omega)]
    by_cases h1 : k + 1 ≤ r
    · rw [if_pos h1, if_pos (by omega),
        apply_row_unselected _ _ _ _ (hothers k (by omega) (by omega))]
    · rw [if_neg h1]
      by_cases h2 : k ≤ r
      · have : k = r := by omega
        rw [if_pos h2, this]
      · rw [if_neg h2, apply_row_unselected _ _ _ _ (hothers k (by omega) (by omega))]

end VankaSingle

section VankaMain

variable {K : Type} [LinearOrderedField K]

open SparseVanka SparsityPattern

theorem construct_ok (M : SparseMatrix K) (selected : List Bool) (c : Bool) (h : M.m = M.n) :
    ∃ e : SparseVanka K, construct M selected c = .ok e ∧ e.matrix = M ∧
      e.selected = selected ∧ e.conserve_mem = c ∧ e.inverses.length = M.m ∧
      ∀ r, e.inverses.getD r none =
        if c = false ∧ r < M.m ∧ selected.getD r false = true then
          some (local_system M r).gauss_jordan
        else none := by
  cases c with
  | false =>
    obtain ⟨e, h1, h2, h3, h4, h5, h6⟩ := construct_eager M selected h
    refine ⟨e, h1, h2, h3, h4, h5, ?_⟩
    intro r
    rw [h6 r]
    by_cases hc : r < M.m ∧ selected.getD r false = true
    · rw [if_pos hc, if_pos ⟨rfl, hc⟩]
    · rw [if_neg hc, if_neg (fun hc2 => hc hc2.2)]
  | true =>
    refine ⟨⟨M, selected, true, List.replicate M.m none⟩, ?_, rfl, rfl, rfl, by simp, ?_⟩
    · unfold construct
      simp [h]
    · intro r
      rw [if_neg (fun hc => Bool.noConfusion hc.1)]
      exact getD_replicate_none M.m r

theorem gauss_jordan_shape (F : FullMatrix K) :
    F.gauss_jordan.m = F.n ∧ F.gauss_jordan.n = F.n := ⟨rfl, rfl⟩

theorem gauss_jordan_to_matrix (F : FullMatrix K) (k : Nat) (hk : F.n = k) :
    F.gauss_jordan.to_matrix k = GaussJordan.invert (F.to_matrix k) := by
  subst hk
  unfold FullMatrix.gauss_jordan
  rw [of_matrix_to_matrix]

theorem wf_column_number_inj (sp : SparsityPattern) (hwf : sp.WellFormed) (r : Nat)
    (hr : r < sp.rows) (p q : Nat) (hp : p < sp.row_length r) (hq : q < sp.row_length r)
    (h : sp.column_number r p = sp.column_number r q) : p = q := by
  unfold row_length at hp hq
  unfold column_number at h
  have := wf_col_inj sp hwf r hr (sp.rowstart r + p) (sp.rowstart r + q) (by omega) (by omega)
    (by omega) (by omega) h
  omega

theorem wf_column_number_lt (sp : SparsityPattern) (hwf : sp.WellFormed) (r : Nat)
    (hr : r < sp.rows) (p : Nat) (hp : p < sp.row_length r) :
    sp.column_number r p < sp.rows := by
  unfold row_length at hp
  unfold column_number
  exact wf_col_lt_rows sp hwf r hr _ (by omega) (by omega)

theorem wf_row_proper (sp : SparsityPattern) (hwf : sp.WellFormed) (r : Nat)
    (hr : r < sp.rows) : sp.RowProper r sp.rows :=
  ⟨fun p hp => wf_column_number_lt sp hwf r hr p hp,
    fun p hp q hq => wf_column_number_inj sp hwf r hr p q hp hq⟩

/-- The destination vector after a selected row has been worked on, entry by
entry, for a row whose columns are in range and pairwise different. -/
theorem apply_row_entries (self : SparseVanka K) (src : List K) (st : ApplyState K) (r : Nat)
    (hrow : self.matrix.cols.RowProper r self.matrix.m)
    (hsel : self.selected.getD r false = true)
    (htable : self.conserve_mem = false →
      st.inverses.getD r none = some (local_system self.matrix r).gauss_jordan)
    (hdst : st.dst.length = self.matrix.m) :
    (apply_row self src st r).dst.length = self.matrix.m ∧
    (∀ p : Fin (self.matrix.cols.row_length r),
      (apply_row self src st r).dst.getD (self.matrix.cols.column_number r p) 0 =
        (GaussJordan.invert ((local_system self.matrix r).to_matrix
          (self.matrix.cols.row_length r))).mulVec
          (fun q : Fin (self.matrix.cols.row_length r) =>
            src.getD (self.matrix.cols.column_number r q) 0 -
              rhs_correction self.matrix (build_local_index self.matrix.cols r) st.dst
                (self.matrix.cols.column_number r q)) p) ∧
    (∀ g, (∀ p, p < self.matrix.cols.row_length r → self.matrix.cols.column_number r p ≠ g) →
      (apply_row self src st r).dst.getD g 0 = st.dst.getD g 0) := by
  obtain ⟨s1, s2, s3⟩ := build_local_index_spec self.matrix.cols r
    (fun p q hp hq => hrow.2 p hp q hq)
  rw [apply_row_selected self src st r hsel htable]
  generalize hL : build_local_index self.matrix.cols r = L at s1 s2 s3
  generalize hlen : self.matrix.cols.row_length r = len at s2 s3
  obtain ⟨b1, _, b3⟩ := foldl_set_spec (fun p : Nat × Nat => p.2)
    (fun p : Nat × Nat => src.getD p.1 0 - rhs_correction self.matrix L st.dst p.1) (0 : K) L
    (List.replicate len 0)
  have hb : ∀ q, q < len →
      (L.foldl (fun b p => b.set p.2 (src.getD p.1 0 - rhs_correction self.matrix L st.dst p.1))
        (List.replicate len 0)).getD q 0 =
      src.getD (self.matrix.cols.column_number r q) 0 -
        rhs_correction self.matrix L st.dst (self.matrix.cols.column_number r q) := by
    intro q hq
    have := b3 (fun p q hp hq hpq => by
      have e1 := (s2 p hp).2
      have e2 := (s2 q hq).2
      have hpq2 : p.2 = q.2 := hpq
      rw [e1, e2, hpq2]) _ (s3 q hq) (by simpa using hq)
    simpa using this
  generalize L.foldl (fun b p => b.set p.2 (src.getD p.1 0 -
    rhs_correction self.matrix L st.dst p.1)) (List.replicate len 0) = b at hb
  obtain ⟨v1, v2⟩ := vmult_spec (local_system self.matrix r).gauss_jordan b
  have hn : (local_system self.matrix r).n = len := by
    rw [← hlen]; exact (local_system_shape self.matrix r).2
  have hgm : (local_system self.matrix r).gauss_jordan.m = len := hn
  have hgn : (local_system self.matrix r).gauss_jordan.n = len := hn
  have hG := gauss_jordan_to_matrix (local_system self.matrix r) len hn
  rw [hgn] at v2
  rw [hgm] at v1 v2
  generalize (local_system self.matrix r).gauss_jordan = G at v1 v2 hG
  obtain ⟨d1, d2, d3⟩ := foldl_set_spec (fun p : Nat × Nat => p.1)
    (fun p : Nat × Nat => (G.vmult b).getD p.2 0) (0 : K) L st.dst
  unfold distribute
  refine ⟨by rw [d1, hdst], ?_, ?_⟩
  · intro p
    have hkey : ∀ p q, p ∈ L → q ∈ L → p.1 = q.1 → (G.vmult b).getD p.2 0 = (G.vmult b).getD q.2 0 := by
      intro p q hp hq hpq
      have e1 := lookup_of_mem L p.1 p.2 s1 hp
      have e2 := lookup_of_mem L q.1 q.2 s1 hq
      rw [hpq] at e1
      rw [e1] at e2
      injection e2 with e2
      rw [e2]
    have hlt : self.matrix.cols.column_number r p.val < st.dst.length := by
      rw [hdst]
      exact hrow.1 p.val (by rw [hlen]; exact p.isLt)
    have := d3 hkey _ (s3 p.val p.isLt) hlt
    simp only at this
    rw [this, v2 p.val p.isLt, ← hG]
    unfold Matrix.mulVec Matrix.dotProduct
    rw [← Fin.sum_univ_eq_sum_range (fun q => G.el p.val q * b.getD q 0) len]
    apply Finset.sum_congr rfl
    intro q _
    rw [hb q.val q.isLt]
    rfl
  · intro g hg
    apply d2
    intro p hp hc
    have := s2 p hp
    exact hg p.2 this.1 (by rw [← this.2]; exact hc)

end VankaMain

section Claims

variable {K : Type} [LinearOrderedField K]

open SparsityPattern SparseILU SparseVanka Examples

/-- Claim C1, evaluated on the code: the round trip `decompose` then
`apply_decomposition` does not recover `x`.  On the `4 × 4` tridiagonal matrix
with right hand side `[1, 1, 1, 1]` the call succeeds and returns
`[89/196, 40/49, 355/196, 38/7]`, while the solution of `A x = b` is
`[4/11, 5/11, 5/11, 4/11]`; on the `1 × 1` matrix `[4]` with `x = [1]`,
`b = [4]`, it returns `[16]`. -/
theorem round_trip_not_recovered :
    (decompose blank4 laplace4 0).error = none ∧
    (apply_decomposition (decompose blank4 laplace4 0).matrix [0, 0, 0, 0]
        [1, 1, 1, 1]).toOption = some [89 / 196, 40 / 49, 355 / 196, 38 / 7] ∧
    ((List.range 4).map fun i =>
      ((List.range 4).map fun j =>
        laplace4.el i j * ([4 / 11, 5 / 11, 5 / 11, 4 / 11] : List ℚ).getD j 0).sum) =
      [1, 1, 1, 1] ∧
    (decompose ⟨single, [0]⟩ (⟨single, [4]⟩ : SparseMatrix ℚ) 0).error = none ∧
    (apply_decomposition (decompose ⟨single, [0]⟩ (⟨single, [4]⟩ : SparseMatrix ℚ) 0).matrix
        [0] [4]).toOption = some [16] := by
  decide!

/-- Claim C2: on a well-formed pattern, with all diagonal slots non-zero and
vectors of the size of the matrix, `apply_decomposition` succeeds and its
result `x` satisfies `L (U x) = src`, where `L` is the unit lower triangular
matrix of the stored entries left of the diagonal and `U` the upper triangular
matrix of the stored entries right of it with the reciprocals of the diagonal
slots on its diagonal. -/
theorem apply_decomposition_solves (A : SparseMatrix K) (dst src : List K)
    (hwf : A.cols.WellFormed) (hdiag : ∀ i, i < A.m → A.diag_element i ≠ 0)
    (hsrc : src.length = A.m) (hdst : dst.length = A.m) :
    ∃ x, apply_decomposition A dst src = .ok x ∧ x.length = A.m ∧
      (L_factor A).mulVec ((U_factor A).mulVec (to_vector A.m x)) = to_vector A.m src := by
  obtain ⟨f1, f2, f3⟩ := forward_sweep_inv A hwf src A.m (le_refl _)
  obtain ⟨g1, g2, g3⟩ := backward_sweep_inv A hwf A.m
    ((List.range A.m).foldl (forward_row A) src) (le_refl _) (by rw [f1, hsrc])
  refine ⟨backward_sweep A A.m ((List.range A.m).foldl (forward_row A) src), ?_, ?_, ?_⟩
  · unfold apply_decomposition
    rw [if_neg (by rw [hdst, hsrc]; exact fun h => h rfl), if_neg (by rw [hdst]; exact fun h => h rfl)]
    simp only [hdst]
  · rw [g1, f1, hsrc]
  · have hU : (U_factor A).mulVec
        (to_vector A.m (backward_sweep A A.m ((List.range A.m).foldl (forward_row A) src))) =
        to_vector A.m ((List.range A.m).foldl (forward_row A) src) := by
      funext i
      rw [U_factor_mulVec, el_diag A hwf i.val i.isLt]
      have h := g3 i.val i.isLt
      have hne := hdiag i.val i.isLt
      unfold to_vector
      rw [h]
      field_simp
    rw [hU]
    funext i
    rw [L_factor_mulVec]
    unfold to_vector
    exact f2 i.val i.isLt (by rw [hsrc]; exact i.isLt)

/-- The theorem of claim C2 on the tridiagonal `4 × 4` matrix read as factor
storage, with right hand side `[1, 1, 1, 1]`. -/
theorem apply_decomposition_solves_witness :
    laplace4.cols.WellFormed ∧
    ∃ x, apply_decomposition laplace4 [0, 0, 0, 0] [1, 1, 1, 1] = .ok x ∧
      x.length = laplace4.m ∧
      (L_factor laplace4).mulVec ((U_factor laplace4).mulVec (to_vector laplace4.m x)) =
        to_vector laplace4.m [1, 1, 1, 1] :=
  ⟨by decide, apply_decomposition_solves laplace4 _ _ (by decide) (by decide!) rfl rfl⟩

/-- Claim C3, evaluated on the code: after a successful `decompose` the
diagonal slot of the last row is not a reciprocal.  On the `1 × 1` matrix `[4]`
the slot still holds `4`; on the `4 × 4` tridiagonal matrix the slots of rows
`0 .. 2` hold `1/4, 4/15, 15/56` and the slot of row `3` holds `4`. -/
theorem last_diagonal_not_inverted :
    (decompose ⟨single, [0]⟩ (⟨single, [4]⟩ : SparseMatrix ℚ) 0).error = none ∧
    (decompose ⟨single, [0]⟩ (⟨single, [4]⟩ : SparseMatrix ℚ) 0).matrix.diag_element 0 = 4 ∧
    (decompose blank4 laplace4 0).error = none ∧
    ((List.range 4).map fun i => (decompose blank4 laplace4 0).matrix.diag_element i) =
      [1 / 4, 4 / 15, 15 / 56, 4] := by
  decide!

/-- Claim C4, evaluated on the code: with `L` and `U` read off the result of
`decompose (A, 0)` as the claim says, `L U` is not `A`, neither for the `1 × 1`
matrix `[4]` (where `L U = [1/4]`) nor for the `4 × 4` tridiagonal matrix
(where `(L U)(3,3) = 29/56`, not `4`). -/
theorem factors_do_not_multiply_to_matrix :
    (¬ ∀ i j : Fin (decompose ⟨single, [0]⟩ (⟨single, [4]⟩ : SparseMatrix ℚ) 0).matrix.m,
      (L_factor (decompose ⟨single, [0]⟩ (⟨single, [4]⟩ : SparseMatrix ℚ) 0).matrix *
        U_factor (decompose ⟨single, [0]⟩ (⟨single, [4]⟩ : SparseMatrix ℚ) 0).matrix) i j =
        (⟨single, [4]⟩ : SparseMatrix ℚ).el i j) ∧
    (¬ ∀ i j : Fin (decompose blank4 laplace4 0).matrix.m,
      (L_factor (decompose blank4 laplace4 0).matrix *
        U_factor (decompose blank4 laplace4 0).matrix) i j = laplace4.el i j) := by
  decide!

/-- Claim C5, evaluated on the code: a zero pivot in the last row is not
reported.  `decompose` returns without error on the `1 × 1` matrix `[0]` and on
the `2 × 2` matrix with rows `(1, 1)` and `(1, 0)`, whose last diagonal slot is
zero when the call returns. -/
theorem zero_last_pivot_not_reported :
    (decompose ⟨single, [7]⟩ (⟨single, [0]⟩ : SparseMatrix ℚ) 0).error = none ∧
    (decompose ⟨single, [7]⟩ (⟨single, [0]⟩ : SparseMatrix ℚ) 0).matrix.diag_element 0 = 0 ∧
    (decompose ⟨full2, [0, 0, 0, 0]⟩ (⟨full2, [1, 1, 0, 1]⟩ : SparseMatrix ℚ) 0).error = none ∧
    (decompose ⟨full2, [0, 0, 0, 0]⟩
      (⟨full2, [1, 1, 0, 1]⟩ : SparseMatrix ℚ) 0).matrix.diag_element 1 = 0 := by
  decide!

/-- Claim C6: for a square matrix, any selection mask and any vectors, the
engine built with `conserve_mem = false` and the one built with
`conserve_mem = true` are both constructed, and `operator()` gives the same
destination vector for both. -/
theorem vanka_memory_mode_equivalence (M : SparseMatrix K) (selected : List Bool)
    (dst src : List K) (h : M.m = M.n) :
    ∃ e c : SparseVanka K, construct M selected false = .ok e ∧
      construct M selected true = .ok c ∧ (apply e dst src).dst = (apply c dst src).dst := by
  obtain ⟨e, h1, h2, h3, h4, _, h6⟩ := construct_eager M selected h
  refine ⟨e, ⟨M, selected, true, List.replicate M.m none⟩, h1, ?_, ?_⟩
  · unfold construct
    simp [h]
  · unfold apply
    rw [h2]
    refine (apply_modes_fold e ⟨M, selected, true, List.replicate M.m none⟩ src
      ⟨clear dst, e.inverses,
        FullMatrix.zero (max_entries_per_row M.cols) (max_entries_per_row M.cols)⟩
      ⟨clear dst, List.replicate M.m none,
        FullMatrix.zero (max_entries_per_row M.cols) (max_entries_per_row M.cols)⟩
      h2 h3 h4 rfl rfl ?_ M.m (by rw [h2])).1
    intro r hr hsel
    rw [h2] at hr
    rw [h3] at hsel
    simp only
    rw [h6 r, if_pos ⟨hr, hsel⟩, h2]

/-- The theorem of claim C6 on the pentadiagonal `5 × 5` matrix with rows
`0, 2, 3` selected. -/
theorem vanka_memory_mode_equivalence_witness :
    band5.m = band5.n ∧
    ∃ e c : SparseVanka ℚ, construct band5 [true, false, true, true, false] false = .ok e ∧
      construct band5 [true, false, true, true, false] true = .ok c ∧
      (apply e [9, 9, 9, 9, 9] [1, 2, 3, 4, 5]).dst =
        (apply c [9, 9, 9, 9, 9] [1, 2, 3, 4, 5]).dst :=
  ⟨rfl, vanka_memory_mode_equivalence band5 [true, false, true, true, false] [9, 9, 9, 9, 9]
    [1, 2, 3, 4, 5] rfl⟩

/-- Claim C7: when the mask selects exactly one row `r` of a square matrix,
the columns of `r` being in range and pairwise different, and the local matrix
`M` gathered for `r` is invertible, `operator()` (in either mode) returns a
vector whose entries on the coupling set of `r` are `M⁻¹` applied to the
source restricted to the coupling set, and which is zero everywhere else. -/
theorem vanka_single_row_solve (M : SparseMatrix K) (selected : List Bool) (c : Bool)
    (dst src : List K) (r : Nat)
    (hsq : M.m = M.n) (hrow : M.cols.RowProper r M.m) (hr : r < M.m)
    (hsel : selected.getD r false = true)
    (hothers : ∀ k, k < M.m → k ≠ r → selected.getD k false = false)
    (hdst : dst.length = M.m)
    (hinv : IsUnit ((local_system M r).to_matrix (M.cols.row_length r)).det) :
    ∃ e : SparseVanka K, construct M selected c = .ok e ∧
      (∀ p : Fin (M.cols.row_length r),
        (apply e dst src).dst.getD (M.cols.column_number r p) 0 =
          (((local_system M r).to_matrix (M.cols.row_length r))⁻¹.mulVec
            (fun q : Fin (M.cols.row_length r) => src.getD (M.cols.column_number r q) 0)) p) ∧
      (∀ g, (∀ p, p < M.cols.row_length r → M.cols.column_number r p ≠ g) →
        (apply e dst src).dst.getD g 0 = 0) := by
  obtain ⟨e, h1, h2, h3, h4, _, h6⟩ := construct_ok M selected c hsq
  refine ⟨e, h1, ?_⟩
  subst h2
  have hfold := apply_single_fold e src
    ⟨clear dst, e.inverses,
      FullMatrix.zero (max_entries_per_row e.matrix.cols) (max_entries_per_row e.matrix.cols)⟩
    r e.matrix.m (by rw [h3]; exact hothers) e.matrix.m (le_refl _)
  rw [if_neg (by omega)] at hfold
  have hclear : (clear dst).length = e.matrix.m := by
    unfold clear
    rw [List.length_replicate, hdst]
  obtain ⟨_, a2, a3⟩ := apply_row_entries e src
    ⟨clear dst, e.inverses,
      FullMatrix.zero (max_entries_per_row e.matrix.cols) (max_entries_per_row e.matrix.cols)⟩
    r hrow (by rw [h3]; exact hsel)
    (by
      intro hc
      rw [h4] at hc
      simp only
      rw [h6 r, if_pos ⟨hc, hr, hsel⟩])
    hclear
  unfold apply
  rw [hfold]
  constructor
  · intro p
    rw [a2 p, Matrix.inv_eq_left_inv (GaussJordan.invert_mul _ hinv)]
    congr 1
    funext q
    simp only [clear]
    rw [rhs_correction_clear, sub_zero]
  · intro g hg
    rw [a3 g hg]
    exact getD_replicate_zero _ _

/-- The theorem of claim C7 on the pentadiagonal `5 × 5` matrix with only row
`0` selected, in conserve-memory mode. -/
theorem vanka_single_row_solve_witness :
    band5.cols.RowProper 0 band5.m ∧
    ∃ e : SparseVanka ℚ, construct band5 [true, false, false, false, false] true = .ok e ∧
      (∀ p : Fin (band5.cols.row_length 0),
        (apply e [0, 0, 0, 0, 0] [1, 2, 3, 4, 5]).dst.getD (band5.cols.column_number 0 p) 0 =
          (((local_system band5 0).to_matrix (band5.cols.row_length 0))⁻¹.mulVec
            (fun q : Fin (band5.cols.row_length 0) =>
              ([1, 2, 3, 4, 5] : List ℚ).getD (band5.cols.column_number 0 q) 0)) p) ∧
      (∀ g, (∀ p, p < band5.cols.row_length 0 → band5.cols.column_number 0 p ≠ g) →
        (apply e [0, 0, 0, 0, 0] [1, 2, 3, 4, 5]).dst.getD g 0 = 0) :=
  ⟨by decide, vanka_single_row_solve band5 [true, false, false, false, false] true
    [0, 0, 0, 0, 0] [1, 2, 3, 4, 5] 0 rfl (by decide) (by decide) rfl (by decide) rfl
    (Matrix.isUnit_det_of_left_inverse
      (B := GaussJordan.invert ((local_system band5 0).to_matrix (band5.cols.row_length 0)))
      (by decide!))⟩

/-- Claim C8: for a square matrix and a selected row `r` whose gathered local
matrix `M_r` is invertible, the table slot of `r` after construction without
`conserve_mem` holds a dense matrix of size `row_length(r)` whose product with
`M_r` is the identity. -/
theorem vanka_local_inverse (M : SparseMatrix K) (selected : List Bool) (r : Nat)
    (h : M.m = M.n) (hr : r < M.m) (hsel : selected.getD r false = true)
    (hinv : IsUnit ((local_system M r).to_matrix (M.cols.row_length r)).det) :
    ∃ (e : SparseVanka K) (F : FullMatrix K), construct M selected false = .ok e ∧
      e.inverses[r]? = some (some F) ∧
      F.m = M.cols.row_length r ∧ F.n = M.cols.row_length r ∧
      F.to_matrix (M.cols.row_length r) * (local_system M r).to_matrix (M.cols.row_length r) =
        1 := by
  obtain ⟨e, h1, _, _, _, h5, h6⟩ := construct_eager M selected h
  have hs := local_system_shape M r
  refine ⟨e, (local_system M r).gauss_jordan, h1, ?_, hs.2, hs.2, ?_⟩
  · have := h6 r
    rw [if_pos ⟨hr, hsel⟩, List.getD_eq_getElem?_getD] at this
    have hlt : r < e.inverses.length := by rw [h5]; exact hr
    rw [List.getElem?_eq_getElem hlt] at this ⊢
    simp only [Option.getD_some] at this
    rw [this]
  · rw [gauss_jordan_to_matrix _ _ hs.2]
    exact GaussJordan.invert_mul _ hinv

/-- The theorem of claim C8 on the pentadiagonal `5 × 5` matrix, for the
selected row `2`, which couples to all five rows. -/
theorem vanka_local_inverse_witness :
    band5.m = band5.n ∧
    ∃ (e : SparseVanka ℚ) (F : FullMatrix ℚ),
      construct band5 [true, false, true, true, false] false = .ok e ∧
      e.inverses[2]? = some (some F) ∧
      F.m = band5.cols.row_length 2 ∧ F.n = band5.cols.row_length 2 ∧
      F.to_matrix (band5.cols.row_length 2) *
        (local_system band5 2).to_matrix (band5.cols.row_length 2) = 1 :=
  ⟨rfl, vanka_local_inverse band5 [true, false, true, true, false] 2 rfl (by decide) rfl
    (Matrix.isUnit_det_of_left_inverse
      (B := GaussJordan.invert ((local_system band5 2).to_matrix (band5.cols.row_length 2)))
      (by decide!))⟩

/-- Claim C9: for a square matrix, the table of an engine constructed without
`conserve_mem` has one slot per row, the slot of a selected row `r` holding a
dense matrix of size `row_length(r) × row_length(r)` and the slot of an
unselected row being empty; constructed with `conserve_mem` every slot is
empty. -/
theorem vanka_table_shape (M : SparseMatrix K) (selected : List Bool) (h : M.m = M.n) :
    (∃ e : SparseVanka K, construct M selected false = .ok e ∧ e.inverses.length = M.m ∧
      (∀ r, r < M.m → selected.getD r false = true →
        ∃ F : FullMatrix K, e.inverses[r]? = some (some F) ∧
          F.m = M.cols.row_length r ∧ F.n = M.cols.row_length r) ∧
      (∀ r, r < M.m → selected.getD r false = false → e.inverses[r]? = some none)) ∧
    (∃ e : SparseVanka K, construct M selected true = .ok e ∧ e.inverses.length = M.m ∧
      ∀ r, r < M.m → e.inverses[r]? = some none) := by
  constructor
  · obtain ⟨e, h1, _, _, _, h5, h6⟩ := construct_ok M selected false h
    refine ⟨e, h1, h5, ?_, ?_⟩
    · intro r hr hsel
      have hs := local_system_shape M r
      refine ⟨(local_system M r).gauss_jordan, ?_, hs.2, hs.2⟩
      have := h6 r
      rw [if_pos ⟨rfl, hr, hsel⟩, List.getD_eq_getElem?_getD] at this
      have hlt : r < e.inverses.length := by rw [h5]; exact hr
      rw [List.getElem?_eq_getElem hlt] at this ⊢
      simp only [Option.getD_some] at this
      rw [this]
    · intro r hr hsel
      have := h6 r
      rw [if_neg (fun hc => by rw [hsel] at hc; exact Bool.noConfusion hc.2.2),
        List.getD_eq_getElem?_getD] at this
      have hlt : r < e.inverses.length := by rw [h5]; exact hr
      rw [List.getElem?_eq_getElem hlt] at this ⊢
      simp only [Option.getD_some] at this
      rw [this]
  · obtain ⟨e, h1, _, _, _, h5, h6⟩ := construct_ok M selected true h
    refine ⟨e, h1, h5, ?_⟩
    intro r hr
    have := h6 r
    rw [if_neg (fun hc => Bool.noConfusion hc.1), List.getD_eq_getElem?_getD] at this
    have hlt : r < e.inverses.length := by rw [h5]; exact hr
    rw [List.getElem?_eq_getElem hlt] at this ⊢
    simp only [Option.getD_some] at this
    rw [this]

/-- The theorem of claim C9 on the pentadiagonal `5 × 5` matrix with rows
`0, 2, 3` selected. -/
theorem vanka_table_shape_witness :
    band5.m = band5.n ∧
    (∃ e : SparseVanka ℚ, construct band5 [true, false, true, true, false] false = .ok e ∧
      e.inverses.length = band5.m ∧
      (∀ r, r < band5.m → [true, false, true, true, false].getD r false = true →
        ∃ F : FullMatrix ℚ, e.inverses[r]? = some (some F) ∧
          F.m = band5.cols.row_length r ∧ F.n = band5.cols.row_length r) ∧
      (∀ r, r < band5.m → [true, false, true, true, false].getD r false = false →
        e.inverses[r]? = some none)) ∧
    (∃ e : SparseVanka ℚ, construct band5 [true, false, true, true, false] true = .ok e ∧
      e.inverses.length = band5.m ∧ ∀ r, r < band5.m → e.inverses[r]? = some none) :=
  ⟨rfl, vanka_table_shape band5 [true, false, true, true, false] rfl⟩

/-- Claim C10: whatever its outcome, `decompose` leaves the sparsity pattern of
the target and the number of its value slots as they were. -/
theorem decompose_keeps_pattern (self matrix : SparseMatrix K) (strengthen_diagonal : K) :
    (decompose self matrix strengthen_diagonal).matrix.cols = self.cols ∧
      (decompose self matrix strengthen_diagonal).matrix.val.length = self.val.length := by
  unfold decompose
  split
  · exact ⟨rfl, rfl⟩
  split
  · exact ⟨rfl, rfl⟩
  split
  · exact ⟨rfl, rfl⟩
  split
  · exact ⟨rfl, rfl⟩
  simp only
  refine ⟨?_, ?_⟩
  · exact (strengthen_frame _ _).1.trans (copy_from_frame _ _).1
  · rw [eliminate_length]
    exact (strengthen_frame _ _).2.trans (copy_from_frame _ _).2

end Claims

section EntryChecks

variable {K : Type} [LinearOrderedField K]

open SparsityPattern SparseILU

theorem eliminate_error (sp : SparsityPattern) :
    ∀ (rows : List Nat) (val : List K),
      (eliminate sp rows val).1 = none ∨ (eliminate sp rows val).1 = some Exc.ExcDivideByZero := by
  intro rows
  induction rows with
  | nil => intro val; exact Or.inl rfl
  | cons row rest ih =>
    intro val
    unfold eliminate
    split
    · exact Or.inr rfl
    · exact ih _

end EntryChecks

section CopyStep

variable {K : Type} [LinearOrderedField K]

open SparsityPattern SparseILU

theorem wf_rowstart_mono (sp : SparsityPattern) (hwf : sp.WellFormed) :
    ∀ d i, i + d ≤ sp.rows → sp.rowstart i ≤ sp.rowstart (i + d) := by
  intro d
  induction d with
  | zero => intro i _; exact le_refl _
  | succ d ih =>
    intro i h
    have h1 := ih i (by omega)
    have h2 := (hwf.2.1 (i + d) (by omega)).1
    have e : i + (d + 1) = i + d + 1 := by omega
    rw [e]
    omega

theorem wf_rowstart_le (sp : SparsityPattern) (hwf : sp.WellFormed) (i j : Nat) (hij : i ≤ j)
    (hj : j ≤ sp.rows) : sp.rowstart i ≤ sp.rowstart j := by
  have := wf_rowstart_mono sp hwf (j - i) i (by omega)
  have e : i + (j - i) = j := by omega
  rwa [e] at this

/-- A slot belongs to one row only. -/
theorem wf_slot_row (sp : SparsityPattern) (hwf : sp.WellFormed) (i j g : Nat)
    (hi : i < sp.rows) (hj : j < sp.rows)
    (h1 : sp.rowstart i ≤ g) (h2 : g < sp.rowstart (i + 1))
    (h3 : sp.rowstart j ≤ g) (h4 : g < sp.rowstart (j + 1)) : i = j := by
  by_contra hne
  rcases Nat.lt_or_gt_of_ne hne with h | h
  · have := wf_rowstart_le sp hwf (i + 1) j (by omega) (by omega)
    omega
  · have := wf_rowstart_le sp hwf (j + 1) i (by omega) (by omega)
    omega

theorem index_range (sp : SparsityPattern) (i j s : Nat) (h : sp.index i j = some s) :
    sp.rowstart i ≤ s ∧ s < sp.rowstart (i + 1) ∧ sp.column s = j := by
  unfold SparsityPattern.index at h
  have hm := List.mem_of_find?_eq_some h
  have hp := List.find?_some h
  rw [List.mem_range'_1] at hm
  unfold row_length at hm
  simp at hp
  exact ⟨hm.1, by omega, hp⟩

theorem fill_n_getD (val : List K) : ∀ (n g : Nat),
    (fill_n val n).getD g 0 = if g < n then 0 else val.getD g 0 := by
  intro n
  induction n with
  | zero => intro g; simp [fill_n]
  | succ n ih =>
    intro g
    unfold fill_n at ih ⊢
    rw [List.range_succ, List.foldl_append, List.foldl_cons, List.foldl_nil]
    by_cases hg : n = g
    · subst hg
      rw [if_pos (Nat.lt_succ_self _)]
      by_cases hl : n < ((List.range n).foldl (fun v k => v.set k 0) val).length
      · exact getD_set_eq _ _ _ _ hl
      · rw [set_of_length_le _ _ _ (by omega), List.getD_eq_default _ _ (by omega)]
    · rw [getD_set_ne _ _ _ _ _ hg, ih g]
      by_cases h : g < n
      · rw [if_pos h, if_pos (by omega)]
      · rw [if_neg h, if_neg (by omega)]

theorem set_getD_other {T : Type} [Zero T] (A : SparseMatrix T) (i j g : Nat) (v : T)
    (h : A.cols.index i j ≠ some g) : (A.set i j v).val.getD g 0 = A.val.getD g 0 := by
  unfold SparseMatrix.set
  cases hidx : A.cols.index i j with
  | none => rfl
  | some s =>
    simp only
    rw [getD_set_ne]
    intro hc
    rw [hidx, hc] at h
    exact h rfl

theorem set_getD_hit {T : Type} [Zero T] (A : SparseMatrix T) (i j g : Nat) (v : T)
    (h : A.cols.index i j = some g) (hg : g < A.val.length) :
    (A.set i j v).val.getD g 0 = v := by
  unfold SparseMatrix.set
  rw [h]
  exact getD_set_eq _ _ _ _ hg

/-- Copying source slots whose column differs from the column of the target
slot `g` leaves `g` alone. -/
theorem copy_fold_miss (matrix : SparseMatrix K) (sp : SparsityPattern) (row g : Nat)
    (hidx : ∀ c, sp.index row c = some g → c = sp.column g) :
    ∀ (l : List Nat) (t : SparseMatrix K), t.cols = sp →
      (∀ s ∈ l, matrix.cols.column s ≠ sp.column g) →
      (l.foldl (fun t col => t.set row (matrix.cols.column col) (matrix.global_entry col)) t).val.getD
        g 0 = t.val.getD g 0 := by
  intro l
  induction l with
  | nil => intro t _ _; rfl
  | cons s rest ih =>
    intro t ht hl
    rw [List.foldl_cons, ih _ ((set_frame t _ _ _).1.trans ht)
      (fun s' hs' => hl s' (List.mem_cons_of_mem _ hs'))]
    apply set_getD_other
    intro hc
    rw [ht] at hc
    exact hl s (List.mem_cons_self _ _) (hidx _ hc)

/-- Copying source slots one of which has the column of the target slot `g`
leaves the value of that source slot in `g`. -/
theorem copy_fold_hit (matrix : SparseMatrix K) (sp : SparsityPattern) (row g : Nat)
    (hidx : ∀ c, sp.index row c = some g → c = sp.column g)
    (hself : sp.index row (sp.column g) = some g) (s0 : Nat)
    (hs0 : matrix.cols.column s0 = sp.column g) :
    ∀ (l : List Nat) (t : SparseMatrix K), t.cols = sp → g < t.val.length → s0 ∈ l →
      (∀ s ∈ l, matrix.cols.column s = sp.column g → s = s0) →
      (l.foldl (fun t col => t.set row (matrix.cols.column col) (matrix.global_entry col)) t).val.getD
        g 0 = matrix.global_entry s0 := by
  intro l
  induction l with
  | nil => intro t _ _ h; exact absurd h (List.not_mem_nil _)
  | cons s rest ih =>
    intro t ht hg hmem huniq
    rw [List.foldl_cons]
    have hcols := (set_frame t row (matrix.cols.column s) (matrix.global_entry s)).1.trans ht
    have hlen := (set_frame t row (matrix.cols.column s) (matrix.global_entry s)).2
    by_cases hin : s0 ∈ rest
    · exact ih _ hcols (by rw [hlen]; exact hg) hin
        (fun s' hs' => huniq s' (List.mem_cons_of_mem _ hs'))
    · have hs : s0 = s := by
        rcases List.mem_cons.1 hmem with e | e
        · exact e
        · exact absurd e hin
      rw [copy_fold_miss matrix sp row g hidx rest _ hcols]
      · rw [← hs]
        apply set_getD_hit
        · rw [ht, hs0]; exact hself
        · exact hg
      · intro s' hs' hc
        have := huniq s' (List.mem_cons_of_mem _ hs') hc
        rw [this] at hs'
        exact hin hs'

end CopyStep

section CopyRows

variable {K : Type} [LinearOrderedField K]

open SparsityPattern SparseILU

theorem copy_fold_outside (matrix : SparseMatrix K) (sp : SparsityPattern) (row g : Nat)
    (hout : g < sp.rowstart row ∨ sp.rowstart (row + 1) ≤ g) :
    ∀ (l : List Nat) (t : SparseMatrix K), t.cols = sp →
      (l.foldl (fun t col => t.set row (matrix.cols.column col) (matrix.global_entry col)) t).val.getD
        g 0 = t.val.getD g 0 := by
  intro l
  induction l with
  | nil => intro t _; rfl
  | cons s rest ih =>
    intro t ht
    rw [List.foldl_cons, ih _ ((set_frame t _ _ _).1.trans ht)]
    apply set_getD_other
    intro hc
    rw [ht] at hc
    have := index_range sp _ _ _ hc
    omega

theorem copy_row_cols (matrix t : SparseMatrix K) (row : Nat) :
    (copy_row matrix t row).cols = t.cols ∧
      (copy_row matrix t row).val.length = t.val.length := by
  unfold copy_row
  refine foldl_invariant
    (fun u : SparseMatrix K => u.cols = t.cols ∧ u.val.length = t.val.length) _ ?_ _ _ ⟨rfl, rfl⟩
  intro u col hu
  have := set_frame u row (matrix.cols.column col) (matrix.global_entry col)
  exact ⟨this.1.trans hu.1, this.2.trans hu.2⟩

theorem copy_row_outside (matrix t : SparseMatrix K) (row g : Nat)
    (hout : g < t.cols.rowstart row ∨ t.cols.rowstart (row + 1) ≤ g) :
    (copy_row matrix t row).val.getD g 0 = t.val.getD g 0 := by
  unfold copy_row
  exact copy_fold_outside matrix t.cols row g hout _ t rfl

/-- The slot `g` of the target row `r` after the slots of the source row `r`
have been copied. -/
theorem copy_row_slot (matrix t : SparseMatrix K) (hwft : t.cols.WellFormed)
    (hwfm : matrix.cols.WellFormed) (r g : Nat) (hr : r < t.m) (hrm : r < matrix.m)
    (hg1 : t.cols.rowstart r ≤ g) (hg2 : g < t.cols.rowstart (r + 1))
    (hlen : g < t.val.length) :
    (copy_row matrix t r).val.getD g 0 =
      match matrix.cols.index r (t.cols.column g) with
      | some s => matrix.global_entry s
      | none => t.val.getD g 0 := by
  have hidx : ∀ c, t.cols.index r c = some g → c = t.cols.column g :=
    fun c hc => (index_range t.cols r c g hc).2.2.symm
  have hself : t.cols.index r (t.cols.column g) = some g :=
    (index_some_iff t.cols hwft r hr _ g).2 ⟨hg1, hg2, rfl⟩
  have hrow := (hwfm.2.1 r hrm).1
  unfold copy_row
  cases hs : matrix.cols.index r (t.cols.column g) with
  | none =>
    simp only
    apply copy_fold_miss matrix t.cols r g hidx _ t rfl
    intro s hmem hc
    rw [List.mem_range'_1] at hmem
    have := (index_some_iff matrix.cols hwfm r hrm (t.cols.column g) s).2
      ⟨hmem.1, by omega, hc⟩
    rw [hs] at this
    exact Option.noConfusion this
  | some s0 =>
    simp only
    obtain ⟨a1, a2, a3⟩ := index_range matrix.cols r _ s0 hs
    apply copy_fold_hit matrix t.cols r g hidx hself s0 a3 _ t rfl hlen
    · rw [List.mem_range'_1]; omega
    · intro s hmem hc
      rw [List.mem_range'_1] at hmem
      exact wf_col_inj matrix.cols hwfm r hrm s s0 hmem.1 (by omega) a1 a2 (by rw [hc, a3])

/-- State of the copy step after the rows below `k`. -/
theorem copy_rows_fold (matrix t : SparseMatrix K) (hwft : t.cols.WellFormed)
    (hwfm : matrix.cols.WellFormed) (hm : matrix.m = t.m) (r g : Nat) (hr : r < t.m)
    (hg1 : t.cols.rowstart r ≤ g) (hg2 : g < t.cols.rowstart (r + 1))
    (hlen : g < t.val.length) :
    ∀ k, k ≤ t.m →
      ((List.range k).foldl (copy_row matrix) t).cols = t.cols ∧
      ((List.range k).foldl (copy_row matrix) t).val.length = t.val.length ∧
      ((List.range k).foldl (copy_row matrix) t).val.getD g 0 =
        if r < k then
          (match matrix.cols.index r (t.cols.column g) with
            | some s => matrix.global_entry s
            | none => t.val.getD g 0)
        else t.val.getD g 0 := by
  intro k
  induction k with
  | zero => intro _; exact ⟨rfl, rfl, rfl⟩
  | succ k ih =>
    intro hk
    obtain ⟨h1, h2, h3⟩ := ih (by omega)
    rw [List.range_succ, List.foldl_append, List.foldl_cons, List.foldl_nil]
    generalize (List.range k).foldl (copy_row matrix) t = u at h1 h2 h3
    have hc := copy_row_cols matrix u k
    refine ⟨hc.1.trans h1, hc.2.trans h2, ?_⟩
    by_cases hrk : r = k
    · subst hrk
      rw [if_pos (Nat.lt_succ_self _)]
      rw [if_neg (lt_irrefl _)] at h3
      have := copy_row_slot matrix u (by rw [h1]; exact hwft) hwfm r g
        (by unfold SparseMatrix.m; rw [h1]; exact hr) (by rw [hm]; exact hr)
        (by rw [h1]; exact hg1) (by rw [h1]; exact hg2) (by rw [h2]; exact hlen)
      rw [this, h1, h3]
    · have hne : k < t.m := by omega
      rw [copy_row_outside matrix u k g, h3]
      · by_cases h : r < k
        · rw [if_pos h, if_pos (by omega)]
        · rw [if_neg h, if_neg (by omega)]
      · rw [h1]
        by_contra hc2
        have := wf_slot_row t.cols hwft r k g hr hne hg1 hg2 (by omega) (by omega)
        exact hrk this

/-- The slot `g` of the target row `r` after step 1 of `decompose`: the source
value at the position of the slot, zero when the source has no such
position. -/
theorem copy_from_slot (self matrix : SparseMatrix K) (hwft : self.cols.WellFormed)
    (hwfm : matrix.cols.WellFormed) (hm : matrix.m = self.m)
    (hval : self.cols.n_nonzero_elements ≤ self.val.length)
    (r g : Nat) (hr : r < self.m)
    (hg1 : self.cols.rowstart r ≤ g) (hg2 : g < self.cols.rowstart (r + 1)) :
    (copy_from self matrix).val.getD g 0 = matrix.el r (self.cols.column g) := by
  have hnn : g < self.cols.n_nonzero_elements := by
    unfold n_nonzero_elements
    have := wf_rowstart_le self.cols hwft (r + 1) self.cols.rows hr (le_refl _)
    omega
  unfold copy_from
  have := (copy_rows_fold matrix
    { self with val := fill_n self.val self.cols.n_nonzero_elements } hwft hwfm hm r g hr hg1 hg2
    (by simp only; rw [fill_n_length]; omega) self.m (le_refl _)).2.2
  rw [if_pos hr] at this
  simp only at this
  rw [this, fill_n_getD, if_pos hnn]
  unfold SparseMatrix.el SparseMatrix.global_entry
  cases matrix.cols.index r (self.cols.column g) <;> rfl

end CopyRows

section StrengthenStep

variable {K : Type} [LinearOrderedField K]

open SparsityPattern SparseILU

theorem foldl_add_eq_sum {β : Type} (f : β → K) : ∀ (l : List β) (a : K),
    l.foldl (fun acc g => acc + f g) a = a + (l.map f).sum := by
  intro l
  induction l with
  | nil => intro a; simp
  | cons x rest ih =>
    intro a
    rw [List.foldl_cons, ih, List.map_cons, List.sum_cons]
    ring

theorem rowsum_eq_sum (t : SparseMatrix K) (row : Nat) :
    rowsum t row = ((List.range' (t.cols.rowstart row + 1)
      (t.cols.rowstart (row + 1) - t.cols.rowstart row - 1)).map
      fun g => abs (t.val.getD g 0)).sum := by
  unfold rowsum
  rw [foldl_add_eq_sum (fun g => abs (t.global_entry g)), zero_add]
  rfl

theorem rowsum_nonneg (t : SparseMatrix K) (row : Nat) : 0 ≤ rowsum t row := by
  rw [rowsum_eq_sum]
  apply List.sum_nonneg
  intro x hx
  rw [List.mem_map] at hx
  obtain ⟨g, _, hg⟩ := hx
  rw [← hg]
  exact abs_nonneg _

theorem rowsum_congr (t u : SparseMatrix K) (row : Nat) (hc : u.cols = t.cols)
    (h : ∀ g, t.cols.rowstart row + 1 ≤ g → g < t.cols.rowstart (row + 1) →
      u.val.getD g 0 = t.val.getD g 0) :
    rowsum u row = rowsum t row := by
  rw [rowsum_eq_sum, rowsum_eq_sum, hc]
  congr 1
  apply List.map_congr_left
  intro g hg
  rw [List.mem_range'_1] at hg
  rw [h g hg.1 (by omega)]

theorem strengthen_row_eq (s : K) (t : SparseMatrix K) (row : Nat) :
    (strengthen_row s t row).cols = t.cols ∧
    (strengthen_row s t row).val =
      t.val.set (t.cols.rowstart row) (t.val.getD (t.cols.rowstart row) 0 + s * rowsum t row) := by
  unfold strengthen_row rowsum SparseMatrix.global_entry
  simp only [Nat.add_sub_cancel]
  exact ⟨trivial, trivial⟩

/-- State of the strengthening step after the rows below `k`. -/
theorem strengthen_fold (s : K) (t : SparseMatrix K) (hwf : t.cols.WellFormed)
    (hval : t.cols.n_nonzero_elements ≤ t.val.length) :
    ∀ k, k ≤ t.m →
      ((List.range k).foldl (strengthen_row s) t).cols = t.cols ∧
      ((List.range k).foldl (strengthen_row s) t).val.length = t.val.length ∧
      (∀ i, i < k → ((List.range k).foldl (strengthen_row s) t).val.getD (t.cols.rowstart i) 0 =
        t.val.getD (t.cols.rowstart i) 0 + s * rowsum t i) ∧
      (∀ g, (∀ i, i < k → g ≠ t.cols.rowstart i) →
        ((List.range k).foldl (strengthen_row s) t).val.getD g 0 = t.val.getD g 0) := by
  intro k
  induction k with
  | zero =>
    intro _
    refine ⟨rfl, rfl, ?_, fun _ _ => rfl⟩
    intro i hi; omega
  | succ k ih =>
    intro hk
    have hkm : k < t.cols.rows := hk
    obtain ⟨h1, h2, h3, h4⟩ := ih (by omega)
    rw [List.range_succ, List.foldl_append, List.foldl_cons, List.foldl_nil]
    generalize (List.range k).foldl (strengthen_row s) t = u at h1 h2 h3 h4
    obtain ⟨e1, e2⟩ := strengthen_row_eq s u k
    rw [e1, e2]
    have hlt : ∀ i, i < k → t.cols.rowstart i < t.cols.rowstart k := by
      intro i hi
      have a := wf_rowstart_le t.cols hwf (i + 1) k (by omega) (by omega)
      have b := (hwf.2.1 i (by omega)).1
      omega
    have hklen : t.cols.rowstart k < u.val.length := by
      rw [h2]
      have a := wf_rowstart_le t.cols hwf (k + 1) t.cols.rows (by omega) (le_refl _)
      have b := (hwf.2.1 k hkm).1
      unfold n_nonzero_elements at hval
      omega
    have hrs : rowsum u k = rowsum t k := by
      apply rowsum_congr t u k h1
      intro g hg1 hg2
      apply h4
      intro i hi
      have := hlt i hi
      omega
    refine ⟨h1, by simp only [List.length_set]; exact h2, ?_, ?_⟩
    · intro i hi
      rw [h1]
      rcases Nat.eq_or_lt_of_le (Nat.le_of_lt_succ hi) with e | e
      · subst e
        rw [getD_set_eq _ _ _ _ hklen, hrs, h4 _ (fun j hj => by have := hlt j hj; omega)]
      · rw [getD_set_ne _ _ _ _ _ (by have := hlt i e; omega), h3 i e]
    · intro g hg
      rw [h1, getD_set_ne _ _ _ _ _ (fun hc => hg k (Nat.lt_succ_self _) hc.symm)]
      exact h4 g (fun i hi => hg i (by omega))

/-- Step 2 of `decompose` on a well-formed target: the diagonal slot of every
row gets `strengthen_diagonal * rowsum` added and nothing else changes. -/
theorem strengthen_spec (s : K) (t : SparseMatrix K) (hwf : t.cols.WellFormed)
    (hval : t.cols.n_nonzero_elements ≤ t.val.length) (hs : 0 ≤ s) :
    (strengthen t s).cols = t.cols ∧
    (∀ i, i < t.m → (strengthen t s).val.getD (t.cols.rowstart i) 0 =
      t.val.getD (t.cols.rowstart i) 0 + s * rowsum t i) ∧
    (∀ g, (∀ i, i < t.m → g ≠ t.cols.rowstart i) →
      (strengthen t s).val.getD g 0 = t.val.getD g 0) := by
  unfold strengthen
  by_cases h : 0 < s
  · rw [if_pos h]
    obtain ⟨h1, _, h3, h4⟩ := strengthen_fold s t hwf hval t.m (le_refl _)
    exact ⟨h1, h3, h4⟩
  · rw [if_neg h]
    have : s = 0 := le_antisymm (not_lt.1 h) hs
    refine ⟨rfl, ?_, fun _ _ => rfl⟩
    intro i _
    rw [this, zero_mul, add_zero]

/-- An off-diagonal slot is the diagonal slot of no row. -/
theorem wf_offdiag_ne_diag (sp : SparsityPattern) (hwf : sp.WellFormed) (i g : Nat)
    (hi : i < sp.rows) (hg1 : sp.rowstart i + 1 ≤ g) (hg2 : g < sp.rowstart (i + 1)) :
    ∀ j, j < sp.rows → g ≠ sp.rowstart j := by
  intro j hj hc
  have := wf_slot_row sp hwf i j g hi hj (by omega) hg2 (by omega)
    (by rw [hc]; exact (hwf.2.1 j hj).1)
  subst this
  omega

end StrengthenStep

section Prepared

variable {K : Type} [LinearOrderedField K]

open SparsityPattern SparseILU

/-- The target after steps 1 and 2 of `decompose`, slot by slot. -/
theorem prepared_spec (self matrix : SparseMatrix K) (hwft : self.cols.WellFormed)
    (hwfm : matrix.cols.WellFormed) (hm : matrix.m = self.m)
    (hval : self.cols.n_nonzero_elements ≤ self.val.length) (s : K) (hs : 0 ≤ s) :
    (strengthen (copy_from self matrix) s).cols = self.cols ∧
    (∀ i, i < self.m → (strengthen (copy_from self matrix) s).val.getD (self.cols.rowstart i) 0 =
      matrix.el i i + s * source_abs_sum self matrix i) ∧
    (∀ i, i < self.m → ∀ g, self.cols.rowstart i + 1 ≤ g → g < self.cols.rowstart (i + 1) →
      (strengthen (copy_from self matrix) s).val.getD g 0 = matrix.el i (self.cols.column g)) := by
  obtain ⟨c1, c2⟩ := copy_from_frame self matrix
  have hwfc : (copy_from self matrix).cols.WellFormed := by rw [c1]; exact hwft
  have hvalc : (copy_from self matrix).cols.n_nonzero_elements ≤
      (copy_from self matrix).val.length := by rw [c1, c2]; exact hval
  obtain ⟨p1, p2, p3⟩ := strengthen_spec s (copy_from self matrix) hwfc hvalc hs
  have hmc : (copy_from self matrix).m = self.m := by unfold SparseMatrix.m; rw [c1]
  refine ⟨p1.trans c1, ?_, ?_⟩
  · intro i hi
    have := p2 i (by rw [hmc]; exact hi)
    rw [c1] at this
    rw [this, copy_from_slot self matrix hwft hwfm hm hval i _ hi (le_refl _) (hwft.2.1 i hi).1,
      (hwft.2.1 i hi).2]
    congr 2
    rw [rowsum_eq_sum, c1]
    unfold source_abs_sum
    congr 1
    apply List.map_congr_left
    intro g hg
    rw [List.mem_range'_1] at hg
    rw [copy_from_slot self matrix hwft hwfm hm hval i g hi (by omega) (by omega)]
  · intro i hi g hg1 hg2
    rw [p3 g, copy_from_slot self matrix hwft hwfm hm hval i g hi (by omega) hg2]
    intro j hj
    rw [c1]
    rw [hmc] at hj
    exact wf_offdiag_ne_diag self.cols hwft i g hi hg1 hg2 j hj

theorem source_abs_sum_nonneg (self matrix : SparseMatrix K) (i : Nat) :
    0 ≤ source_abs_sum self matrix i := by
  unfold source_abs_sum
  apply List.sum_nonneg
  intro x hx
  rw [List.mem_map] at hx
  obtain ⟨g, _, hg⟩ := hx
  rw [← hg]
  exact abs_nonneg _

theorem abs_lt_abs_add_iff (d r s1 s2 : K) (hr : 0 ≤ r) (hs : s1 < s2) :
    abs (d + s1 * r) < abs (d + s2 * r) ↔ (0 < r ∧ 0 < 2 * d + (s1 + s2) * r) := by
  rw [← sq_lt_sq]
  have e : (d + s2 * r) ^ 2 - (d + s1 * r) ^ 2 = (s2 - s1) * (r * (2 * d + (s1 + s2) * r)) := by
    ring
  have hpos : 0 < s2 - s1 := sub_pos.2 hs
  constructor
  · intro h
    have h1 : 0 < (s2 - s1) * (r * (2 * d + (s1 + s2) * r)) := by
      rw [← e]; exact sub_pos.2 h
    have h2 : 0 < r * (2 * d + (s1 + s2) * r) := (mul_pos_iff_of_pos_left hpos).1 h1
    rcases lt_or_eq_of_le hr with h3 | h3
    · exact ⟨h3, (mul_pos_iff_of_pos_left h3).1 h2⟩
    · rw [← h3, zero_mul] at h2
      exact absurd h2 (lt_irrefl _)
  · rintro ⟨h1, h2⟩
    have : 0 < (s2 - s1) * (r * (2 * d + (s1 + s2) * r)) := mul_pos hpos (mul_pos h1 h2)
    rw [← e] at this
    exact sub_pos.1 this

end Prepared

section EliminateFrame

variable {K : Type} [LinearOrderedField K]

open SparsityPattern SparseILU

theorem eliminate_j_getD (sp : SparsityPattern) (row ik : Nat) (st : List K × Bool) (j g : Nat)
    (h1 : g ≠ sp.rowstart row) (h2 : g ≠ j) :
    (eliminate_j sp row ik st j).1.getD g 0 = st.1.getD g 0 := by
  unfold eliminate_j
  simp only
  split <;> split <;> (try split) <;>
    simp only [getD_set_ne _ _ _ _ _ (Ne.symm h1), getD_set_ne _ _ _ _ _ (Ne.symm h2)]

theorem eliminate_j_fold_getD (sp : SparsityPattern) (row ik g : Nat)
    (h1 : g ≠ sp.rowstart row) :
    ∀ (l : List Nat) (st : List K × Bool), (∀ j ∈ l, g ≠ j) →
      (l.foldl (eliminate_j sp row ik) st).1.getD g 0 = st.1.getD g 0 := by
  intro l
  induction l with
  | nil => intro st _; rfl
  | cons j rest ih =>
    intro st h
    rw [List.foldl_cons, ih _ (fun j' hj' => h j' (List.mem_cons_of_mem _ hj')),
      eliminate_j_getD sp row ik st j g h1 (h j (List.mem_cons_self _ _))]

theorem foldl_invariant_mem {σ β : Type} (P : σ → Prop) (f : σ → β → σ) :
    ∀ (l : List β) (init : σ), (∀ acc x, x ∈ l → P acc → P (f acc x)) → P init →
      P (l.foldl f init) := by
  intro l
  induction l with
  | nil => intro init _ h; exact h
  | cons x rest ih =>
    intro init hf h
    exact ih _ (fun acc y hy => hf acc y (List.mem_cons_of_mem _ hy))
      (hf _ _ (List.mem_cons_self _ _) h)

/-- The elimination of a row writes only to the slots of that row. -/
theorem eliminate_row_getD (sp : SparsityPattern) (row : Nat) (val : List K) (g : Nat)
    (hout : g < sp.rowstart row ∨ sp.rowstart (row + 1) ≤ g) :
    (eliminate_row sp row val).getD g 0 = val.getD g 0 := by
  unfold eliminate_row
  simp only
  obtain ⟨b1, b2, _, _⟩ := lower_bound_scan_spec sp row
    (sp.rowstart (row + 1) - (sp.rowstart row + 1)) (sp.rowstart row + 1)
  refine foldl_invariant_mem (fun v : List K => v.getD g 0 = val.getD g 0) _
    (List.range' (sp.rowstart row + 1)
      (lower_bound sp (sp.rowstart row + 1) (sp.rowstart (row + 1)) row - (sp.rowstart row + 1)))
    val ?_ rfl
  intro acc col_ptr hmem hacc
  rw [List.mem_range'_1] at hmem
  unfold lower_bound at hmem
  unfold eliminate_k
  simp only
  rw [eliminate_j_fold_getD sp row col_ptr g (by omega)]
  · simp only
    rw [getD_set_ne _ _ _ _ _ (by omega)]
    exact hacc
  · intro j hj
    rw [List.mem_range'_1] at hj
    omega

/-- The elimination loop leaves alone every slot below `bound`, when all the
rows it works on, and the rows before them, start at or after `bound`. -/
theorem eliminate_getD_low (sp : SparsityPattern) (bound g : Nat) (hg : g < bound) :
    ∀ (rows : List Nat) (val : List K),
      (∀ row ∈ rows, bound ≤ sp.rowstart (row - 1) ∧ bound ≤ sp.rowstart row) →
      (eliminate sp rows val).2.getD g 0 = val.getD g 0 := by
  intro rows
  induction rows with
  | nil => intro val _; rfl
  | cons row rest ih =>
    intro val h
    have hrow := h row (List.mem_cons_self _ _)
    unfold eliminate
    split
    · rfl
    · rw [ih _ (fun r hr => h r (List.mem_cons_of_mem _ hr)),
        eliminate_row_getD sp row _ g (Or.inl (by omega)), getD_set_ne _ _ _ _ _ (by omega)]

end EliminateFrame

section Gather

variable {K : Type} [LinearOrderedField K]

open SparsityPattern SparseVanka

theorem mem_of_lookup : ∀ (m : List (Nat × Nat)) (k v : Nat),
    map_find m k = some v → (k, v) ∈ m := by
  intro m
  induction m with
  | nil => intro k v h; simp [map_find] at h
  | cons hd tl ih =>
    intro k v h
    obtain ⟨k', v'⟩ := hd
    unfold map_find at h
    rw [List.lookup_cons] at h
    by_cases hk : k = k'
    · subst hk
      simp at h
      rw [h]
      exact List.mem_cons_self _ _
    · have hne : (k == k') = false := by simp [hk]
      rw [hne] at h
      exact List.mem_cons_of_mem _ (ih k v h)

/-- The value at the position of a slot of a row with pairwise different
columns is the value of the slot. -/
theorem el_column_number (M : SparseMatrix K) (i : Nat)
    (hdist : ∀ p, p < M.cols.row_length i → ∀ q, q < M.cols.row_length i →
      M.cols.column_number i p = M.cols.column_number i q → p = q)
    (j : Nat) (hj : j < M.cols.row_length i) :
    M.el i (M.cols.column_number i j) = M.raw_entry i j := by
  unfold SparseMatrix.el SparseMatrix.raw_entry
  cases h : M.cols.index i (M.cols.column_number i j) with
  | none =>
    unfold SparsityPattern.index at h
    rw [List.find?_eq_none] at h
    have := h (M.cols.rowstart i + j) (by rw [List.mem_range'_1]; omega)
    simp [column_number] at this
  | some s =>
    simp only
    obtain ⟨a1, a2, a3⟩ := index_range M.cols i _ s h
    have hs : s - M.cols.rowstart i < M.cols.row_length i := by
      unfold row_length; omega
    have e : M.cols.rowstart i + (s - M.cols.rowstart i) = s := by omega
    have := hdist (s - M.cols.rowstart i) hs j hj (by unfold column_number; rw [e]; exact a3)
    rw [← e, this]

/-- The value at a position that no slot of the row has is zero. -/
theorem el_absent (M : SparseMatrix K) (i c : Nat)
    (h : ∀ j, j < M.cols.row_length i → M.cols.column_number i j ≠ c) : M.el i c = 0 := by
  unfold SparseMatrix.el
  cases hidx : M.cols.index i c with
  | none => rfl
  | some s =>
    obtain ⟨a1, a2, a3⟩ := index_range M.cols i _ s hidx
    have hs : s - M.cols.rowstart i < M.cols.row_length i := by
      unfold row_length; omega
    have e : M.cols.rowstart i + (s - M.cols.rowstart i) = s := by omega
    exact absurd (by unfold column_number; rw [e]; exact a3) (h _ hs)

theorem full_set_el {T : Type} (F : FullMatrix T) (i j a b : Nat) (v : T) :
    (F.set i j v).el a b = if i < F.m ∧ j < F.n ∧ a = i ∧ b = j then v else F.el a b := by
  unfold FullMatrix.set
  by_cases h : i < F.m ∧ j < F.n
  · rw [if_pos h]
    simp only
    by_cases h2 : a = i ∧ b = j
    · rw [if_pos h2, if_pos ⟨h.1, h.2, h2.1, h2.2⟩]
    · rw [if_neg h2, if_neg (fun hc => h2 ⟨hc.2.2.1, hc.2.2.2⟩)]
  · rw [if_neg h, if_neg (fun hc => h ⟨hc.1, hc.2.1⟩)]

/-- Gathering entries that do not go to local column `q` leaves the local
entry `(p, q)` alone. -/
theorem gather_inner_miss (matrix : SparseMatrix K) (L : List (Nat × Nat)) (irow i p q : Nat) :
    ∀ (l : List Nat) (F : FullMatrix K),
      (i = p → ∀ j ∈ l, map_find L (matrix.cols.column_number irow j) ≠ some q) →
      (l.foldl (fun inv j =>
        match map_find L (matrix.cols.column_number irow j) with
        | some js => inv.set i js (matrix.raw_entry irow j)
        | none => inv) F).el p q = F.el p q := by
  intro l
  induction l with
  | nil => intro F _; rfl
  | cons j rest ih =>
    intro F h
    rw [List.foldl_cons, ih _ (fun hi j' hj' => h hi j' (List.mem_cons_of_mem _ hj'))]
    cases hf : map_find L (matrix.cols.column_number irow j) with
    | none => rfl
    | some js =>
      simp only
      rw [full_set_el, if_neg]
      rintro ⟨_, _, e1, e2⟩
      have := h e1.symm j (List.mem_cons_self _ _)
      rw [hf, e2] at this
      exact this rfl

theorem gather_inner_shape (matrix : SparseMatrix K) (L : List (Nat × Nat)) (irow i : Nat) :
    ∀ (l : List Nat) (F : FullMatrix K),
      (l.foldl (fun inv j =>
        match map_find L (matrix.cols.column_number irow j) with
        | some js => inv.set i js (matrix.raw_entry irow j)
        | none => inv) F).m = F.m ∧
      (l.foldl (fun inv j =>
        match map_find L (matrix.cols.column_number irow j) with
        | some js => inv.set i js (matrix.raw_entry irow j)
        | none => inv) F).n = F.n := by
  intro l
  induction l with
  | nil => intro F; exact ⟨rfl, rfl⟩
  | cons j rest ih =>
    intro F
    rw [List.foldl_cons]
    obtain ⟨h1, h2⟩ := ih (match map_find L (matrix.cols.column_number irow j) with
        | some js => F.set i js (matrix.raw_entry irow j)
        | none => F)
    rw [h1, h2]
    cases map_find L (matrix.cols.column_number irow j) with
    | none => exact ⟨rfl, rfl⟩
    | some js => exact full_set_shape F i js _

/-- Gathering the entries of a row one of which goes to local column `q`
leaves that entry at the local position `(p, q)`. -/
theorem gather_inner_hit (matrix : SparseMatrix K) (L : List (Nat × Nat)) (irow p q j0 : Nat)
    (hj0 : map_find L (matrix.cols.column_number irow j0) = some q) :
    ∀ (l : List Nat) (F : FullMatrix K), p < F.m → q < F.n → j0 ∈ l →
      (∀ j ∈ l, map_find L (matrix.cols.column_number irow j) = some q → j = j0) →
      (l.foldl (fun inv j =>
        match map_find L (matrix.cols.column_number irow j) with
        | some js => inv.set p js (matrix.raw_entry irow j)
        | none => inv) F).el p q = matrix.raw_entry irow j0 := by
  intro l
  induction l with
  | nil => intro F _ _ h; exact absurd h (List.not_mem_nil _)
  | cons j rest ih =>
    intro F hp hq hmem huniq
    rw [List.foldl_cons]
    by_cases hin : j0 ∈ rest
    · have hs := gather_inner_shape matrix L irow p [j] F
      simp only [List.foldl_cons, List.foldl_nil] at hs
      exact ih _ (by rw [hs.1]; exact hp) (by rw [hs.2]; exact hq) hin
        (fun j' hj' => huniq j' (List.mem_cons_of_mem _ hj'))
    · have hj : j0 = j := by
        rcases List.mem_cons.1 hmem with e | e
        · exact e
        · exact absurd e hin
      subst hj
      rw [gather_inner_miss matrix L irow p p q rest]
      · rw [hj0]
        simp only
        rw [full_set_el, if_pos ⟨hp, hq, rfl, rfl⟩]
      · intro _ j' hj' hc
        have := huniq j' (List.mem_cons_of_mem _ hj') hc
        rw [this] at hj'
        exact hin hj'

theorem gather_row_other (matrix : SparseMatrix K) (L : List (Nat × Nat)) (F : FullMatrix K)
    (x : Nat × Nat) (p q : Nat) (h : x.2 ≠ p) :
    (gather_row matrix L F x).el p q = F.el p q := by
  unfold gather_row
  exact gather_inner_miss matrix L x.1 x.2 p q _ F (fun hc => absurd hc h)

theorem gather_fold_other (matrix : SparseMatrix K) (L : List (Nat × Nat)) (p q : Nat) :
    ∀ (l : List (Nat × Nat)) (F : FullMatrix K), (∀ x ∈ l, x.2 ≠ p) →
      (l.foldl (gather_row matrix L) F).el p q = F.el p q := by
  intro l
  induction l with
  | nil => intro F _; rfl
  | cons x rest ih =>
    intro F h
    rw [List.foldl_cons, ih _ (fun y hy => h y (List.mem_cons_of_mem _ hy)),
      gather_row_other matrix L F x p q (h x (List.mem_cons_self _ _))]

end Gather

section GatherOuter

variable {K : Type} [LinearOrderedField K]

open SparsityPattern SparseVanka

theorem gather_fold_shape (matrix : SparseMatrix K) (L : List (Nat × Nat)) :
    ∀ (l : List (Nat × Nat)) (F : FullMatrix K),
      (l.foldl (gather_row matrix L) F).m = F.m ∧ (l.foldl (gather_row matrix L) F).n = F.n := by
  intro l
  induction l with
  | nil => intro F; exact ⟨rfl, rfl⟩
  | cons x rest ih =>
    intro F
    rw [List.foldl_cons]
    obtain ⟨h1, h2⟩ := ih (gather_row matrix L F x)
    obtain ⟨g1, g2⟩ := gather_row_shape matrix L F x
    exact ⟨h1.trans g1, h2.trans g2⟩

/-- The local entry `(p, q)` when no slot of the coupling row goes to local
column `q`: it keeps the value it had. -/
theorem gather_fold_miss (matrix : SparseMatrix K) (L : List (Nat × Nat)) (p q : Nat)
    (x0 : Nat × Nat)
    (hnone : ∀ j, j < matrix.cols.row_length x0.1 →
      map_find L (matrix.cols.column_number x0.1 j) ≠ some q) :
    ∀ (l : List (Nat × Nat)) (F : FullMatrix K), (∀ x ∈ l, x.2 = p → x = x0) →
      (l.foldl (gather_row matrix L) F).el p q = F.el p q := by
  intro l
  induction l with
  | nil => intro F _; rfl
  | cons x rest ih =>
    intro F h
    rw [List.foldl_cons, ih _ (fun y hy => h y (List.mem_cons_of_mem _ hy))]
    by_cases hx : x.2 = p
    · have := h x (List.mem_cons_self _ _) hx
      subst this
      unfold gather_row
      apply gather_inner_miss
      intro _ j hj
      rw [List.mem_range] at hj
      exact hnone j hj
    · exact gather_row_other matrix L F x p q hx

/-- The local entry `(p, q)` when the slot `j0` of the coupling row goes to
local column `q`: the value of that slot. -/
theorem gather_fold_hit (matrix : SparseMatrix K) (L : List (Nat × Nat)) (p q : Nat)
    (x0 : Nat × Nat) (hx0 : x0.2 = p) (j0 : Nat) (hj0 : j0 < matrix.cols.row_length x0.1)
    (hfind : map_find L (matrix.cols.column_number x0.1 j0) = some q)
    (huniq : ∀ j, j < matrix.cols.row_length x0.1 →
      map_find L (matrix.cols.column_number x0.1 j) = some q → j = j0) :
    ∀ (l : List (Nat × Nat)) (F : FullMatrix K), p < F.m → q < F.n → x0 ∈ l →
      (∀ x ∈ l, x.2 = p → x = x0) →
      (l.foldl (gather_row matrix L) F).el p q = matrix.raw_entry x0.1 j0 := by
  intro l
  induction l with
  | nil => intro F _ _ h; exact absurd h (List.not_mem_nil _)
  | cons x rest ih =>
    intro F hp hq hmem h
    rw [List.foldl_cons]
    obtain ⟨g1, g2⟩ := gather_row_shape matrix L F x
    by_cases hin : x0 ∈ rest
    · exact ih _ (by rw [g1]; exact hp) (by rw [g2]; exact hq) hin
        (fun y hy => h y (List.mem_cons_of_mem _ hy))
    · have hx : x0 = x := by
        rcases List.mem_cons.1 hmem with e | e
        · exact e
        · exact absurd e hin
      subst hx
      rw [gather_fold_other matrix L p q rest]
      · unfold gather_row
        simp only
        rw [hx0]
        apply gather_inner_hit matrix L x0.1 p q j0 hfind _ F hp hq
        · rw [List.mem_range]; exact hj0
        · intro j hj
          rw [List.mem_range] at hj
          exact huniq j hj
      · intro y hy hc
        have := h y (List.mem_cons_of_mem _ hy) hc
        rw [this] at hy
        exact hin hy

/-- The local system gathered from any dense matrix of the right size whose
entry `(p, q)` is zero: its entry `(p, q)` is the matrix value at the position
given by the `p`-th and `q`-th column of row `r`. -/
theorem gather_entries (matrix : SparseMatrix K) (r : Nat)
    (hrow : matrix.cols.RowProper r matrix.m)
    (hrows : ∀ p, p < matrix.cols.row_length r →
      matrix.cols.RowProper (matrix.cols.column_number r p) matrix.m)
    (p q : Nat) (hp : p < matrix.cols.row_length r) (hq : q < matrix.cols.row_length r)
    (F : FullMatrix K) (hFm : F.m = matrix.cols.row_length r)
    (hFn : F.n = matrix.cols.row_length r) (hF : F.el p q = 0) :
    ((build_local_index matrix.cols r).foldl
        (gather_row matrix (build_local_index matrix.cols r)) F).el p q =
      matrix.el (matrix.cols.column_number r p) (matrix.cols.column_number r q) := by
  obtain ⟨s1, s2, s3⟩ := build_local_index_spec matrix.cols r
    (fun a b ha hb => hrow.2 a ha b hb)
  generalize build_local_index matrix.cols r = L at s1 s2 s3
  have hone : ∀ x ∈ L, x.2 = p → x = (matrix.cols.column_number r p, p) := by
    intro x hx hxp
    have := (s2 x hx).2
    apply Prod.ext
    · simp only; rw [this, hxp]
    · exact hxp
  have hcol : ∀ c, map_find L c = some q → c = matrix.cols.column_number r q := by
    intro c hc
    exact (s2 _ (mem_of_lookup L c q hc)).2
  have hdist := (hrows p hp).2
  by_cases hex : ∃ j0, j0 < matrix.cols.row_length (matrix.cols.column_number r p) ∧
      matrix.cols.column_number (matrix.cols.column_number r p) j0 =
        matrix.cols.column_number r q
  · obtain ⟨j0, hj0, hc0⟩ := hex
    rw [gather_fold_hit matrix L p q (matrix.cols.column_number r p, p) rfl j0 hj0
      (by simp only; rw [hc0]; exact lookup_of_mem L _ q s1 (s3 q hq))
      (fun j hj hf => hdist j hj j0 hj0 (by rw [hc0]; exact hcol _ hf))
      L F (by rw [hFm]; exact hp) (by rw [hFn]; exact hq) (s3 p hp) hone]
    rw [← hc0]
    exact (el_column_number matrix _ hdist j0 hj0).symm
  · rw [gather_fold_miss matrix L p q (matrix.cols.column_number r p, p)
      (fun j hj hf => hex ⟨j, hj, hcol _ hf⟩) L F hone, hF]
    exact (el_absent matrix _ _ (fun j hj hc => hex ⟨j, hj, hc⟩)).symm

end GatherOuter

section GaussSeidel

variable {K : Type} [LinearOrderedField K]

open SparsityPattern SparseVanka

theorem sum_map_range (f : Nat → K) (n : Nat) :
    ((List.range n).map f).sum = ∑ j ∈ Finset.range n, f j := by
  rw [List.range_eq_range', sum_map_range', Nat.zero_add, ← Finset.range_eq_Ico]

/-- The value at a position of a row with pairwise different columns, as a
sum over the slots of the row. -/
theorem el_eq_sum_slots (M : SparseMatrix K) (i c : Nat)
    (hdist : ∀ p, p < M.cols.row_length i → ∀ q, q < M.cols.row_length i →
      M.cols.column_number i p = M.cols.column_number i q → p = q) :
    M.el i c = ∑ j ∈ Finset.range (M.cols.row_length i),
      if M.cols.column_number i j = c then M.raw_entry i j else 0 := by
  by_cases hex : ∃ j0, j0 < M.cols.row_length i ∧ M.cols.column_number i j0 = c
  · obtain ⟨j0, hj0, hc⟩ := hex
    rw [Finset.sum_eq_single j0]
    · rw [if_pos hc, ← hc, el_column_number M i hdist j0 hj0]
    · intro j hj hne
      rw [Finset.mem_range] at hj
      rw [if_neg]
      intro hcj
      exact hne (hdist j hj j0 hj0 (by rw [hcj, hc]))
    · intro hnot
      exact absurd (Finset.mem_range.2 hj0) hnot
  · rw [el_absent M i c (fun j hj hc => hex ⟨j, hj, hc⟩)]
    symm
    apply Finset.sum_eq_zero
    intro j hj
    rw [Finset.mem_range] at hj
    rw [if_neg (fun hc => hex ⟨j, hj, hc⟩)]

theorem distribute_length (L : List (Nat × Nat)) (x d : List K) :
    (distribute L x d).length = d.length := by
  unfold distribute
  exact (foldl_set_spec (fun p : Nat × Nat => p.1) (fun p : Nat × Nat => x.getD p.2 0) (0 : K)
    L d).1

theorem apply_row_length (self : SparseVanka K) (src : List K) (st : ApplyState K) (row : Nat) :
    (apply_row self src st row).dst.length = st.dst.length := by
  unfold apply_row
  split
  · simp only
    split <;> exact distribute_length _ _ _
  · rfl

theorem apply_row_table (self : SparseVanka K) (src : List K) (st : ApplyState K) (row : Nat)
    (h : self.conserve_mem = false) : (apply_row self src st row).inverses = st.inverses := by
  unfold apply_row
  split
  · simp only [h, Bool.false_eq_true, if_false]
  · rfl

theorem apply_upto_inv (self : SparseVanka K) (dst src : List K) :
    ∀ k, (apply_upto self dst src k).dst.length = dst.length ∧
      (self.conserve_mem = false → (apply_upto self dst src k).inverses = self.inverses) := by
  intro k
  induction k with
  | zero => exact ⟨by simp [apply_upto, clear], fun _ => rfl⟩
  | succ k ih =>
    unfold apply_upto at ih ⊢
    rw [List.range_succ, List.foldl_append, List.foldl_cons, List.foldl_nil]
    exact ⟨(apply_row_length self src _ k).trans ih.1,
      fun h => (apply_row_table self src _ k h).trans (ih.2 h)⟩

theorem apply_upto_succ (self : SparseVanka K) (dst src : List K) (k : Nat) :
    apply_upto self dst src (k + 1) = apply_row self src (apply_upto self dst src k) k := by
  unfold apply_upto
  rw [List.range_succ, List.foldl_append, List.foldl_cons, List.foldl_nil]

theorem apply_upto_unselected (self : SparseVanka K) (dst src : List K) (r : Nat) :
    ∀ d, (∀ k, r < k → k < r + 1 + d → self.selected.getD k false = false) →
      apply_upto self dst src (r + 1 + d) = apply_upto self dst src (r + 1) := by
  intro d
  induction d with
  | zero => intro _; rfl
  | succ d ih =>
    intro h
    have e : r + 1 + (d + 1) = (r + 1 + d) + 1 := by omega
    rw [e, apply_upto_succ, apply_row_unselected _ _ _ _ (h (r + 1 + d) (by omega) (by omega))]
    exact ih (fun k hk1 hk2 => h k hk1 (by omega))

end GaussSeidel

section GaussSeidelRow

variable {K : Type} [LinearOrderedField K]

open SparsityPattern SparseVanka

/-- After a selected row `r` with invertible local system has been worked on,
the product of the matrix with the destination vector agrees with the source
at every column of row `r`. -/
theorem apply_row_residual (self : SparseVanka K) (src : List K) (st : ApplyState K) (r : Nat)
    (hrow : self.matrix.cols.RowProper r self.matrix.m)
    (hrows : ∀ p, p < self.matrix.cols.row_length r →
      self.matrix.cols.RowProper (self.matrix.cols.column_number r p) self.matrix.m)
    (hsel : self.selected.getD r false = true)
    (htable : self.conserve_mem = false →
      st.inverses.getD r none = some (local_system self.matrix r).gauss_jordan)
    (hdst : st.dst.length = self.matrix.m)
    (hinv : IsUnit ((local_system self.matrix r).to_matrix
      (self.matrix.cols.row_length r)).det)
    (p : Nat) (hp : p < self.matrix.cols.row_length r) :
    self.matrix.vmult_entry (apply_row self src st r).dst (self.matrix.cols.column_number r p) =
      src.getD (self.matrix.cols.column_number r p) 0 := by
  obtain ⟨_, a2, a3⟩ := apply_row_entries self src st r hrow hsel htable hdst
  obtain ⟨s1, s2, s3⟩ := build_local_index_spec self.matrix.cols r
    (fun a b ha hb => hrow.2 a ha b hb)
  generalize (apply_row self src st r).dst = d at a2 a3
  generalize hL : build_local_index self.matrix.cols r = L at a2 s1 s2 s3
  have hdist := (hrows p hp).2
  -- the local equation
  have hMx := congrFun (show ((local_system self.matrix r).to_matrix
      (self.matrix.cols.row_length r)).mulVec
      ((GaussJordan.invert ((local_system self.matrix r).to_matrix
        (self.matrix.cols.row_length r))).mulVec
        (fun q : Fin (self.matrix.cols.row_length r) =>
          src.getD (self.matrix.cols.column_number r q) 0 -
            rhs_correction self.matrix L st.dst (self.matrix.cols.column_number r q))) = _ from by
    rw [Matrix.mulVec_mulVec, Matrix.mul_eq_one_comm.1 (GaussJordan.invert_mul _ hinv),
      Matrix.one_mulVec]) ⟨p, hp⟩
  rw [← (funext a2 : (fun q : Fin (self.matrix.cols.row_length r) =>
    d.getD (self.matrix.cols.column_number r q) 0) = _)] at hMx
  simp only [Matrix.mulVec, Matrix.dotProduct, FullMatrix.to_matrix, Matrix.of_apply] at hMx
  rw [Fin.sum_univ_eq_sum_range (fun q => (local_system self.matrix r).el p q *
    d.getD (self.matrix.cols.column_number r q) 0) (self.matrix.cols.row_length r)] at hMx
  have hloc : ∀ q ∈ Finset.range (self.matrix.cols.row_length r),
      (local_system self.matrix r).el p q * d.getD (self.matrix.cols.column_number r q) 0 =
      ∑ j ∈ Finset.range (self.matrix.cols.row_length (self.matrix.cols.column_number r p)),
        if self.matrix.cols.column_number (self.matrix.cols.column_number r p) j =
            self.matrix.cols.column_number r q
        then self.matrix.raw_entry (self.matrix.cols.column_number r p) j *
          d.getD (self.matrix.cols.column_number r q) 0
        else 0 := by
    intro q hq
    rw [Finset.mem_range] at hq
    have hg : (local_system self.matrix r).el p q = self.matrix.el
        (self.matrix.cols.column_number r p) (self.matrix.cols.column_number r q) := by
      unfold local_system
      exact gather_entries self.matrix r hrow hrows p q hp hq _ rfl rfl rfl
    rw [hg, el_eq_sum_slots self.matrix _ _ hdist, Finset.sum_mul]
    apply Finset.sum_congr rfl
    intro j _
    split <;> simp
  rw [Finset.sum_congr rfl hloc, Finset.sum_comm] at hMx
  -- the matrix row against the destination
  unfold SparseMatrix.vmult_entry
  rw [sum_map_range]
  unfold rhs_correction at hMx
  rw [sum_map_range] at hMx
  rw [eq_sub_iff_add_eq] at hMx
  rw [← hMx, ← Finset.sum_add_distrib]
  apply Finset.sum_congr rfl
  intro j _
  cases hfind : map_find L
      (self.matrix.cols.column_number (self.matrix.cols.column_number r p) j) with
  | none =>
    have hno : ∀ x, x < self.matrix.cols.row_length r → self.matrix.cols.column_number r x ≠
        self.matrix.cols.column_number (self.matrix.cols.column_number r p) j := by
      intro x hx hc
      have := lookup_of_mem L _ x s1 (s3 x hx)
      rw [hc, hfind] at this
      exact Option.noConfusion this
    simp only
    rw [Finset.sum_eq_zero, zero_add, a3 _ hno]
    intro x hx
    rw [Finset.mem_range] at hx
    rw [if_neg (fun hc => hno x hx hc.symm)]
  | some q0 =>
    obtain ⟨hq0, hc0⟩ := s2 _ (mem_of_lookup L _ q0 hfind)
    simp only at hq0 hc0
    simp only
    rw [add_zero, Finset.sum_eq_single q0]
    · rw [if_pos hc0, hc0]
    · intro x hx hne
      rw [Finset.mem_range] at hx
      rw [if_neg]
      intro hc
      exact hne (hrow.2 x hx q0 hq0 (by rw [← hc, hc0]))
    · intro hnot
      exact absurd (Finset.mem_range.2 hq0) hnot

end GaussSeidelRow

section Claims2

variable {K : Type} [LinearOrderedField K]

open SparsityPattern SparseILU SparseVanka Examples

/-- Claim C11: `decompose` raises a shape error exactly when the source is not
square, the target is not square or their dimensions differ, and it raises the
invalid-strengthening error exactly when the shapes are fine and
`strengthen_diagonal < 0`; so `strengthen_diagonal = 0` is accepted. -/
theorem decompose_entry_checks (self matrix : SparseMatrix K) (strengthen_diagonal : K) :
    ((∃ e, (decompose self matrix strengthen_diagonal).error = some e ∧
        e.is_shape_error = true) ↔
      (matrix.m ≠ matrix.n ∨ self.m ≠ self.n ∨ matrix.m ≠ self.m)) ∧
    ((decompose self matrix strengthen_diagonal).error = some Exc.ExcInvalidStrengthening ↔
      (matrix.m = matrix.n ∧ self.m = self.n ∧ matrix.m = self.m ∧ strengthen_diagonal < 0)) := by
  unfold decompose
  by_cases h1 : matrix.m ≠ matrix.n
  · rw [if_pos h1]
    refine ⟨⟨fun _ => Or.inl h1, fun _ => ⟨_, rfl, rfl⟩⟩, ⟨fun h => ?_, fun h => absurd h.1 h1⟩⟩
    simp at h
  rw [if_neg h1]
  by_cases h2 : self.m ≠ self.n
  · rw [if_pos h2]
    refine ⟨⟨fun _ => Or.inr (Or.inl h2), fun _ => ⟨_, rfl, rfl⟩⟩,
      ⟨fun h => ?_, fun h => absurd h.2.1 h2⟩⟩
    simp at h
  rw [if_neg h2]
  by_cases h3 : matrix.m ≠ self.m
  · rw [if_pos h3]
    refine ⟨⟨fun _ => Or.inr (Or.inr h3), fun _ => ⟨_, rfl, rfl⟩⟩,
      ⟨fun h => ?_, fun h => absurd h.2.2.1 h3⟩⟩
    simp at h
  rw [if_neg h3]
  have hshape : ¬ (matrix.m ≠ matrix.n ∨ self.m ≠ self.n ∨ matrix.m ≠ self.m) := by
    rintro (h | h | h)
    · exact h1 h
    · exact h2 h
    · exact h3 h
  by_cases h4 : strengthen_diagonal < 0
  · rw [if_pos h4]
    refine ⟨⟨fun h => ?_, fun h => absurd h hshape⟩,
      ⟨fun _ => ⟨not_not.1 h1, not_not.1 h2, not_not.1 h3, h4⟩, fun _ => rfl⟩⟩
    obtain ⟨e, he, hs⟩ := h
    simp only [Option.some.injEq] at he
    rw [← he] at hs
    exact absurd hs (by decide)
  rw [if_neg h4]
  simp only
  rcases eliminate_error (strengthen (copy_from self matrix) strengthen_diagonal).cols
    (List.range' 1 ((strengthen (copy_from self matrix) strengthen_diagonal).m - 1))
    (strengthen (copy_from self matrix) strengthen_diagonal).val with h | h
  · rw [h]
    refine ⟨⟨fun ⟨e, he, _⟩ => Option.noConfusion he, fun h => absurd h hshape⟩,
      ⟨fun h => Option.noConfusion h, fun h => absurd h.2.2.2 h4⟩⟩
  · rw [h]
    refine ⟨⟨fun ⟨e, he, hs⟩ => ?_, fun h => absurd h hshape⟩,
      ⟨fun h => ?_, fun h => absurd h.2.2.2 h4⟩⟩
    · simp only [Option.some.injEq] at he
      rw [← he] at hs
      exact absurd hs (by decide)
    · simp at h

/-- Claim C12: `apply_decomposition` raises a size error exactly when the size
of `dst` differs from the size of `src` or from the dimension of the matrix,
and it returns a result exactly when both sizes equal that dimension. -/
theorem apply_decomposition_size_check (self : SparseMatrix K) (dst src : List K) :
    ((∃ a b, apply_decomposition self dst src = .error (Exc.ExcSizeMismatch a b)) ↔
      (dst.length ≠ src.length ∨ dst.length ≠ self.m)) ∧
    ((∃ x, apply_decomposition self dst src = .ok x) ↔
      (dst.length = self.m ∧ src.length = self.m)) := by
  unfold apply_decomposition
  by_cases h1 : dst.length ≠ src.length
  · rw [if_pos h1]
    refine ⟨⟨fun _ => Or.inl h1, fun _ => ⟨_, _, rfl⟩⟩, ⟨fun ⟨x, hx⟩ => ?_, fun h => ?_⟩⟩
    · simp at hx
    · exact absurd (h.1.trans h.2.symm) h1
  rw [if_neg h1]
  by_cases h2 : dst.length ≠ self.m
  · rw [if_pos h2]
    refine ⟨⟨fun _ => Or.inr h2, fun _ => ⟨_, _, rfl⟩⟩, ⟨fun ⟨x, hx⟩ => ?_, fun h => ?_⟩⟩
    · simp at hx
    · exact absurd h.1 h2
  rw [if_neg h2]
  have e1 := not_not.1 h1
  have e2 := not_not.1 h2
  refine ⟨⟨fun ⟨a, b, h⟩ => ?_, fun h => ?_⟩, ⟨fun _ => ⟨e2, e1 ▸ e2⟩, fun _ => ⟨_, rfl⟩⟩⟩
  · simp at h
  · rcases h with h | h
    · exact absurd e1 h
    · exact absurd e2 h

end Claims2

section Claims3

variable {K : Type} [LinearOrderedField K]

open SparsityPattern SparseILU SparseVanka Examples

/-- Claim C13 as stated fails on the code: on the full `2 × 2` matrix with
`-5` on the diagonal and `1` beside it, going from `strengthen_diagonal = 0` to
`1` takes the diagonal entry of row `0` after the copy and strengthening steps
from `-5` to `-4`, so its absolute value drops; and on the `1 × 1` matrix `[4]`
the diagonal entry is `4` for both values. -/
theorem strengthening_not_monotone_in_abs :
    ((0 : ℚ) ≤ 0 ∧ (0 : ℚ) < 1) ∧
    (strengthen (copy_from ⟨full2, [0, 0, 0, 0]⟩ (⟨full2, [-5, 1, -5, 1]⟩ : SparseMatrix ℚ))
      0).diag_element 0 = -5 ∧
    (strengthen (copy_from ⟨full2, [0, 0, 0, 0]⟩ (⟨full2, [-5, 1, -5, 1]⟩ : SparseMatrix ℚ))
      1).diag_element 0 = -4 ∧
    ¬ (abs ((strengthen (copy_from ⟨full2, [0, 0, 0, 0]⟩
          (⟨full2, [-5, 1, -5, 1]⟩ : SparseMatrix ℚ)) 0).diag_element 0) <
        abs ((strengthen (copy_from ⟨full2, [0, 0, 0, 0]⟩
          (⟨full2, [-5, 1, -5, 1]⟩ : SparseMatrix ℚ)) 1).diag_element 0)) ∧
    ¬ (abs ((strengthen (copy_from ⟨single, [0]⟩ (⟨single, [4]⟩ : SparseMatrix ℚ))
          0).diag_element 0) <
        abs ((strengthen (copy_from ⟨single, [0]⟩ (⟨single, [4]⟩ : SparseMatrix ℚ))
          1).diag_element 0)) := by
  decide!

/-- Claim C13, amended: on well-formed patterns of the same dimension, for
`0 ≤ s1 < s2` and every row `i`, after the copy and strengthening steps the
diagonal entry obtained with `s2` is the one obtained with `s1` plus
`(s2 - s1) * R`, where `R` is the sum of the absolute values of the
off-diagonal entries of the row; its absolute value is strictly greater
exactly when `R > 0` and `2 * A(i,i) + (s1 + s2) * R > 0`; and every
off-diagonal entry is the same for `s1` and `s2`. -/
theorem strengthening_monotone (self matrix : SparseMatrix K) (hwft : self.cols.WellFormed)
    (hwfm : matrix.cols.WellFormed) (hm : matrix.m = self.m)
    (hval : self.cols.n_nonzero_elements ≤ self.val.length) (s1 s2 : K)
    (h1 : 0 ≤ s1) (h2 : s1 < s2) (i : Nat) (hi : i < self.m) :
    (strengthen (copy_from self matrix) s2).diag_element i =
      (strengthen (copy_from self matrix) s1).diag_element i +
        (s2 - s1) * source_abs_sum self matrix i ∧
    (abs ((strengthen (copy_from self matrix) s1).diag_element i) <
        abs ((strengthen (copy_from self matrix) s2).diag_element i) ↔
      (0 < source_abs_sum self matrix i ∧
        0 < 2 * matrix.el i i + (s1 + s2) * source_abs_sum self matrix i)) ∧
    (∀ g, self.cols.rowstart i + 1 ≤ g → g < self.cols.rowstart (i + 1) →
      (strengthen (copy_from self matrix) s2).val.getD g 0 =
        (strengthen (copy_from self matrix) s1).val.getD g 0) := by
  obtain ⟨a1, a2, a3⟩ := prepared_spec self matrix hwft hwfm hm hval s1 h1
  obtain ⟨b1, b2, b3⟩ := prepared_spec self matrix hwft hwfm hm hval s2
    (le_trans h1 (le_of_lt h2))
  unfold SparseMatrix.diag_element
  rw [a1, b1, a2 i hi, b2 i hi]
  refine ⟨by ring, abs_lt_abs_add_iff _ _ s1 s2 (source_abs_sum_nonneg self matrix i) h2, ?_⟩
  intro g hg1 hg2
  rw [a3 i hi g hg1 hg2, b3 i hi g hg1 hg2]

/-- The theorem of claim C13 on the tridiagonal `4 × 4` matrix, for
`s1 = 0`, `s2 = 1/2` and row `1`. -/
theorem strengthening_monotone_witness :
    blank4.cols.WellFormed ∧ (0 : ℚ) ≤ 0 ∧ (0 : ℚ) < 1 / 2 ∧
    ((strengthen (copy_from blank4 laplace4) (1 / 2)).diag_element 1 =
      (strengthen (copy_from blank4 laplace4) 0).diag_element 1 +
        (1 / 2 - 0) * source_abs_sum blank4 laplace4 1 ∧
    (abs ((strengthen (copy_from blank4 laplace4) 0).diag_element 1) <
        abs ((strengthen (copy_from blank4 laplace4) (1 / 2)).diag_element 1) ↔
      (0 < source_abs_sum blank4 laplace4 1 ∧
        0 < 2 * laplace4.el 1 1 + (0 + 1 / 2) * source_abs_sum blank4 laplace4 1)) ∧
    (∀ g, blank4.cols.rowstart 1 + 1 ≤ g → g < blank4.cols.rowstart (1 + 1) →
      (strengthen (copy_from blank4 laplace4) (1 / 2)).val.getD g 0 =
        (strengthen (copy_from blank4 laplace4) 0).val.getD g 0)) :=
  ⟨by decide, by decide!, by decide!,
    strengthening_monotone blank4 laplace4 (by decide) (by decide) rfl (by decide) 0 (1 / 2)
      (by decide!) (by decide!) 1 (by decide)⟩

/-- Claim C15: on well-formed patterns of the same dimension, for every
`strengthen_diagonal = s ≥ 0` and every row `i`, after the copy and
strengthening steps the diagonal entry is `A(i,i) + s * R`, with `R` the sum
of `|A(i,j)|` over the off-diagonal entries stored in the row, every
off-diagonal entry is the value the copy step left, and for `s = 0` the matrix
is the plain copy. -/
theorem strengthening_values (self matrix : SparseMatrix K) (hwft : self.cols.WellFormed)
    (hwfm : matrix.cols.WellFormed) (hm : matrix.m = self.m)
    (hval : self.cols.n_nonzero_elements ≤ self.val.length) (s : K) (hs : 0 ≤ s)
    (i : Nat) (hi : i < self.m) :
    (strengthen (copy_from self matrix) s).diag_element i =
      matrix.el i i + s * source_abs_sum self matrix i ∧
    (∀ g, self.cols.rowstart i + 1 ≤ g → g < self.cols.rowstart (i + 1) →
      (strengthen (copy_from self matrix) s).val.getD g 0 =
        (copy_from self matrix).val.getD g 0 ∧
      (copy_from self matrix).val.getD g 0 = matrix.el i (self.cols.column g)) ∧
    strengthen (copy_from self matrix) 0 = copy_from self matrix := by
  obtain ⟨a1, a2, a3⟩ := prepared_spec self matrix hwft hwfm hm hval s hs
  refine ⟨?_, ?_, ?_⟩
  · unfold SparseMatrix.diag_element
    rw [a1, a2 i hi]
  · intro g hg1 hg2
    have := copy_from_slot self matrix hwft hwfm hm hval i g hi (by omega) hg2
    exact ⟨(a3 i hi g hg1 hg2).trans this.symm, this⟩
  · unfold strengthen
    rw [if_neg (lt_irrefl _)]

/-- The theorem of claim C15 on the tridiagonal `4 × 4` matrix, for
`strengthen_diagonal = 1/2` and row `1`. -/
theorem strengthening_values_witness :
    blank4.cols.WellFormed ∧ (0 : ℚ) ≤ 1 / 2 ∧
    ((strengthen (copy_from blank4 laplace4) (1 / 2)).diag_element 1 =
      laplace4.el 1 1 + 1 / 2 * source_abs_sum blank4 laplace4 1 ∧
    (∀ g, blank4.cols.rowstart 1 + 1 ≤ g → g < blank4.cols.rowstart (1 + 1) →
      (strengthen (copy_from blank4 laplace4) (1 / 2)).val.getD g 0 =
        (copy_from blank4 laplace4).val.getD g 0 ∧
      (copy_from blank4 laplace4).val.getD g 0 = laplace4.el 1 (blank4.cols.column g)) ∧
    strengthen (copy_from blank4 laplace4) 0 = copy_from blank4 laplace4) :=
  ⟨by decide, by decide!,
    strengthening_values blank4 laplace4 (by decide) (by decide) rfl (by decide) (1 / 2)
      (by decide!) 1 (by decide)⟩

/-- Claim C16: on well-formed patterns of the same dimension, after step 1 of
`decompose` every slot of the target whose position is present in the source
holds the source value at that position, and every slot whose position is
absent from the source holds zero, whatever values the target held. -/
theorem copy_step_values (self matrix : SparseMatrix K) (hwft : self.cols.WellFormed)
    (hwfm : matrix.cols.WellFormed) (hm : matrix.m = self.m)
    (hval : self.cols.n_nonzero_elements ≤ self.val.length)
    (r g : Nat) (hr : r < self.m)
    (hg1 : self.cols.rowstart r ≤ g) (hg2 : g < self.cols.rowstart (r + 1)) :
    (∀ s, matrix.cols.index r (self.cols.column g) = some s →
      (copy_from self matrix).val.getD g 0 = matrix.val.getD s 0) ∧
    (matrix.cols.index r (self.cols.column g) = none →
      (copy_from self matrix).val.getD g 0 = 0) := by
  have h := copy_from_slot self matrix hwft hwfm hm hval r g hr hg1 hg2
  unfold SparseMatrix.el at h
  constructor
  · intro s hs
    rw [h, hs]
  · intro hs
    rw [h, hs]

/-- The theorem of claim C16 for a target on the tridiagonal `4 × 4` pattern
that holds other values before the call, at the slot of position `(1, 0)`. -/
theorem copy_step_values_witness :
    used4.cols.WellFormed ∧
    ((∀ s, laplace4.cols.index 1 (used4.cols.column 3) = some s →
      (copy_from used4 laplace4).val.getD 3 0 = laplace4.val.getD s 0) ∧
    (laplace4.cols.index 1 (used4.cols.column 3) = none →
      (copy_from used4 laplace4).val.getD 3 0 = 0)) :=
  ⟨by decide,
    copy_step_values used4 laplace4 (by decide) (by decide) rfl (by decide) 1 3 (by decide)
      (by decide) (by decide)⟩

/-- Claim C17: for well-formed patterns with at least two rows and a
successful `decompose (A, s)`, every off-diagonal slot of row `0` of the result
holds the source value `A(0,j)`, and the diagonal slot of row `0` holds
`1 / (A(0,0) + s * R)`, with `R` the sum of `|A(0,j)|` over the off-diagonal
entries stored in row `0`. -/
theorem row_zero_not_eliminated (self matrix : SparseMatrix K) (s : K)
    (hwft : self.cols.WellFormed) (hwfm : matrix.cols.WellFormed)
    (hval : self.cols.n_nonzero_elements ≤ self.val.length) (hN : 2 ≤ self.m)
    (hok : (decompose self matrix s).error = none) :
    (decompose self matrix s).matrix.diag_element 0 =
      1 / (matrix.el 0 0 + s * source_abs_sum self matrix 0) ∧
    (∀ g, self.cols.rowstart 0 + 1 ≤ g → g < self.cols.rowstart 1 →
      (decompose self matrix s).matrix.val.getD g 0 = matrix.el 0 (self.cols.column g)) := by
  unfold decompose at hok ⊢
  by_cases c1 : matrix.m ≠ matrix.n
  · rw [if_pos c1] at hok; exact Option.noConfusion hok
  rw [if_neg c1] at hok ⊢
  by_cases c2 : self.m ≠ self.n
  · rw [if_pos c2] at hok; exact Option.noConfusion hok
  rw [if_neg c2] at hok ⊢
  by_cases c3 : matrix.m ≠ self.m
  · rw [if_pos c3] at hok; exact Option.noConfusion hok
  rw [if_neg c3] at hok ⊢
  by_cases c4 : s < 0
  · rw [if_pos c4] at hok; exact Option.noConfusion hok
  rw [if_neg c4] at hok ⊢
  simp only at hok ⊢
  obtain ⟨a1, a2, a3⟩ := prepared_spec self matrix hwft hwfm (not_not.1 c3) hval s (not_lt.1 c4)
  obtain ⟨f1, f2⟩ := copy_from_frame self matrix
  obtain ⟨g1, g2⟩ := strengthen_frame (copy_from self matrix) s
  have hm : (strengthen (copy_from self matrix) s).m = self.m := by
    unfold SparseMatrix.m; rw [a1]
  have h0 : (0 : Nat) < self.cols.rows := by unfold SparseMatrix.m at hN; omega
  have h1r : (1 : Nat) < self.cols.rows := by unfold SparseMatrix.m at hN; omega
  have hd0 : self.cols.rowstart 0 < self.cols.rowstart 1 := (hwft.2.1 0 h0).1
  have hd1 : self.cols.rowstart 1 < self.cols.rowstart 2 := (hwft.2.1 1 h1r).1
  have hlen : self.cols.rowstart 0 < (strengthen (copy_from self matrix) s).val.length := by
    rw [g2, f2]
    have := wf_rowstart_le self.cols hwft 1 self.cols.rows (by omega) (le_refl _)
    unfold n_nonzero_elements at hval
    omega
  have hrows : List.range' 1 ((strengthen (copy_from self matrix) s).m - 1) =
      1 :: List.range' 2 (self.m - 2) := by
    rw [hm]
    have e : self.m - 1 = (self.m - 2) + 1 := by omega
    rw [e, List.range'_succ]
  rw [hrows, a1] at hok ⊢
  generalize (strengthen (copy_from self matrix) s).val = val at a2 a3 hok hlen ⊢
  unfold eliminate at hok ⊢
  simp only [Nat.sub_self] at hok ⊢
  by_cases hz : val.getD (self.cols.rowstart 0) 0 = 0
  · rw [if_pos hz] at hok; exact Option.noConfusion hok
  rw [if_neg hz]
  have hlow : ∀ g, g < self.cols.rowstart 1 →
      (eliminate self.cols (List.range' 2 (self.m - 2))
        (eliminate_row self.cols 1
          (val.set (self.cols.rowstart 0) (1 / val.getD (self.cols.rowstart 0) 0)))).2.getD g 0 =
      (val.set (self.cols.rowstart 0) (1 / val.getD (self.cols.rowstart 0) 0)).getD g 0 := by
    intro g hg
    rw [eliminate_getD_low self.cols (self.cols.rowstart 1) g hg,
      eliminate_row_getD self.cols 1 _ g (Or.inl hg)]
    intro row hrow
    rw [List.mem_range'_1] at hrow
    have hrm : row < self.cols.rows := by
      have : self.m = self.cols.rows := rfl
      omega
    exact ⟨wf_rowstart_le self.cols hwft 1 (row - 1) (by omega) (by omega),
      wf_rowstart_le self.cols hwft 1 row (by omega) (by omega)⟩
  constructor
  · unfold SparseMatrix.diag_element
    simp only
    rw [hlow _ hd0, getD_set_eq _ _ _ _ hlen, a2 0 (by omega)]
  · intro g hg1 hg2
    rw [hlow g hg2, getD_set_ne _ _ _ _ _ (by omega), a3 0 (by omega) g hg1 hg2]

/-- The theorem of claim C17 on the tridiagonal `4 × 4` matrix with
`strengthen_diagonal = 1/2`. -/
theorem row_zero_not_eliminated_witness :
    blank4.cols.WellFormed ∧ (decompose blank4 laplace4 (1 / 2)).error = none ∧
    ((decompose blank4 laplace4 (1 / 2)).matrix.diag_element 0 =
      1 / (laplace4.el 0 0 + 1 / 2 * source_abs_sum blank4 laplace4 0) ∧
    (∀ g, blank4.cols.rowstart 0 + 1 ≤ g → g < blank4.cols.rowstart 1 →
      (decompose blank4 laplace4 (1 / 2)).matrix.val.getD g 0 =
        laplace4.el 0 (blank4.cols.column g))) :=
  ⟨by decide, by decide!,
    row_zero_not_eliminated blank4 laplace4 (1 / 2) (by decide) (by decide) (by decide)
      (by decide) (by decide!)⟩

end Claims3

section Claims4

variable {K : Type} [LinearOrderedField K]

open SparsityPattern SparseILU SparseVanka Examples

/-- Claim C14, evaluated on the code: the elimination loop of `decompose` and
the pseudo-algorithm of its comment give different values.  On the full
`2 × 2` matrix with rows `(2, 1)` and `(1, 3)` (all pivots non-zero) the
pseudo-algorithm reduces the diagonal of row `1` to `5/2`, the code leaves it
at `3`; on the tridiagonal `4 × 4` matrix the pseudo-algorithm reduces the last
diagonal to `209/56`, the code leaves it at `4`. -/
theorem elimination_differs_from_pseudo_algorithm :
    full2.WellFormed ∧
    (strengthen (copy_from ⟨full2, [0, 0, 0, 0]⟩ (⟨full2, [2, 1, 3, 1]⟩ : SparseMatrix ℚ))
      0).val = [2, 1, 3, 1] ∧
    (decompose ⟨full2, [0, 0, 0, 0]⟩ (⟨full2, [2, 1, 3, 1]⟩ : SparseMatrix ℚ) 0).error = none ∧
    (decompose ⟨full2, [0, 0, 0, 0]⟩ (⟨full2, [2, 1, 3, 1]⟩ : SparseMatrix ℚ) 0).matrix.val =
      [1 / 2, 1, 3, 1 / 2] ∧
    Reference.pseudo_algorithm full2 2 ([2, 1, 3, 1] : List ℚ) = [1 / 2, 1, 5 / 2, 1 / 2] ∧
    (decompose blank4 laplace4 0).matrix.val =
      [1 / 4, -1, 4 / 15, -1 / 4, -1, 15 / 56, -4 / 15, -1, 4, -15 / 56] ∧
    Reference.pseudo_algorithm tridiag4 4 laplace4.val =
      [1 / 4, -1, 4 / 15, -1 / 4, -1, 15 / 56, -4 / 15, -1, 209 / 56, -15 / 56] := by
  decide!

/-- Claim C18 as stated fails on the code: on the full `2 × 2` pattern in the
spec's layout (columns ascending, diagonal at its sorted position), with
stored rows `(2, 1)` and `(1, 3)` and `dst = [1, 1]`, the forward sweep of
row `1` subtracts nothing (the entry with column `0` is skipped as if it were
the diagonal) and the backward sweep of row `1` subtracts the diagonal entry
and scales by the entry of column `0`. -/
theorem sweeps_misread_sorted_layout :
    sorted2.SortedRows ∧
    forward_row (⟨sorted2, [2, 1, 1, 3]⟩ : SparseMatrix ℚ) [1, 1] 1 = [1, 1] ∧
    ([1, 1] : List ℚ).set 1 (([1, 1] : List ℚ).getD 1 0 -
      Lsum (⟨sorted2, [2, 1, 1, 3]⟩ : SparseMatrix ℚ) 1 [1, 1]) = [1, 0] ∧
    backward_row (⟨sorted2, [2, 1, 1, 3]⟩ : SparseMatrix ℚ) [1, 1] 1 = [1, -2] ∧
    ([1, 1] : List ℚ).set 1 ((([1, 1] : List ℚ).getD 1 0 -
      Usum (⟨sorted2, [2, 1, 1, 3]⟩ : SparseMatrix ℚ) 1 [1, 1]) *
        (⟨sorted2, [2, 1, 1, 3]⟩ : SparseMatrix ℚ).el 1 1) = [1, 3] := by
  decide!

/-- Claim C18, amended: under the layout the code relies on (the diagonal slot
first in each row, the remaining columns strictly ascending), for every row
`i` the forward sweep subtracts from `dst(i)` exactly the stored entries with
column `< i` against `dst`, and the backward sweep subtracts exactly the
stored entries with column `> i` and then scales by the value stored at
position `(i, i)`. -/
theorem sweeps_on_diagonal_first_layout (self : SparseMatrix K) (hwf : self.cols.WellFormed)
    (i : Nat) (hi : i < self.m) (dst : List K) (hd : i < dst.length) :
    forward_row self dst i = dst.set i (dst.getD i 0 - Lsum self i dst) ∧
    backward_row self dst i = dst.set i ((dst.getD i 0 - Usum self i dst) * self.el i i) := by
  refine ⟨forward_row_eq self hwf i hi dst, ?_⟩
  rw [backward_row_eq self hwf i hi dst hd, el_diag self hwf i hi]

/-- The theorem of claim C18 on row `2` of the tridiagonal `4 × 4` matrix,
which stores an entry left of its diagonal. -/
theorem sweeps_on_diagonal_first_layout_witness :
    laplace4.cols.WellFormed ∧
    (forward_row laplace4 [1, 2, 3, 4] 2 =
      ([1, 2, 3, 4] : List ℚ).set 2 (([1, 2, 3, 4] : List ℚ).getD 2 0 -
        Lsum laplace4 2 [1, 2, 3, 4]) ∧
    backward_row laplace4 [1, 2, 3, 4] 2 =
      ([1, 2, 3, 4] : List ℚ).set 2 ((([1, 2, 3, 4] : List ℚ).getD 2 0 -
        Usum laplace4 2 [1, 2, 3, 4]) * laplace4.el 2 2)) :=
  ⟨by decide,
    sweeps_on_diagonal_first_layout laplace4 (by decide) 2 (by decide) [1, 2, 3, 4] (by decide)⟩

end Claims4

section Claims5

variable {K : Type} [LinearOrderedField K]

open SparsityPattern SparseILU SparseVanka Examples

/-- Claim C19: when the columns of row `r` and of the rows it couples to are
in range and pairwise different, the local system gathered for `r` has at
every local position `(p, q)` the matrix value at `(g_p, g_q)`, the `p`-th and
`q`-th column of row `r` (zero when that position is absent).  This holds for
the matrix `compute_inverses` gathers before inverting it, and for the scratch
matrix `operator()` builds in conserve-memory mode, whatever the scratch
matrix, the destination and the source held. -/
theorem local_system_is_principal_submatrix (matrix : SparseMatrix K) (r : Nat)
    (hrow : matrix.cols.RowProper r matrix.m)
    (hrows : ∀ p, p < matrix.cols.row_length r →
      matrix.cols.RowProper (matrix.cols.column_number r p) matrix.m)
    (p q : Nat) (hp : p < matrix.cols.row_length r) (hq : q < matrix.cols.row_length r) :
    (local_system matrix r).el p q =
      matrix.el (matrix.cols.column_number r p) (matrix.cols.column_number r q) ∧
    ∀ (scratch : FullMatrix K) (dst src b : List K),
      ((build_local_index matrix.cols r).foldl
        (build_row matrix true (build_local_index matrix.cols r) dst src)
        (b, scratch.reinit (matrix.cols.row_length r) (matrix.cols.row_length r))).2.el p q =
      matrix.el (matrix.cols.column_number r p) (matrix.cols.column_number r q) := by
  constructor
  · unfold local_system
    exact gather_entries matrix r hrow hrows p q hp hq _ rfl rfl rfl
  · intro scratch dst src b
    rw [(build_row_modes matrix (build_local_index matrix.cols r) dst src
      (build_local_index matrix.cols r)
      (b, scratch.reinit (matrix.cols.row_length r) (matrix.cols.row_length r))
      (b, scratch.reinit (matrix.cols.row_length r) (matrix.cols.row_length r)) rfl).2.1]
    exact gather_entries matrix r hrow hrows p q hp hq _ rfl rfl rfl

/-- The theorem of claim C19 on row `0` of the pentadiagonal `5 × 5` matrix,
at the local position `(1, 2)`. -/
theorem local_system_is_principal_submatrix_witness :
    band5.cols.RowProper 0 band5.m ∧
    ((local_system band5 0).el 1 2 =
      band5.el (band5.cols.column_number 0 1) (band5.cols.column_number 0 2) ∧
    ∀ (scratch : FullMatrix ℚ) (dst src b : List ℚ),
      ((build_local_index band5.cols 0).foldl
        (build_row band5 true (build_local_index band5.cols 0) dst src)
        (b, scratch.reinit (band5.cols.row_length 0) (band5.cols.row_length 0))).2.el 1 2 =
      band5.el (band5.cols.column_number 0 1) (band5.cols.column_number 0 2)) :=
  ⟨by decide,
    local_system_is_principal_submatrix band5 0 (by decide) (by decide) 1 2 (by decide)
      (by decide)⟩

end Claims5

section Claims6

variable {K : Type} [LinearOrderedField K]

open SparsityPattern SparseILU SparseVanka Examples

/-- Claim C20: for a square matrix whose rows have in-range, pairwise
different columns, in either memory mode, right after `operator()` has worked
on a selected row `r` with invertible local system the product of the matrix
with the destination vector agrees with the source at every column of row `r`;
and when no later row is selected this also holds for the destination vector
`operator()` returns. -/
theorem vanka_block_gauss_seidel (M : SparseMatrix K) (selected : List Bool) (c : Bool)
    (dst src : List K) (r : Nat)
    (hsq : M.m = M.n) (hproper : ∀ g, g < M.m → M.cols.RowProper g M.m) (hr : r < M.m)
    (hsel : selected.getD r false = true) (hdst : dst.length = M.m)
    (hinv : IsUnit ((local_system M r).to_matrix (M.cols.row_length r)).det) :
    ∃ e : SparseVanka K, construct M selected c = .ok e ∧
      (∀ p, p < M.cols.row_length r →
        M.vmult_entry (apply_upto e dst src (r + 1)).dst (M.cols.column_number r p) =
          src.getD (M.cols.column_number r p) 0) ∧
      ((∀ k, r < k → k < M.m → selected.getD k false = false) →
        ∀ p, p < M.cols.row_length r →
          M.vmult_entry (apply e dst src).dst (M.cols.column_number r p) =
            src.getD (M.cols.column_number r p) 0) := by
  obtain ⟨e, h1, h2, h3, h4, _, h6⟩ := construct_ok M selected c hsq
  refine ⟨e, h1, ?_⟩
  subst h2
  have hstep : ∀ p, p < e.matrix.cols.row_length r →
      e.matrix.vmult_entry (apply_upto e dst src (r + 1)).dst (e.matrix.cols.column_number r p) =
        src.getD (e.matrix.cols.column_number r p) 0 := by
    intro p hp
    obtain ⟨u1, u2⟩ := apply_upto_inv e dst src r
    rw [apply_upto_succ]
    apply apply_row_residual e src _ r (hproper r hr)
      (fun q hq => hproper _ ((hproper r hr).1 q hq)) (by rw [h3]; exact hsel) _
      (by rw [u1, hdst]) hinv p hp
    intro hc
    rw [u2 hc, h6 r, if_pos ⟨by rw [← h4]; exact hc, hr, hsel⟩]
  refine ⟨hstep, ?_⟩
  intro hlast p hp
  have e1 : apply e dst src = apply_upto e dst src (r + 1 + (e.matrix.m - (r + 1))) := by
    have : r + 1 + (e.matrix.m - (r + 1)) = e.matrix.m := by omega
    rw [this]
    rfl
  rw [e1, apply_upto_unselected e dst src r (e.matrix.m - (r + 1))
    (fun k hk1 hk2 => by rw [h3]; exact hlast k hk1 (by omega))]
  exact hstep p hp

/-- The theorem of claim C20 on the pentadiagonal `5 × 5` matrix with rows
`0, 2, 3` selected, for the last selected row `3`, in conserve-memory mode. -/
theorem vanka_block_gauss_seidel_witness :
    (∀ g, g < band5.m → band5.cols.RowProper g band5.m) ∧
    ∃ e : SparseVanka ℚ, construct band5 [true, false, true, true, false] true = .ok e ∧
      (∀ p, p < band5.cols.row_length 3 →
        band5.vmult_entry (apply_upto e [0, 0, 0, 0, 0] [1, 2, 3, 4, 5] (3 + 1)).dst
            (band5.cols.column_number 3 p) =
          ([1, 2, 3, 4, 5] : List ℚ).getD (band5.cols.column_number 3 p) 0) ∧
      ((∀ k, 3 < k → k < band5.m → [true, false, true, true, false].getD k false = false) →
        ∀ p, p < band5.cols.row_length 3 →
          band5.vmult_entry (apply e [0, 0, 0, 0, 0] [1, 2, 3, 4, 5]).dst
              (band5.cols.column_number 3 p) =
            ([1, 2, 3, 4, 5] : List ℚ).getD (band5.cols.column_number 3 p) 0) :=
  ⟨by decide,
    vanka_block_gauss_seidel band5 [true, false, true, true, false] true [0, 0, 0, 0, 0]
      [1, 2, 3, 4, 5] 3 rfl (by decide) (by decide) rfl rfl
      (Matrix.isUnit_det_of_left_inverse
        (B := GaussJordan.invert ((local_system band5 3).to_matrix (band5.cols.row_length 3)))
        (by decide!))⟩

end Claims6

section ScatterFrame

variable {K : Type} [LinearOrderedField K]

open SparsityPattern SparseVanka

/-- The map built for a row, whatever its columns: it is sorted by key and
every pair in it is a column of the row with its position. -/
theorem build_local_index_keys (sp : SparsityPattern) (row : Nat) :
    ∀ k, ((List.range k).foldl
        (fun local_index i => map_insert local_index (sp.column_number row i) i) []).Pairwise
        (fun a b => a.1 < b.1) ∧
      (∀ x ∈ (List.range k).foldl
        (fun local_index i => map_insert local_index (sp.column_number row i) i) [],
        x.2 < k ∧ x.1 = sp.column_number row x.2) := by
  intro k
  induction k with
  | zero =>
    refine ⟨List.Pairwise.nil, ?_⟩
    intro x hx; exact absurd hx (List.not_mem_nil x)
  | succ k ih =>
    obtain ⟨h1, h2⟩ := ih
    rw [List.range_succ, List.foldl_append, List.foldl_cons, List.foldl_nil]
    generalize (List.range k).foldl
      (fun local_index i => map_insert local_index (sp.column_number row i) i) [] = L
      at h1 h2
    refine ⟨map_insert_sorted _ _ L h1, ?_⟩
    intro x hx
    rcases map_insert_mem _ _ L x hx with e | e
    · exact ⟨by have := (h2 x e).1; omega, (h2 x e).2⟩
    · rw [e]; exact ⟨Nat.lt_succ_self _, rfl⟩

theorem build_local_index_mem (sp : SparsityPattern) (row : Nat) (x : Nat × Nat)
    (hx : x ∈ build_local_index sp row) :
    x.2 < sp.row_length row ∧ x.1 = sp.column_number row x.2 :=
  (build_local_index_keys sp row (sp.row_length row)).2 x hx

/-- On a selected row `operator()` distributes the local solution. -/
theorem apply_row_dst (self : SparseVanka K) (src : List K) (st : ApplyState K) (row : Nat)
    (hsel : self.selected.getD row false = true) :
    (apply_row self src st row).dst =
      distribute (build_local_index self.matrix.cols row) (local_solution self src st row)
        st.dst := by
  unfold apply_row local_solution
  rw [if_pos hsel]
  cases self.conserve_mem <;> rfl

/-- Working on a row leaves alone every destination entry that is not a column
of the row. -/
theorem apply_row_frame (self : SparseVanka K) (src : List K) (st : ApplyState K) (row g : Nat)
    (hg : ∀ p, p < self.matrix.cols.row_length row → self.matrix.cols.column_number row p ≠ g) :
    (apply_row self src st row).dst.getD g 0 = st.dst.getD g 0 := by
  by_cases hsel : self.selected.getD row false = true
  · rw [apply_row_dst self src st row hsel]
    unfold distribute
    apply (foldl_set_spec (fun p : Nat × Nat => p.1)
      (fun p : Nat × Nat => (local_solution self src st row).getD p.2 0) (0 : K) _ st.dst).2.1
    intro p hp hc
    obtain ⟨h1, h2⟩ := build_local_index_mem self.matrix.cols row p hp
    exact hg p.2 h1 (by rw [← h2]; exact hc)
  · rw [apply_row_unselected self src st row (by simpa using hsel)]

/-- The loop over the rows leaves alone every destination entry that is not a
column of a selected row it works on. -/
theorem apply_fold_frame (self : SparseVanka K) (src : List K) (g : Nat) :
    ∀ (l : List Nat) (st : ApplyState K),
      (∀ r ∈ l, self.selected.getD r false = true →
        ∀ p, p < self.matrix.cols.row_length r → self.matrix.cols.column_number r p ≠ g) →
      (l.foldl (apply_row self src) st).dst.getD g 0 = st.dst.getD g 0 := by
  intro l
  induction l with
  | nil => intro st _; rfl
  | cons r rest ih =>
    intro st h
    rw [List.foldl_cons, ih _ (fun r' hr' => h r' (List.mem_cons_of_mem _ hr'))]
    by_cases hsel : self.selected.getD r false = true
    · exact apply_row_frame self src st r g (h r (List.mem_cons_self _ _) hsel)
    · rw [apply_row_unselected self src st r (by simpa using hsel)]

theorem apply_fold_length (self : SparseVanka K) (src : List K) :
    ∀ (l : List Nat) (st : ApplyState K),
      (l.foldl (apply_row self src) st).dst.length = st.dst.length := by
  intro l
  induction l with
  | nil => intro st; rfl
  | cons r rest ih =>
    intro st
    rw [List.foldl_cons, ih, apply_row_length]

end ScatterFrame

section ScatterOrder

variable {K : Type} [LinearOrderedField K]

open SparsityPattern SparseVanka

/-- The loop over all rows, split after row `r`. -/
theorem apply_split (self : SparseVanka K) (dst src : List K) (r : Nat)
    (hr : r < self.matrix.m) :
    apply self dst src =
      ((List.range (self.matrix.m - (r + 1))).map (fun j => r + 1 + j)).foldl
        (apply_row self src) (apply_upto self dst src (r + 1)) := by
  unfold apply apply_upto
  rw [← List.foldl_append, ← List.range_add]
  have e : r + 1 + (self.matrix.m - (r + 1)) = self.matrix.m := by omega
  rw [e]

/-- Right after a selected row with in-range, pairwise different columns has
been worked on, the destination vector holds the local solution at every
column of the row. -/
theorem apply_row_scatter (self : SparseVanka K) (src : List K) (st : ApplyState K) (r : Nat)
    (hrow : self.matrix.cols.RowProper r self.matrix.m)
    (hsel : self.selected.getD r false = true) (hdst : st.dst.length = self.matrix.m)
    (p : Nat) (hp : p < self.matrix.cols.row_length r) :
    (apply_row self src st r).dst.getD (self.matrix.cols.column_number r p) 0 =
      (local_solution self src st r).getD p 0 := by
  obtain ⟨s1, _, s3⟩ := build_local_index_spec self.matrix.cols r
    (fun a b ha hb => hrow.2 a ha b hb)
  rw [apply_row_dst self src st r hsel]
  unfold distribute
  have := (foldl_set_spec (fun q : Nat × Nat => q.1)
    (fun q : Nat × Nat => (local_solution self src st r).getD q.2 0) (0 : K)
    (build_local_index self.matrix.cols r) st.dst).2.2 (by
      intro a b ha hb hab
      have e1 := lookup_of_mem _ a.1 a.2 s1 ha
      have e2 := lookup_of_mem _ b.1 b.2 s1 hb
      have hab2 : a.1 = b.1 := hab
      rw [hab2] at e1
      rw [e1] at e2
      injection e2 with e2
      simp only [e2]) _ (s3 p hp) (by rw [hdst]; exact hrow.1 p hp)
  exact this

end ScatterOrder

section Claims7

variable {K : Type} [LinearOrderedField K]

open SparsityPattern SparseILU SparseVanka Examples

/-- Claim C21: the rows are worked on in ascending order and a selected row
`r` with in-range, pairwise different columns overwrites the destination
vector at every column of the row with its local solution; so an index `g`,
the column of slot `p` of row `r`, that is a column of no selected row after
`r` holds, when `operator()` returns, the component `p` of the local solution
row `r` computed from the destination vector the rows before it had left. -/
theorem vanka_scatter_order (self : SparseVanka K) (dst src : List K) (r p : Nat)
    (hrow : self.matrix.cols.RowProper r self.matrix.m) (hr : r < self.matrix.m)
    (hsel : self.selected.getD r false = true) (hdst : dst.length = self.matrix.m)
    (hp : p < self.matrix.cols.row_length r)
    (hlast : ∀ k, k < self.matrix.m → r < k → self.selected.getD k false = true →
      ∀ q, q < self.matrix.cols.row_length k →
        self.matrix.cols.column_number k q ≠ self.matrix.cols.column_number r p) :
    (∀ q, q < self.matrix.cols.row_length r →
      (apply_upto self dst src (r + 1)).dst.getD (self.matrix.cols.column_number r q) 0 =
        (local_solution self src (apply_upto self dst src r) r).getD q 0) ∧
    (apply self dst src).dst.getD (self.matrix.cols.column_number r p) 0 =
      (local_solution self src (apply_upto self dst src r) r).getD p 0 := by
  have hstep : ∀ q, q < self.matrix.cols.row_length r →
      (apply_upto self dst src (r + 1)).dst.getD (self.matrix.cols.column_number r q) 0 =
        (local_solution self src (apply_upto self dst src r) r).getD q 0 := by
    intro q hq
    rw [apply_upto_succ]
    exact apply_row_scatter self src _ r hrow hsel
      (by rw [(apply_upto_inv self dst src r).1, hdst]) q hq
  refine ⟨hstep, ?_⟩
  rw [apply_split self dst src r hr, apply_fold_frame self src _ _ _ ?_, hstep p hp]
  intro k hk hksel q hq
  rw [List.mem_map] at hk
  obtain ⟨j, hj, hjk⟩ := hk
  rw [List.mem_range] at hj
  exact hlast k (by omega) (by omega) hksel q hq

/-- The theorem of claim C21 on the pentadiagonal `5 × 5` matrix with rows
`0, 2, 3` selected in conserve-memory mode: column `0` is a column of rows `0`
and `2`, and of no selected row after row `2`. -/
theorem vanka_scatter_order_witness :
    (∀ q, q < band5.cols.row_length 2 →
      (apply_upto (⟨band5, [true, false, true, true, false], true, List.replicate 5 none⟩ :
          SparseVanka ℚ) [0, 0, 0, 0, 0] [1, 2, 3, 4, 5] (2 + 1)).dst.getD
          (band5.cols.column_number 2 q) 0 =
        (local_solution (⟨band5, [true, false, true, true, false], true, List.replicate 5 none⟩ :
          SparseVanka ℚ) [1, 2, 3, 4, 5]
          (apply_upto (⟨band5, [true, false, true, true, false], true, List.replicate 5 none⟩ :
            SparseVanka ℚ) [0, 0, 0, 0, 0] [1, 2, 3, 4, 5] 2) 2).getD q 0) ∧
    (apply (⟨band5, [true, false, true, true, false], true, List.replicate 5 none⟩ :
        SparseVanka ℚ) [0, 0, 0, 0, 0] [1, 2, 3, 4, 5]).dst.getD (band5.cols.column_number 2 1) 0 =
      (local_solution (⟨band5, [true, false, true, true, false], true, List.replicate 5 none⟩ :
        SparseVanka ℚ) [1, 2, 3, 4, 5]
        (apply_upto (⟨band5, [true, false, true, true, false], true, List.replicate 5 none⟩ :
          SparseVanka ℚ) [0, 0, 0, 0, 0] [1, 2, 3, 4, 5] 2) 2).getD 1 0 :=
  vanka_scatter_order ⟨band5, [true, false, true, true, false], true, List.replicate 5 none⟩
    [0, 0, 0, 0, 0] [1, 2, 3, 4, 5] 2 1 (by decide) (by decide) rfl rfl (by decide) (by decide)

end Claims7

section TableAfter

variable {K : Type} [LinearOrderedField K]

open SparsityPattern SparseVanka

theorem set_none_of_getD_none {α : Type} (l : List (Option α)) (i : Nat)
    (h : l.getD i none = none) : l.set i none = l := by
  apply List.ext_getElem?
  intro j
  rw [List.getElem?_set]
  split
  · next hij =>
    subst hij
    split
    · next hlt =>
      rw [List.getD_eq_getElem?_getD, List.getElem?_eq_getElem hlt] at h
      rw [List.getElem?_eq_getElem hlt]
      simp only [Option.getD_some] at h
      rw [h]
    · next hge =>
      rw [List.getElem?_eq_none (by omega)]
  · rfl

/-- What working on a row does to the table of inverses. -/
theorem apply_row_table_conserve (self : SparseVanka K) (src : List K) (st : ApplyState K)
    (row : Nat) (h : st.inverses.getD row none = none) :
    (apply_row self src st row).inverses = st.inverses := by
  unfold apply_row
  split
  · simp only
    split
    · exact set_none_of_getD_none _ _ h
    · rfl
  · rfl

theorem apply_fold_table (self : SparseVanka K) (src : List K) :
    ∀ (l : List Nat) (st : ApplyState K), (∀ r, st.inverses.getD r none = none) →
      (l.foldl (apply_row self src) st).inverses = st.inverses := by
  intro l
  induction l with
  | nil => intro st _; rfl
  | cons r rest ih =>
    intro st h
    have e := apply_row_table_conserve self src st r (h r)
    rw [List.foldl_cons, ih _ (by rw [e]; exact h), e]

theorem clear_of_length (d1 d2 : List K) (h : d1.length = d2.length) : clear d1 = clear d2 := by
  unfold clear
  rw [h]

theorem apply_congr_dst (self : SparseVanka K) (src d1 d2 : List K)
    (h : d1.length = d2.length) : apply self d1 src = apply self d2 src := by
  unfold apply
  rw [clear_of_length d1 d2 h]

theorem apply_dst_length (self : SparseVanka K) (dst src : List K) :
    (apply self dst src).dst.length = dst.length := by
  unfold apply
  rw [apply_fold_length]
  simp [clear]

theorem after_apply_eq {T : Type} (self : SparseVanka T) (st : ApplyState T)
    (h : st.inverses = self.inverses) : after_apply self st = self := by
  unfold after_apply
  rw [h]

theorem compute_inverses_mode (self : SparseVanka K) :
    (compute_inverses self).conserve_mem = self.conserve_mem := by
  unfold compute_inverses
  refine foldl_invariant (fun s : SparseVanka K => s.conserve_mem = self.conserve_mem) _ ?_ _ _ rfl
  intro acc row h
  unfold compute_inverses_row
  split
  · exact h
  · exact h

end TableAfter

section Claims8

variable {K : Type} [LinearOrderedField K]

open SparsityPattern SparseILU SparseVanka Examples

/-- Claim C22: `operator()` clears the destination vector first, so for every
engine and source the result is the same for two destination vectors of the
same size: the destination vector returned and the table of inverses left
behind agree. -/
theorem vanka_apply_ignores_destination (self : SparseVanka K) (src d1 d2 : List K)
    (h : d1.length = d2.length) :
    (apply self d1 src).dst = (apply self d2 src).dst ∧
      (apply self d1 src).inverses = (apply self d2 src).inverses := by
  rw [apply_congr_dst self src d1 d2 h]
  exact ⟨rfl, rfl⟩

/-- The theorem of claim C22 on the pentadiagonal `5 × 5` matrix with rows
`0, 2, 3` selected in conserve-memory mode, for a zero and a non-zero
destination vector. -/
theorem vanka_apply_ignores_destination_witness :
    ([0, 0, 0, 0, 0] : List ℚ).length = ([7, -3, 5, 1, 9] : List ℚ).length ∧
    (apply (⟨band5, [true, false, true, true, false], true, List.replicate 5 none⟩ :
        SparseVanka ℚ) [0, 0, 0, 0, 0] [1, 2, 3, 4, 5]).dst =
      (apply (⟨band5, [true, false, true, true, false], true, List.replicate 5 none⟩ :
        SparseVanka ℚ) [7, -3, 5, 1, 9] [1, 2, 3, 4, 5]).dst ∧
    (apply (⟨band5, [true, false, true, true, false], true, List.replicate 5 none⟩ :
        SparseVanka ℚ) [0, 0, 0, 0, 0] [1, 2, 3, 4, 5]).inverses =
      (apply (⟨band5, [true, false, true, true, false], true, List.replicate 5 none⟩ :
        SparseVanka ℚ) [7, -3, 5, 1, 9] [1, 2, 3, 4, 5]).inverses :=
  ⟨rfl, vanka_apply_ignores_destination
    ⟨band5, [true, false, true, true, false], true, List.replicate 5 none⟩ [1, 2, 3, 4, 5]
    [0, 0, 0, 0, 0] [7, -3, 5, 1, 9] rfl⟩

/-- Claim C23: for an engine built by the constructor on a square matrix,
`operator()` leaves the table of inverses as the constructor left it: in
conserve-memory mode every slot is empty again, in the other mode every slot
is as `compute_inverses` left it; and a second `operator()` on the same
source, run on the object and the destination vector the first left behind,
returns the same destination vector. -/
theorem vanka_table_after_apply (M : SparseMatrix K) (selected : List Bool) (c : Bool)
    (dst src : List K) (hsq : M.m = M.n) :
    ∃ e : SparseVanka K, construct M selected c = .ok e ∧
      (c = true → (apply e dst src).inverses = List.replicate M.m none) ∧
      (c = false → (apply e dst src).inverses =
        (compute_inverses ⟨M, selected, false, List.replicate M.m none⟩).inverses) ∧
      (apply e dst src).inverses = e.inverses ∧
      (apply (after_apply e (apply e dst src)) (apply e dst src).dst src).dst =
        (apply e dst src).dst := by
  have key : ∀ e : SparseVanka K, (apply e dst src).inverses = e.inverses →
      (apply (after_apply e (apply e dst src)) (apply e dst src).dst src).dst =
        (apply e dst src).dst := by
    intro e he
    rw [after_apply_eq e _ he, apply_congr_dst e src _ dst (apply_dst_length e dst src)]
  cases c with
  | true =>
    have ht : (apply (⟨M, selected, true, List.replicate M.m none⟩ : SparseVanka K) dst
        src).inverses = List.replicate M.m none := by
      unfold apply
      exact apply_fold_table _ src _ _ (fun r => getD_replicate_none M.m r)
    refine ⟨⟨M, selected, true, List.replicate M.m none⟩, ?_, fun _ => ht,
      fun h => Bool.noConfusion h, ht, key _ ht⟩
    unfold construct
    simp [hsq]
  | false =>
    have hf : (apply (compute_inverses (⟨M, selected, false, List.replicate M.m none⟩ :
        SparseVanka K)) dst src).inverses =
        (compute_inverses (⟨M, selected, false, List.replicate M.m none⟩ :
          SparseVanka K)).inverses := by
      have hc : (compute_inverses (⟨M, selected, false, List.replicate M.m none⟩ :
          SparseVanka K)).conserve_mem = false := compute_inverses_mode _
      have := (apply_upto_inv (compute_inverses (⟨M, selected, false, List.replicate M.m none⟩ :
        SparseVanka K)) dst src
        (compute_inverses (⟨M, selected, false, List.replicate M.m none⟩ :
          SparseVanka K)).matrix.m).2 hc
      exact this
    refine ⟨compute_inverses ⟨M, selected, false, List.replicate M.m none⟩, ?_,
      fun h => Bool.noConfusion h, fun _ => hf, hf, key _ hf⟩
    unfold construct
    simp [hsq]

/-- The theorem of claim C23 on the pentadiagonal `5 × 5` matrix with rows
`0, 2, 3` selected, in conserve-memory mode. -/
theorem vanka_table_after_apply_witness :
    band5.m = band5.n ∧
    ∃ e : SparseVanka ℚ, construct band5 [true, false, true, true, false] true = .ok e ∧
      (true = true → (apply e [0, 0, 0, 0, 0] [1, 2, 3, 4, 5]).inverses =
        List.replicate band5.m none) ∧
      (true = false → (apply e [0, 0, 0, 0, 0] [1, 2, 3, 4, 5]).inverses =
        (compute_inverses ⟨band5, [true, false, true, true, false], false,
          List.replicate band5.m none⟩).inverses) ∧
      (apply e [0, 0, 0, 0, 0] [1, 2, 3, 4, 5]).inverses = e.inverses ∧
      (apply (after_apply e (apply e [0, 0, 0, 0, 0] [1, 2, 3, 4, 5]))
        (apply e [0, 0, 0, 0, 0] [1, 2, 3, 4, 5]).dst [1, 2, 3, 4, 5]).dst =
        (apply e [0, 0, 0, 0, 0] [1, 2, 3, 4, 5]).dst :=
  ⟨rfl, vanka_table_after_apply band5 [true, false, true, true, false] true [0, 0, 0, 0, 0]
    [1, 2, 3, 4, 5] rfl⟩

/-- Claim C24: the constructor raises the matrix-not-square error exactly when
the matrix is not square, in either memory mode, and in conserve-memory mode
it returns an engine exactly when the matrix is square. -/
theorem vanka_construct_errors (M : SparseMatrix K) (selected : List Bool) (c : Bool) :
    (construct M selected c = .error Exc.ExcMatrixNotSquare ↔ M.m ≠ M.n) ∧
    ((∃ e, construct M selected true = .ok e) ↔ M.m = M.n) := by
  have hne : ∀ c', M.m ≠ M.n → construct M selected c' = .error Exc.ExcMatrixNotSquare := by
    intro c' h
    unfold construct
    simp only [if_pos h]
  refine ⟨⟨fun h heq => ?_, hne c⟩, ⟨fun ⟨e, he⟩ => ?_, fun heq => ?_⟩⟩
  · obtain ⟨e, he, _⟩ := construct_ok M selected c heq
    rw [he] at h
    exact Except.noConfusion h
  · by_contra h
    rw [hne true h] at he
    exact Except.noConfusion he
  · obtain ⟨e, he, _⟩ := construct_ok M selected true heq
    exact ⟨e, he⟩

/-- Claim C26: for every engine, destination and source, an index `g` that is
a column of no selected row holds zero in the destination vector `operator()`
returns; and when no row is selected the vector returned is the zero vector of
the size of the destination. -/
theorem vanka_untouched_entries_zero (self : SparseVanka K) (dst src : List K) (g : Nat)
    (h : ∀ r, r < self.matrix.m → self.selected.getD r false = true →
      ∀ p, p < self.matrix.cols.row_length r → self.matrix.cols.column_number r p ≠ g) :
    (apply self dst src).dst.getD g 0 = 0 ∧
    ((∀ r, r < self.matrix.m → self.selected.getD r false = false) →
      (apply self dst src).dst = List.replicate dst.length 0) := by
  have hframe : ∀ g', (∀ r, r < self.matrix.m → self.selected.getD r false = true →
      ∀ p, p < self.matrix.cols.row_length r → self.matrix.cols.column_number r p ≠ g') →
      (apply self dst src).dst.getD g' 0 = 0 := by
    intro g' h'
    unfold apply
    rw [apply_fold_frame self src g' _ _
      (fun r hr => h' r (List.mem_range.1 hr))]
    exact getD_replicate_zero _ _
  refine ⟨hframe g h, ?_⟩
  intro hnone
  apply List.ext_getElem?
  intro j
  have hlen := apply_dst_length self dst src
  have hj := hframe j (fun r hr hsel => by
    rw [hnone r hr] at hsel
    exact Bool.noConfusion hsel)
  rw [List.getD_eq_getElem?_getD] at hj
  by_cases hlt : j < dst.length
  · rw [List.getElem?_eq_getElem (by rw [hlen]; exact hlt)] at hj ⊢
    simp only [Option.getD_some] at hj
    rw [hj, List.getElem?_replicate, if_pos hlt]
  · rw [List.getElem?_eq_none (by omega), List.getElem?_replicate, if_neg hlt]

/-- The theorem of claim C26 on the pentadiagonal `5 × 5` matrix: with row `0`
alone selected index `4` is a column of no selected row, and with no row
selected the zero vector is returned. -/
theorem vanka_untouched_entries_zero_witness :
    (∀ r, r < band5.m → [true, false, false, false, false].getD r false = true →
      ∀ p, p < band5.cols.row_length r → band5.cols.column_number r p ≠ 4) ∧
    (apply (⟨band5, [true, false, false, false, false], true, List.replicate 5 none⟩ :
      SparseVanka ℚ) [7, -3, 5, 1, 9] [1, 2, 3, 4, 5]).dst.getD 4 0 = 0 ∧
    (apply (⟨band5, [false, false, false, false, false], true, List.replicate 5 none⟩ :
      SparseVanka ℚ) [7, -3, 5, 1, 9] [1, 2, 3, 4, 5]).dst = [0, 0, 0, 0, 0] :=
  ⟨by decide,
    (vanka_untouched_entries_zero
      ⟨band5, [true, false, false, false, false], true, List.replicate 5 none⟩
      [7, -3, 5, 1, 9] [1, 2, 3, 4, 5] 4 (by decide)).1,
    (vanka_untouched_entries_zero
      ⟨band5, [false, false, false, false, false], true, List.replicate 5 none⟩
      [7, -3, 5, 1, 9] [1, 2, 3, 4, 5] 4 (by decide)).2 (by decide)⟩

/-- Claim C28: when one of the four entry checks of `decompose` fails (source
not square, target not square, dimensions different, negative strengthening
factor) or, what is the same, when `decompose` raises an error other than the
zero pivot, the object is left as it was, pattern and every stored value. -/
theorem decompose_entry_errors_atomic (self matrix : SparseMatrix K) (strengthen_diagonal : K)
    (h : (matrix.m ≠ matrix.n ∨ self.m ≠ self.n ∨ matrix.m ≠ self.m ∨ strengthen_diagonal < 0) ∨
      ∃ e, (decompose self matrix strengthen_diagonal).error = some e ∧
        e ≠ Exc.ExcDivideByZero) :
    (decompose self matrix strengthen_diagonal).matrix = self ∧
    (matrix.m ≠ matrix.n ∨ self.m ≠ self.n ∨ matrix.m ≠ self.m ∨ strengthen_diagonal < 0) ∧
    ∃ e, (decompose self matrix strengthen_diagonal).error = some e ∧
      e ≠ Exc.ExcDivideByZero := by
  unfold decompose at h ⊢
  by_cases h1 : matrix.m ≠ matrix.n
  · rw [if_pos h1]; exact ⟨rfl, Or.inl h1, _, rfl, by decide⟩
  rw [if_neg h1] at h ⊢
  by_cases h2 : self.m ≠ self.n
  · rw [if_pos h2]; exact ⟨rfl, Or.inr (Or.inl h2), _, rfl, by decide⟩
  rw [if_neg h2] at h ⊢
  by_cases h3 : matrix.m ≠ self.m
  · rw [if_pos h3]; exact ⟨rfl, Or.inr (Or.inr (Or.inl h3)), _, rfl, fun hc => Exc.noConfusion hc⟩
  rw [if_neg h3] at h ⊢
  by_cases h4 : strengthen_diagonal < 0
  · rw [if_pos h4]; exact ⟨rfl, Or.inr (Or.inr (Or.inr h4)), _, rfl, by decide⟩
  rw [if_neg h4] at h
  exfalso
  rcases h with h | ⟨e, herr, hentry⟩
  · rcases h with h | h | h | h
    · exact h1 h
    · exact h2 h
    · exact h3 h
    · exact h4 h
  · simp only at herr
    rcases eliminate_error (strengthen (copy_from self matrix) strengthen_diagonal).cols
      (List.range' 1 ((strengthen (copy_from self matrix) strengthen_diagonal).m - 1))
      (strengthen (copy_from self matrix) strengthen_diagonal).val with h | h
    · rw [h] at herr
      exact Option.noConfusion herr
    · rw [h] at herr
      injection herr with herr
      exact hentry herr.symm

/-- The theorem of claim C28 on a target that holds values from earlier use,
for a negative strengthening factor. -/
theorem decompose_entry_errors_atomic_witness :
    ((laplace4.m ≠ laplace4.n ∨ used4.m ≠ used4.n ∨ laplace4.m ≠ used4.m ∨ (-1 : ℚ) < 0) ∨
      ∃ e, (decompose used4 laplace4 (-1)).error = some e ∧ e ≠ Exc.ExcDivideByZero) ∧
    (decompose used4 laplace4 (-1)).matrix = used4 ∧
    (laplace4.m ≠ laplace4.n ∨ used4.m ≠ used4.n ∨ laplace4.m ≠ used4.m ∨ (-1 : ℚ) < 0) ∧
    ∃ e, (decompose used4 laplace4 (-1)).error = some e ∧ e ≠ Exc.ExcDivideByZero :=
  ⟨Or.inl (Or.inr (Or.inr (Or.inr (by decide!)))),
    decompose_entry_errors_atomic used4 laplace4 (-1)
      (Or.inl (Or.inr (Or.inr (Or.inr (by decide!)))))⟩

end Claims8

section SaddLemmas

variable {K : Type} [LinearOrderedField K]

theorem sadd_length (a : K) (u v : List K) (h : u.length = v.length) :
    (sadd a u v).length = u.length := by
  unfold sadd
  rw [List.length_zipWith, h, Nat.min_self]

theorem sadd_getD (a : K) (u v : List K) (h : u.length = v.length) (g : Nat) :
    (sadd a u v).getD g 0 = a * u.getD g 0 + v.getD g 0 := by
  unfold sadd
  simp only [List.getD_eq_getElem?_getD, List.getElem?_zipWith]
  by_cases hg : g < u.length
  · rw [List.getElem?_eq_getElem hg, List.getElem?_eq_getElem (by omega : g < v.length)]
    rfl
  · rw [List.getElem?_eq_none (by omega), List.getElem?_eq_none (by omega)]
    simp

theorem sadd_set (a : K) (u v : List K) (i : Nat) (x y : K) :
    (sadd a u v).set i (a * x + y) = sadd a (u.set i x) (v.set i y) := by
  unfold sadd
  apply List.ext_getElem?
  intro j
  simp only [List.getElem?_set, List.getElem?_zipWith, List.length_zipWith]
  by_cases hij : i = j
  · subst hij
    simp only [if_true]
    by_cases h1 : i < u.length
    · by_cases h2 : i < v.length
      · simp [h1, h2]
      · simp [h1, h2, List.getElem?_eq_none (by omega : v.length ≤ i)]
    · simp [h1, List.getElem?_eq_none (by omega : u.length ≤ i)]
  · simp only [if_neg hij]

theorem sadd_replicate (a : K) (n : Nat) :
    sadd a (List.replicate n (0 : K)) (List.replicate n 0) = List.replicate n 0 := by
  unfold sadd
  induction n with
  | zero => rfl
  | succ n ih =>
    rw [List.replicate_succ, List.zipWith_cons_cons, ih]
    simp

theorem sadd_map (a : K) (f g : Nat → K) (l : List Nat) :
    sadd a (l.map f) (l.map g) = l.map (fun i => a * f i + g i) := by
  unfold sadd
  induction l with
  | nil => rfl
  | cons x rest ih => rw [List.map_cons, List.map_cons, List.zipWith_cons_cons, ih, List.map_cons]

theorem sum_map_sadd (a : K) (f g h : Nat → K) (l : List Nat)
    (hf : ∀ j, f j = a * g j + h j) :
    (l.map f).sum = a * (l.map g).sum + (l.map h).sum := by
  induction l with
  | nil => simp
  | cons x rest ih =>
    rw [List.map_cons, List.map_cons, List.map_cons, List.sum_cons, List.sum_cons, List.sum_cons,
      ih, hf x]
    ring

end SaddLemmas

section Linearity

variable {K : Type} [LinearOrderedField K]

open SparsityPattern SparseVanka

theorem rhs_correction_sadd (matrix : SparseMatrix K) (L : List (Nat × Nat)) (a : K)
    (u v : List K) (h : u.length = v.length) (irow : Nat) :
    rhs_correction matrix L (sadd a u v) irow =
      a * rhs_correction matrix L u irow + rhs_correction matrix L v irow := by
  unfold rhs_correction
  apply sum_map_sadd
  intro j
  cases map_find L (matrix.cols.column_number irow j) with
  | none =>
    simp only
    rw [sadd_getD a u v h]
    ring
  | some js => simp

/-- The right hand side is linear in the source and the destination. -/
theorem rhs_fold_sadd (matrix : SparseMatrix K) (L : List (Nat × Nat)) (a : K)
    (su sv du dv : List K) (hs : su.length = sv.length) (hd : du.length = dv.length) :
    ∀ (l : List (Nat × Nat)) (bu bv : List K),
      l.foldl (fun b p => b.set p.2 ((sadd a su sv).getD p.1 0 -
          rhs_correction matrix L (sadd a du dv) p.1)) (sadd a bu bv) =
        sadd a
          (l.foldl (fun b p => b.set p.2 (su.getD p.1 0 - rhs_correction matrix L du p.1)) bu)
          (l.foldl (fun b p => b.set p.2 (sv.getD p.1 0 - rhs_correction matrix L dv p.1)) bv) := by
  intro l
  induction l with
  | nil => intro bu bv; rfl
  | cons p rest ih =>
    intro bu bv
    simp only [List.foldl_cons]
    rw [← ih]
    congr 1
    rw [← sadd_set, sadd_getD a su sv hs, rhs_correction_sadd matrix L a du dv hd]
    congr 1
    ring

theorem rhs_fold_length (matrix : SparseMatrix K) (L : List (Nat × Nat)) (src dst : List K)
    (l : List (Nat × Nat)) (b : List K) :
    (l.foldl (fun b p => b.set p.2 (src.getD p.1 0 - rhs_correction matrix L dst p.1))
      b).length = b.length :=
  (foldl_set_spec (fun p : Nat × Nat => p.2)
    (fun p : Nat × Nat => src.getD p.1 0 - rhs_correction matrix L dst p.1) (0 : K) l b).1

/-- The matrix/vector multiply is linear in the vector. -/
theorem vmult_sadd (F : FullMatrix K) (a : K) (u v : List K) (h : u.length = v.length) :
    F.vmult (sadd a u v) = sadd a (F.vmult u) (F.vmult v) := by
  unfold FullMatrix.vmult
  rw [sadd_map]
  apply List.map_congr_left
  intro i _
  apply sum_map_sadd
  intro j
  rw [sadd_getD a u v h]
  ring

theorem vmult_length (F : FullMatrix K) (b : List K) : (F.vmult b).length = F.m :=
  (vmult_spec F b).1

/-- Distributing is linear in the local solution and the destination. -/
theorem distribute_sadd (a : K) (xu xv : List K) (hx : xu.length = xv.length) :
    ∀ (L : List (Nat × Nat)) (du dv : List K),
      distribute L (sadd a xu xv) (sadd a du dv) =
        sadd a (distribute L xu du) (distribute L xv dv) := by
  intro L
  induction L with
  | nil => intro du dv; rfl
  | cons p rest ih =>
    intro du dv
    unfold distribute at ih ⊢
    simp only [List.foldl_cons]
    rw [← ih, sadd_getD a xu xv hx, sadd_set]

/-- The local solution as the product of the row's matrix with the right hand
side; the matrix does not depend on the source or the destination. -/
theorem local_solution_eq (self : SparseVanka K) (src : List K) (st : ApplyState K) (row : Nat) :
    local_solution self src st row =
      (row_inverse self st.inverses row).vmult
        ((build_local_index self.matrix.cols row).foldl
          (fun b p => b.set p.2 (src.getD p.1 0 -
            rhs_correction self.matrix (build_local_index self.matrix.cols row) st.dst p.1))
          (List.replicate (self.matrix.cols.row_length row) 0)) := by
  unfold local_solution row_inverse
  cases hc : self.conserve_mem with
  | false =>
    simp only [Bool.false_eq_true, if_false]
    obtain ⟨_, _, h3⟩ := build_row_modes self.matrix (build_local_index self.matrix.cols row)
      st.dst src (build_local_index self.matrix.cols row)
      (List.replicate (self.matrix.cols.row_length row) 0,
        (st.inverses.getD row none).getD (FullMatrix.zero 0 0))
      (List.replicate (self.matrix.cols.row_length row) 0,
        (st.inverses.getD row none).getD (FullMatrix.zero 0 0)) rfl
    rw [h3, build_rhs_fold]
  | true =>
    simp only [if_true]
    obtain ⟨h1, h2, _⟩ := build_row_modes self.matrix (build_local_index self.matrix.cols row)
      st.dst src (build_local_index self.matrix.cols row)
      (List.replicate (self.matrix.cols.row_length row) 0,
        st.local_matrix.reinit (self.matrix.cols.row_length row)
          (self.matrix.cols.row_length row))
      (List.replicate (self.matrix.cols.row_length row) 0,
        st.local_matrix.reinit (self.matrix.cols.row_length row)
          (self.matrix.cols.row_length row)) rfl
    rw [h2, h1, build_rhs_fold]
    rfl

theorem apply_row_inverses (self : SparseVanka K) (src : List K) (st : ApplyState K) (row : Nat) :
    (apply_row self src st row).inverses =
      if self.selected.getD row false = true ∧ self.conserve_mem = true then
        st.inverses.set row none
      else st.inverses := by
  unfold apply_row
  by_cases hsel : self.selected.getD row false = true
  · rw [if_pos hsel]
    cases hc : self.conserve_mem with
    | false => simp
    | true =>
      rw [if_pos (⟨hsel, rfl⟩ : self.selected.getD row false = true ∧ true = true)]
      rfl
  · rw [if_neg hsel, if_neg (fun h => hsel h.1)]

/-- Working on a row is linear in the source and the destination. -/
theorem apply_row_sadd (self : SparseVanka K) (a : K) (u v : List K) (hs : u.length = v.length)
    (sw su sv : ApplyState K) (row : Nat) (hd : su.dst.length = sv.dst.length)
    (hw : sw.dst = sadd a su.dst sv.dst) (h1 : sw.inverses = su.inverses)
    (h2 : sw.inverses = sv.inverses) :
    (apply_row self (sadd a u v) sw row).dst =
        sadd a (apply_row self u su row).dst (apply_row self v sv row).dst ∧
      (apply_row self (sadd a u v) sw row).inverses = (apply_row self u su row).inverses ∧
      (apply_row self (sadd a u v) sw row).inverses = (apply_row self v sv row).inverses := by
  refine ⟨?_, by rw [apply_row_inverses, apply_row_inverses, h1],
    by rw [apply_row_inverses, apply_row_inverses, h2]⟩
  by_cases hsel : self.selected.getD row false = true
  · rw [apply_row_dst _ _ _ _ hsel, apply_row_dst _ _ _ _ hsel, apply_row_dst _ _ _ _ hsel,
      local_solution_eq, local_solution_eq, local_solution_eq, hw, ← h1, ← h2,
      ← sadd_replicate a (self.matrix.cols.row_length row),
      rhs_fold_sadd self.matrix _ a u v su.dst sv.dst hs hd, sadd_replicate,
      vmult_sadd _ a _ _ (by rw [rhs_fold_length, rhs_fold_length]),
      distribute_sadd a _ _ (by rw [vmult_length, vmult_length])]
  · have hf : self.selected.getD row false = false := by simpa using hsel
    rw [apply_row_unselected _ _ _ _ hf, apply_row_unselected _ _ _ _ hf,
      apply_row_unselected _ _ _ _ hf]
    exact hw

theorem apply_fold_sadd (self : SparseVanka K) (a : K) (u v : List K) (hs : u.length = v.length) :
    ∀ (l : List Nat) (sw su sv : ApplyState K), su.dst.length = sv.dst.length →
      sw.dst = sadd a su.dst sv.dst → sw.inverses = su.inverses → sw.inverses = sv.inverses →
      (l.foldl (apply_row self (sadd a u v)) sw).dst =
        sadd a (l.foldl (apply_row self u) su).dst (l.foldl (apply_row self v) sv).dst := by
  intro l
  induction l with
  | nil => intro sw su sv _ hw _ _; exact hw
  | cons r rest ih =>
    intro sw su sv hd hw h1 h2
    obtain ⟨k1, k2, k3⟩ := apply_row_sadd self a u v hs sw su sv r hd hw h1 h2
    simp only [List.foldl_cons]
    exact ih _ _ _ (by rw [apply_row_length, apply_row_length, hd]) k1 k2 k3

end Linearity

section Claims9

variable {K : Type} [LinearOrderedField K]

open SparsityPattern SparseILU SparseVanka Examples

/-- Claim C27: `operator()` is linear in the source vector: for every engine
(matrix, mask, mode, table of inverses), every scalar `a` and source vectors
`u`, `v` of one size, the destination vector returned for `a * u + v` is `a`
times the one returned for `u` plus the one returned for `v`.  The local
matrices do not depend on the source, so this needs no assumption on them. -/
theorem vanka_apply_linear (self : SparseVanka K) (dst : List K) (a : K) (u v : List K)
    (h : u.length = v.length) :
    (apply self dst (sadd a u v)).dst =
      sadd a (apply self dst u).dst (apply self dst v).dst := by
  unfold apply
  apply apply_fold_sadd self a u v h _ _ _ _ rfl ?_ rfl rfl
  unfold clear
  exact (sadd_replicate a dst.length).symm

/-- The theorem of claim C27 on the pentadiagonal `5 × 5` matrix with rows
`0, 2, 3` selected in conserve-memory mode. -/
theorem vanka_apply_linear_witness :
    ([1, 2, 3, 4, 5] : List ℚ).length = ([0, 1, 0, -1, 2] : List ℚ).length ∧
    (apply (⟨band5, [true, false, true, true, false], true, List.replicate 5 none⟩ :
        SparseVanka ℚ) [0, 0, 0, 0, 0] (sadd 2 [1, 2, 3, 4, 5] [0, 1, 0, -1, 2])).dst =
      sadd 2
        (apply (⟨band5, [true, false, true, true, false], true, List.replicate 5 none⟩ :
          SparseVanka ℚ) [0, 0, 0, 0, 0] [1, 2, 3, 4, 5]).dst
        (apply (⟨band5, [true, false, true, true, false], true, List.replicate 5 none⟩ :
          SparseVanka ℚ) [0, 0, 0, 0, 0] [0, 1, 0, -1, 2]).dst :=
  ⟨rfl, vanka_apply_linear
    ⟨band5, [true, false, true, true, false], true, List.replicate 5 none⟩ [0, 0, 0, 0, 0] 2
    [1, 2, 3, 4, 5] [0, 1, 0, -1, 2] rfl⟩

end Claims9

section EliminateValues

variable {K : Type} [LinearOrderedField K]

open SparsityPattern SparseILU

/-- The value at a position depends only on the slots of its row that carry
its column. -/
theorem el_congr_row (sp : SparsityPattern) (v w : List K) (k c : Nat)
    (h : ∀ x, sp.rowstart k ≤ x → x < sp.rowstart (k + 1) → sp.column x = c →
      v.getD x 0 = w.getD x 0) :
    SparseMatrix.el ⟨sp, v⟩ k c = SparseMatrix.el ⟨sp, w⟩ k c := by
  unfold SparseMatrix.el
  simp only
  cases hidx : sp.index k c with
  | none => rfl
  | some s =>
    obtain ⟨h1, h2, h3⟩ := index_range sp k c s hidx
    exact h s h1 h2 h3

/-- One pass of the loop over `j` at its own slot: `a[i,j] -= a[i,k] * a[k,j]`,
with `a[k,j]` read as zero when it is not stored. -/
theorem eliminate_j_hit (sp : SparsityPattern) (row ik : Nat) (st : List K × Bool) (j : Nat)
    (hj : j ≠ sp.rowstart row) (hik : ik ≠ sp.rowstart row) (hlen : j < st.1.length)
    (hkj : ∀ kj, sp.index (sp.column ik) (sp.column j) = some kj → kj ≠ sp.rowstart row) :
    (eliminate_j sp row ik st j).1.getD j 0 =
      st.1.getD j 0 - st.1.getD ik 0 *
        SparseMatrix.el ⟨sp, st.1⟩ (sp.column ik) (sp.column j) := by
  unfold eliminate_j SparseMatrix.el
  simp only
  cases hidx : sp.index (sp.column ik) (sp.column j) with
  | none =>
    simp only [mul_zero, sub_zero]
    split
    · split
      · exact getD_set_ne _ _ _ _ _ (Ne.symm hj)
      · rfl
    · rfl
  | some kj =>
    have hkj2 := hkj kj hidx
    simp only
    split
    · split
      · rw [getD_set_eq _ _ _ _ (by rw [List.length_set]; exact hlen),
          getD_set_ne _ _ _ _ _ (Ne.symm hj), getD_set_ne _ _ _ _ _ (Ne.symm hik),
          getD_set_ne _ _ _ _ _ (Ne.symm hkj2)]
      · rw [getD_set_eq _ _ _ _ hlen]
    · rw [getD_set_eq _ _ _ _ hlen]

end EliminateValues

section EliminateInner

variable {K : Type} [LinearOrderedField K]

open SparsityPattern SparseILU

theorem eliminate_j_fold_length (sp : SparsityPattern) (row ik : Nat) :
    ∀ (l : List Nat) (st : List K × Bool),
      (l.foldl (eliminate_j sp row ik) st).1.length = st.1.length := by
  intro l
  induction l with
  | nil => intro st; rfl
  | cons j rest ih =>
    intro st
    rw [List.foldl_cons, ih, eliminate_j_length]

/-- The loop over `j` for the slot `ik` of row `row`, slot by slot: every slot
of the row after `ik` gets `a[i,j] -= a[i,k] * a[k,j]`; the diagonal slot of
the row apart, nothing else changes. -/
theorem eliminate_j_fold_value (sp : SparsityPattern) (hwf : sp.WellFormed) (row ik : Nat)
    (hrow : row < sp.rows) (hik1 : sp.rowstart row + 1 ≤ ik) (hk : sp.column ik < row) :
    ∀ (n : Nat) (st : List K × Bool), ik + 1 + n ≤ sp.rowstart (row + 1) →
      sp.rowstart (row + 1) ≤ st.1.length → ∀ x, x ≠ sp.rowstart row →
      ((List.range' (ik + 1) n).foldl (eliminate_j sp row ik) st).1.getD x 0 =
        if ik < x ∧ x < ik + 1 + n then
          st.1.getD x 0 - st.1.getD ik 0 *
            SparseMatrix.el ⟨sp, st.1⟩ (sp.column ik) (sp.column x)
        else st.1.getD x 0 := by
  have hkrow : sp.rowstart (sp.column ik + 1) ≤ sp.rowstart row :=
    wf_rowstart_le sp hwf (sp.column ik + 1) row (by omega) (by omega)
  intro n
  induction n with
  | zero =>
    intro st _ _ x _
    rw [if_neg (by omega)]
    rfl
  | succ n ih =>
    intro st hn hlen x hx
    rw [List.range'_concat, List.foldl_append, List.foldl_cons, List.foldl_nil, Nat.one_mul]
    have ih2 := ih st (by omega) hlen
    have hlen2 := eliminate_j_fold_length sp row ik (List.range' (ik + 1) n) st
    generalize (List.range' (ik + 1) n).foldl (eliminate_j sp row ik) st = st2 at ih2 hlen2
    by_cases hxj : x = ik + 1 + n
    · subst hxj
      rw [if_pos (by omega), eliminate_j_hit sp row ik st2 _ hx (by omega)
        (by rw [hlen2]; omega)
        (fun kj hkj => by
          have := index_range sp _ _ kj hkj
          omega),
        ih2 _ hx, if_neg (by omega), ih2 ik (by omega), if_neg (by omega)]
      congr 2
      apply el_congr_row
      intro y hy1 hy2 _
      rw [ih2 y (by omega), if_neg (by omega)]
    · rw [eliminate_j_getD sp row ik st2 _ x hx hxj, ih2 x hx]
      by_cases hc : ik < x ∧ x < ik + 1 + n
      · rw [if_pos hc, if_pos (by omega)]
      · rw [if_neg hc, if_neg (by omega)]

/-- The body of the loop over `col_ptr`, slot by slot: the slot `ik` is
scaled by the diagonal slot of row `k`, and every later slot of the row gets
`a[i,j] -= a[i,k] * a[k,j]`; the diagonal slot of the row apart, nothing else
changes. -/
theorem eliminate_k_value (sp : SparsityPattern) (hwf : sp.WellFormed) (row ik : Nat)
    (val : List K) (hrow : row < sp.rows) (hik1 : sp.rowstart row + 1 ≤ ik)
    (hik2 : ik < sp.rowstart (row + 1)) (hk : sp.column ik < row)
    (hlen : sp.rowstart (row + 1) ≤ val.length) (x : Nat) (hx : x ≠ sp.rowstart row) :
    (eliminate_k sp row val ik).getD x 0 =
      if x = ik then val.getD ik 0 * val.getD (sp.rowstart (sp.column ik)) 0
      else if ik < x ∧ x < sp.rowstart (row + 1) then
        val.getD x 0 - val.getD ik 0 * val.getD (sp.rowstart (sp.column ik)) 0 *
          SparseMatrix.el ⟨sp, val⟩ (sp.column ik) (sp.column x)
      else val.getD x 0 := by
  have hkrow : sp.rowstart (sp.column ik + 1) ≤ sp.rowstart row :=
    wf_rowstart_le sp hwf (sp.column ik + 1) row (by omega) (by omega)
  unfold eliminate_k
  simp only
  rw [eliminate_j_fold_value sp hwf row ik hrow hik1 hk _ _ (by omega)
    (by simp only [List.length_set]; exact hlen) x hx]
  simp only
  have e : ik + 1 + (sp.rowstart (row + 1) - (ik + 1)) = sp.rowstart (row + 1) := by omega
  rw [e]
  by_cases h1 : x = ik
  · subst h1
    rw [if_neg (by omega), if_pos rfl, getD_set_eq _ _ _ _ (by omega)]
  · rw [if_neg h1, getD_set_ne _ _ _ _ _ (Ne.symm h1)]
    by_cases h2 : ik < x ∧ x < sp.rowstart (row + 1)
    · rw [if_pos h2, if_pos h2, getD_set_eq _ _ _ _ (by omega)]
      congr 2
      apply el_congr_row
      intro y hy1 hy2 _
      rw [getD_set_ne _ _ _ _ _ (by omega)]
    · rw [if_neg h2, if_neg h2]

end EliminateInner

section EliminateRow

variable {K : Type} [LinearOrderedField K]

open SparsityPattern SparseILU

theorem eliminate_k_length (sp : SparsityPattern) (row : Nat) (val : List K) (ik : Nat) :
    (eliminate_k sp row val ik).length = val.length := by
  unfold eliminate_k
  simp only
  rw [eliminate_j_fold_length, List.length_set]

/-- The loop over `col_ptr` of a row after `t` passes, slot by slot: a slot
that has had its pass holds the scaled multiplier, and a later slot of the row
has lost the products with the multipliers found so far. -/
theorem eliminate_row_fold_value (sp : SparsityPattern) (hwf : sp.WellFormed) (row : Nat)
    (val : List K) (hrow : row < sp.rows) (hlen : sp.rowstart (row + 1) ≤ val.length) :
    ∀ t, sp.rowstart row + 1 + t ≤
        lower_bound sp (sp.rowstart row + 1) (sp.rowstart (row + 1)) row →
      ((List.range' (sp.rowstart row + 1) t).foldl (eliminate_k sp row) val).length =
        val.length ∧
      (∀ x, x < sp.rowstart row ∨ sp.rowstart (row + 1) ≤ x →
        ((List.range' (sp.rowstart row + 1) t).foldl (eliminate_k sp row) val).getD x 0 =
          val.getD x 0) ∧
      (∀ x, sp.rowstart row + 1 ≤ x → x < sp.rowstart row + 1 + t →
        ((List.range' (sp.rowstart row + 1) t).foldl (eliminate_k sp row) val).getD x 0 =
          (val.getD x 0 - ∑ s ∈ Finset.Ico (sp.rowstart row + 1) x,
            ((List.range' (sp.rowstart row + 1) t).foldl (eliminate_k sp row) val).getD s 0 *
              SparseMatrix.el ⟨sp, val⟩ (sp.column s) (sp.column x)) *
            val.getD (sp.rowstart (sp.column x)) 0) ∧
      (∀ x, sp.rowstart row + 1 + t ≤ x → x < sp.rowstart (row + 1) →
        ((List.range' (sp.rowstart row + 1) t).foldl (eliminate_k sp row) val).getD x 0 =
          val.getD x 0 - ∑ s ∈ Finset.Ico (sp.rowstart row + 1) (sp.rowstart row + 1 + t),
            ((List.range' (sp.rowstart row + 1) t).foldl (eliminate_k sp row) val).getD s 0 *
              SparseMatrix.el ⟨sp, val⟩ (sp.column s) (sp.column x)) := by
  obtain ⟨b1, b2, b3, _⟩ := wf_lower_bound sp hwf row hrow
  generalize lower_bound sp (sp.rowstart row + 1) (sp.rowstart (row + 1)) row = fad at b1 b2 b3
  intro t
  induction t with
  | zero =>
    intro _
    refine ⟨rfl, fun _ _ => rfl, fun x h1 h2 => by omega, fun x h1 h2 => ?_⟩
    simp
  | succ t ih =>
    intro ht
    obtain ⟨i1, i2, i3, i4⟩ := ih (by omega)
    rw [List.range'_concat, List.foldl_append, List.foldl_cons, List.foldl_nil, Nat.one_mul]
    generalize (List.range' (sp.rowstart row + 1) t).foldl (eliminate_k sp row) val = w
      at i1 i2 i3 i4
    have hk : sp.column (sp.rowstart row + 1 + t) < row := b3 _ (by omega) (by omega)
    have hkrow : sp.rowstart (sp.column (sp.rowstart row + 1 + t) + 1) ≤ sp.rowstart row :=
      wf_rowstart_le sp hwf _ row (by omega) (by omega)
    have hkd := (hwf.2.1 (sp.column (sp.rowstart row + 1 + t)) (by omega)).1
    have hstep := eliminate_k_value sp hwf row (sp.rowstart row + 1 + t) w hrow (by omega)
      (by omega) hk (by rw [i1]; exact hlen)
    have hdiag : w.getD (sp.rowstart (sp.column (sp.rowstart row + 1 + t))) 0 =
        val.getD (sp.rowstart (sp.column (sp.rowstart row + 1 + t))) 0 :=
      i2 _ (Or.inl (by omega))
    have hel : ∀ c, SparseMatrix.el ⟨sp, w⟩ (sp.column (sp.rowstart row + 1 + t)) c =
        SparseMatrix.el ⟨sp, val⟩ (sp.column (sp.rowstart row + 1 + t)) c := by
      intro c
      apply el_congr_row
      intro y hy1 hy2 _
      exact i2 y (Or.inl (by omega))
    have hl2 := eliminate_k_length sp row w (sp.rowstart row + 1 + t)
    generalize eliminate_k sp row w (sp.rowstart row + 1 + t) = w2 at hstep hl2
    have hlow : ∀ s, sp.rowstart row + 1 ≤ s → s < sp.rowstart row + 1 + t →
        w2.getD s 0 = w.getD s 0 := by
      intro s hs1 hs2
      rw [hstep s (by omega), if_neg (by omega), if_neg (by omega)]
    have hsum : ∀ (x b : Nat), b ≤ sp.rowstart row + 1 + t →
        ∑ s ∈ Finset.Ico (sp.rowstart row + 1) b,
          w2.getD s 0 * SparseMatrix.el ⟨sp, val⟩ (sp.column s) (sp.column x) =
        ∑ s ∈ Finset.Ico (sp.rowstart row + 1) b,
          w.getD s 0 * SparseMatrix.el ⟨sp, val⟩ (sp.column s) (sp.column x) := by
      intro x b hb
      apply Finset.sum_congr rfl
      intro s hs
      rw [Finset.mem_Ico] at hs
      rw [hlow s hs.1 (by omega)]
    have hik : w2.getD (sp.rowstart row + 1 + t) 0 =
        (val.getD (sp.rowstart row + 1 + t) 0 -
          ∑ s ∈ Finset.Ico (sp.rowstart row + 1) (sp.rowstart row + 1 + t),
            w.getD s 0 * SparseMatrix.el ⟨sp, val⟩ (sp.column s)
              (sp.column (sp.rowstart row + 1 + t))) *
          val.getD (sp.rowstart (sp.column (sp.rowstart row + 1 + t))) 0 := by
      rw [hstep _ (by omega), if_pos rfl, hdiag, i4 _ (le_refl _) (by omega)]
    refine ⟨?_, ?_, ?_, ?_⟩
    · rw [hl2, i1]
    · intro x hx
      rw [hstep x (by omega), if_neg (by omega), if_neg (by omega)]
      exact i2 x hx
    · intro x hx1 hx2
      by_cases hxe : x = sp.rowstart row + 1 + t
      · subst hxe
        rw [hik, hsum _ _ (le_refl _)]
      · rw [hlow x hx1 (by omega), i3 x hx1 (by omega), hsum _ _ (by omega)]
    · intro x hx1 hx2
      rw [hstep x (by omega), if_neg (by omega), if_pos ⟨by omega, hx2⟩,
        i4 x (by omega) hx2, hel, hdiag,
        (by omega : sp.rowstart row + 1 + (t + 1) = sp.rowstart row + 1 + t + 1),
        Finset.sum_Ico_succ_top (by omega), hsum _ _ (le_refl _), hik,
        i4 _ (le_refl _) (by omega)]
      ring

end EliminateRow

section EliminateAll

variable {K : Type} [LinearOrderedField K]

open SparsityPattern SparseILU

/-- The elimination of a row, slot by slot. -/
theorem eliminate_row_value (sp : SparsityPattern) (hwf : sp.WellFormed) (row : Nat)
    (val : List K) (hrow : row < sp.rows) (hlen : sp.rowstart (row + 1) ≤ val.length) :
    (eliminate_row sp row val).length = val.length ∧
    (∀ x, x < sp.rowstart row ∨ sp.rowstart (row + 1) ≤ x →
      (eliminate_row sp row val).getD x 0 = val.getD x 0) ∧
    (∀ x, sp.rowstart row + 1 ≤ x →
      x < lower_bound sp (sp.rowstart row + 1) (sp.rowstart (row + 1)) row →
      (eliminate_row sp row val).getD x 0 =
        (val.getD x 0 - ∑ s ∈ Finset.Ico (sp.rowstart row + 1) x,
          (eliminate_row sp row val).getD s 0 *
            SparseMatrix.el ⟨sp, val⟩ (sp.column s) (sp.column x)) *
          val.getD (sp.rowstart (sp.column x)) 0) ∧
    (∀ x, lower_bound sp (sp.rowstart row + 1) (sp.rowstart (row + 1)) row ≤ x →
      x < sp.rowstart (row + 1) →
      (eliminate_row sp row val).getD x 0 =
        val.getD x 0 - ∑ s ∈ Finset.Ico (sp.rowstart row + 1)
            (lower_bound sp (sp.rowstart row + 1) (sp.rowstart (row + 1)) row),
          (eliminate_row sp row val).getD s 0 *
            SparseMatrix.el ⟨sp, val⟩ (sp.column s) (sp.column x)) := by
  obtain ⟨b1, _, _, _⟩ := wf_lower_bound sp hwf row hrow
  have e : sp.rowstart row + 1 +
      (lower_bound sp (sp.rowstart row + 1) (sp.rowstart (row + 1)) row -
        (sp.rowstart row + 1)) =
      lower_bound sp (sp.rowstart row + 1) (sp.rowstart (row + 1)) row := by omega
  have h := eliminate_row_fold_value sp hwf row val hrow hlen
    (lower_bound sp (sp.rowstart row + 1) (sp.rowstart (row + 1)) row - (sp.rowstart row + 1))
    (by omega)
  rw [e] at h
  exact h

/-- The factorisation identity of a row only reads the slots up to the end of
the row, the diagonal slot of the row apart. -/
theorem row_factored_congr (sp : SparsityPattern) (hwf : sp.WellFormed) (a0 v w : List K)
    (i : Nat) (hi : i < sp.rows)
    (hag : ∀ x, x < sp.rowstart (i + 1) → x ≠ sp.rowstart i → w.getD x 0 = v.getD x 0)
    (h : RowFactored sp a0 v i) : RowFactored sp a0 w i := by
  obtain ⟨b1, b2, b3, b4⟩ := wf_lower_bound sp hwf i hi
  have hel : ∀ s c, sp.rowstart i + 1 ≤ s →
      s < lower_bound sp (sp.rowstart i + 1) (sp.rowstart (i + 1)) i →
      SparseMatrix.el ⟨sp, w⟩ (sp.column s) c = SparseMatrix.el ⟨sp, v⟩ (sp.column s) c := by
    intro s c hs1 hs2
    have hk := b3 s hs1 hs2
    have hkrow := wf_rowstart_le sp hwf (sp.column s + 1) i (by omega) (by omega)
    apply el_congr_row
    intro y hy1 hy2 _
    exact hag y (by omega) (by omega)
  intro x hx1 hx2
  obtain ⟨u1, u2⟩ := h x hx1 hx2
  refine ⟨fun hc => ?_, fun hc => ?_⟩
  · rw [← u1 hc, hag x hx2 (by omega)]
    congr 1
    apply Finset.sum_congr rfl
    intro s hs
    rw [Finset.mem_Ico] at hs
    rw [hag s (by omega) (by omega), hel s _ hs.1 hs.2]
  · have hxl : x < lower_bound sp (sp.rowstart i + 1) (sp.rowstart (i + 1)) i := by
      by_contra hge
      have := b4 x (by omega) hx2
      omega
    have hcrow := wf_rowstart_le sp hwf (sp.column x + 1) i (by omega) (by omega)
    have hcd := (hwf.2.1 (sp.column x) (by omega)).1
    rw [← u2 hc, hag x hx2 (by omega), hag (sp.rowstart (sp.column x)) (by omega) (by omega)]
    congr 1
    apply Finset.sum_congr rfl
    intro s hs
    rw [Finset.mem_Ico] at hs
    rw [hag s (by omega) (by omega), hel s _ hs.1 (by omega)]

/-- Row `0` is not touched: its identity holds from the start. -/
theorem row_factored_zero (sp : SparsityPattern) (hwf : sp.WellFormed) (a0 : List K)
    (h0 : 0 < sp.rows) : RowFactored sp a0 a0 0 := by
  obtain ⟨b1, b2, b3, b4⟩ := wf_lower_bound sp hwf 0 h0
  have e : lower_bound sp (sp.rowstart 0 + 1) (sp.rowstart (0 + 1)) 0 = sp.rowstart 0 + 1 := by
    by_contra hne
    have := b3 (sp.rowstart 0 + 1) (le_refl _) (by omega)
    omega
  intro x hx1 hx2
  refine ⟨fun _ => ?_, fun hc => by omega⟩
  rw [e, Finset.Ico_self, Finset.sum_empty, add_zero]

/-- The identity of the row just eliminated. -/
theorem row_factored_new (sp : SparsityPattern) (hwf : sp.WellFormed) (a0 u : List K) (r : Nat)
    (hr : r < sp.rows) (hlen : sp.rowstart (r + 1) ≤ u.length)
    (hrow : ∀ x, sp.rowstart r + 1 ≤ x → x < sp.rowstart (r + 1) → u.getD x 0 = a0.getD x 0)
    (hdiag : ∀ c, c < r → u.getD (sp.rowstart c) 0 ≠ 0) :
    RowFactored sp a0 (eliminate_row sp r u) r := by
  obtain ⟨b1, b2, b3, b4⟩ := wf_lower_bound sp hwf r hr
  obtain ⟨_, wo, wlow, wup⟩ := eliminate_row_value sp hwf r u hr hlen
  generalize eliminate_row sp r u = w at wo wlow wup
  have hel : ∀ s c, sp.rowstart r + 1 ≤ s →
      s < lower_bound sp (sp.rowstart r + 1) (sp.rowstart (r + 1)) r →
      SparseMatrix.el ⟨sp, w⟩ (sp.column s) c = SparseMatrix.el ⟨sp, u⟩ (sp.column s) c := by
    intro s c hs1 hs2
    have hk := b3 s hs1 hs2
    have hkrow := wf_rowstart_le sp hwf (sp.column s + 1) r (by omega) (by omega)
    apply el_congr_row
    intro y hy1 hy2 _
    exact wo y (Or.inl (by omega))
  intro x hx1 hx2
  refine ⟨fun hc => ?_, fun hc => ?_⟩
  · have hxu : lower_bound sp (sp.rowstart r + 1) (sp.rowstart (r + 1)) r ≤ x := by
      by_contra hlt
      have := b3 x hx1 (by omega)
      omega
    rw [wup x hxu hx2, hrow x hx1 hx2]
    have : ∑ s ∈ Finset.Ico (sp.rowstart r + 1)
          (lower_bound sp (sp.rowstart r + 1) (sp.rowstart (r + 1)) r),
        w.getD s 0 * SparseMatrix.el ⟨sp, w⟩ (sp.column s) (sp.column x) =
      ∑ s ∈ Finset.Ico (sp.rowstart r + 1)
          (lower_bound sp (sp.rowstart r + 1) (sp.rowstart (r + 1)) r),
        w.getD s 0 * SparseMatrix.el ⟨sp, u⟩ (sp.column s) (sp.column x) := by
      apply Finset.sum_congr rfl
      intro s hs
      rw [Finset.mem_Ico] at hs
      rw [hel s _ hs.1 hs.2]
    rw [this]
    ring
  · have hxl : x < lower_bound sp (sp.rowstart r + 1) (sp.rowstart (r + 1)) r := by
      by_contra hge
      have := b4 x (by omega) hx2
      omega
    have hcrow := wf_rowstart_le sp hwf (sp.column x + 1) r (by omega) (by omega)
    have hcd := (hwf.2.1 (sp.column x) (by omega)).1
    have hd := hdiag (sp.column x) hc
    rw [wlow x hx1 hxl, hrow x hx1 hx2, wo (sp.rowstart (sp.column x)) (Or.inl (by omega))]
    have : ∑ s ∈ Finset.Ico (sp.rowstart r + 1) x,
        w.getD s 0 * SparseMatrix.el ⟨sp, w⟩ (sp.column s) (sp.column x) =
      ∑ s ∈ Finset.Ico (sp.rowstart r + 1) x,
        w.getD s 0 * SparseMatrix.el ⟨sp, u⟩ (sp.column s) (sp.column x) := by
      apply Finset.sum_congr rfl
      intro s hs
      rw [Finset.mem_Ico] at hs
      rw [hel s _ hs.1 (by omega)]
    rw [this, mul_assoc, mul_one_div_cancel hd, mul_one]
    ring

/-- When the elimination loop ends without an error, every row satisfies its
factorisation identity. -/
theorem eliminate_factored (sp : SparsityPattern) (hwf : sp.WellFormed) (a0 : List K) :
    ∀ (n r : Nat) (v vF : List K), 1 ≤ r → r + n ≤ sp.rows →
      sp.rowstart sp.rows ≤ v.length →
      (∀ x, sp.rowstart r ≤ x → v.getD x 0 = a0.getD x 0) →
      (∀ c, c + 1 < r → v.getD (sp.rowstart c) 0 ≠ 0) →
      (∀ i, i < r → RowFactored sp a0 v i) →
      eliminate sp (List.range' r n) v = (none, vF) →
      ∀ i, i < r + n → RowFactored sp a0 vF i := by
  intro n
  induction n with
  | zero =>
    intro r v vF _ _ _ _ _ g4 hel i hi
    simp only [List.range'_zero, eliminate] at hel
    injection hel with _ hv
    rw [← hv]
    exact g4 i (by omega)
  | succ n ih =>
    intro r v vF hr1 hrn g1 g2 g3 g4 hel i hi
    rw [List.range'_succ] at hel
    unfold eliminate at hel
    by_cases hz : v.getD (sp.rowstart (r - 1)) 0 = 0
    · rw [if_pos hz] at hel
      injection hel with he _
      exact Option.noConfusion he
    rw [if_neg hz] at hel
    have hd1 : sp.rowstart (r - 1) < sp.rowstart r := by
      have := (hwf.2.1 (r - 1) (by omega)).1
      have e : r - 1 + 1 = r := by omega
      rwa [e] at this
    have hre : sp.rowstart (r + 1) ≤ sp.rowstart sp.rows :=
      wf_rowstart_le sp hwf (r + 1) sp.rows (by omega) (le_refl _)
    have hrr := (hwf.2.1 r (by omega)).1
    obtain ⟨wl, wo, _, _⟩ := eliminate_row_value sp hwf r
      (v.set (sp.rowstart (r - 1)) (1 / v.getD (sp.rowstart (r - 1)) 0)) (by omega)
      (by rw [List.length_set]; omega)
    have hnew := row_factored_new sp hwf a0
      (v.set (sp.rowstart (r - 1)) (1 / v.getD (sp.rowstart (r - 1)) 0)) r (by omega)
      (by rw [List.length_set]; omega)
      (fun x hx1 hx2 => by rw [getD_set_ne _ _ _ _ _ (by omega)]; exact g2 x (by omega))
      (fun c hc => by
        have hcrow := wf_rowstart_le sp hwf (c + 1) r (by omega) (by omega)
        have hcd := (hwf.2.1 c (by omega)).1
        by_cases hcr : c = r - 1
        · rw [hcr, getD_set_eq _ _ _ _ (by omega)]
          exact one_div_ne_zero hz
        · have hcrow2 := wf_rowstart_le sp hwf (c + 1) (r - 1) (by omega) (by omega)
          rw [getD_set_ne _ _ _ _ _ (by omega)]
          exact g3 c (by omega))
    generalize eliminate_row sp r
      (v.set (sp.rowstart (r - 1)) (1 / v.getD (sp.rowstart (r - 1)) 0)) = w
      at hel wl wo hnew
    rw [List.length_set] at wl
    have hwv : ∀ x, x ≠ sp.rowstart (r - 1) → (x < sp.rowstart r ∨ sp.rowstart (r + 1) ≤ x) →
        w.getD x 0 = v.getD x 0 := by
      intro x hx1 hx2
      rw [wo x hx2, getD_set_ne _ _ _ _ _ (Ne.symm hx1)]
    have e : r + (n + 1) = r + 1 + n := by omega
    rw [e] at hi
    refine ih (r + 1) w vF (by omega) (by omega) (by rw [wl]; exact g1) ?_ ?_ ?_ hel i hi
    · intro x hx
      rw [hwv x (by omega) (Or.inr hx)]
      exact g2 x (by omega)
    · intro c hc
      have hcrow := wf_rowstart_le sp hwf (c + 1) r (by omega) (by omega)
      have hcd := (hwf.2.1 c (by omega)).1
      rw [wo _ (Or.inl (by omega))]
      by_cases hcr : c = r - 1
      · rw [hcr, getD_set_eq _ _ _ _ (by omega)]
        exact one_div_ne_zero hz
      · have hcrow2 := wf_rowstart_le sp hwf (c + 1) (r - 1) (by omega) (by omega)
        rw [getD_set_ne _ _ _ _ _ (by omega)]
        exact g3 c (by omega)
    · intro i' hi'
      by_cases hir : i' = r
      · rw [hir]; exact hnew
      · have hirow := wf_rowstart_le sp hwf (i' + 1) r (by omega) (by omega)
        apply row_factored_congr sp hwf a0 v w i' (by omega) _ (g4 i' (by omega))
        intro x hx1 hx2
        apply hwv x _ (Or.inl (by omega))
        by_cases hr2 : i' = r - 1
        · rw [← hr2]; exact hx2
        · have := wf_rowstart_le sp hwf (i' + 1) (r - 1) (by omega) (by omega)
          omega

end EliminateAll

section FactorProduct

variable {K : Type} [LinearOrderedField K]

open SparsityPattern SparseILU

/-- The strictly lower part of a row against a function of the column, as a
sum over the slots left of the diagonal. -/
theorem lower_sum_slots (A : SparseMatrix K) (hwf : A.cols.WellFormed) (i : Nat) (hi : i < A.m)
    (g : Nat → K) :
    ∑ k ∈ Finset.range A.m, (if k < i then A.el i k else 0) * g k =
      ∑ s ∈ Finset.Ico (A.cols.rowstart i + 1)
          (lower_bound A.cols (A.cols.rowstart i + 1) (A.cols.rowstart (i + 1)) i),
        A.val.getD s 0 * g (A.cols.column s) := by
  obtain ⟨b1, b2, b3, b4⟩ := wf_lower_bound A.cols hwf i hi
  have hd := (hwf.2.1 i hi).2
  have e : ∀ k ∈ Finset.range A.m, (if k < i then A.el i k else 0) * g k =
      A.el i k * (if k < i then g k else 0) := by
    intro k _; split <;> simp
  rw [Finset.sum_congr rfl e, el_mul_sum A hwf i hi]
  have hsub : Finset.Ico (A.cols.rowstart i + 1)
      (lower_bound A.cols (A.cols.rowstart i + 1) (A.cols.rowstart (i + 1)) i) ⊆
      Finset.Ico (A.cols.rowstart i) (A.cols.rowstart (i + 1)) := by
    intro s hs
    rw [Finset.mem_Ico] at hs ⊢
    omega
  rw [← Finset.sum_subset hsub]
  · apply Finset.sum_congr rfl
    intro s hs
    rw [Finset.mem_Ico] at hs
    rw [if_pos (b3 s hs.1 hs.2)]
    rfl
  · intro s hs hnot
    rw [Finset.mem_Ico] at hs hnot
    have : ¬ A.cols.column s < i := by
      by_cases h0 : s = A.cols.rowstart i
      · rw [h0, hd]; omega
      · have := b4 s (by omega) hs.2
        omega
    rw [if_neg this, mul_zero]

/-- The value at the position of a slot is the value of the slot. -/
theorem el_slot (A : SparseMatrix K) (hwf : A.cols.WellFormed) (i : Nat) (hi : i < A.m)
    (x : Nat) (hx1 : A.cols.rowstart i ≤ x) (hx2 : x < A.cols.rowstart (i + 1)) :
    A.el i (A.cols.column x) = A.val.getD x 0 := by
  unfold SparseMatrix.el
  rw [(index_some_iff A.cols hwf i hi (A.cols.column x) x).2 ⟨hx1, hx2, rfl⟩]

/-- An entry of the product of the two factors as a sum over the row's slots
left of the diagonal, plus the entry of the upper factor in the row itself. -/
theorem factor_product_entry (A : SparseMatrix K) (hwf : A.cols.WellFormed) (i j : Fin A.m) :
    (L_factor A * U_factor A) i j =
      ∑ s ∈ Finset.Ico (A.cols.rowstart i.val + 1)
          (lower_bound A.cols (A.cols.rowstart i.val + 1) (A.cols.rowstart (i.val + 1)) i.val),
        A.val.getD s 0 *
          (if A.cols.column s < j.val then A.el (A.cols.column s) j.val
            else if j.val = A.cols.column s then 1 / A.el (A.cols.column s) (A.cols.column s)
            else 0) +
      (if i.val < j.val then A.el i.val j.val
        else if j.val = i.val then 1 / A.el i.val i.val else 0) := by
  rw [Matrix.mul_apply]
  have e1 : ∀ k : Fin A.m, L_factor A i k * U_factor A k j =
      (fun k : Nat => ((if k < i.val then A.el i.val k else 0) + (if k = i.val then 1 else 0)) *
        (if k < j.val then A.el k j.val else if j.val = k then 1 / A.el k k else 0)) k.val := by
    intro k
    unfold L_factor U_factor
    simp only [Matrix.of_apply]
    congr 1
    by_cases h1 : k.val < i.val
    · rw [if_pos h1, if_pos h1, if_neg (by omega), add_zero]
    · rw [if_neg h1, if_neg h1, zero_add]
  rw [Finset.sum_congr rfl (fun k _ => e1 k),
    Fin.sum_univ_eq_sum_range (fun k : Nat =>
      ((if k < i.val then A.el i.val k else 0) + (if k = i.val then 1 else 0)) *
        (if k < j.val then A.el k j.val else if j.val = k then 1 / A.el k k else 0)) A.m]
  simp only [add_mul]
  rw [Finset.sum_add_distrib, lower_sum_slots A hwf i.val i.isLt
    (fun k => if k < j.val then A.el k j.val else if j.val = k then 1 / A.el k k else 0)]
  congr 1
  rw [Finset.sum_eq_single i.val]
  · rw [if_pos rfl, one_mul]
  · intro k _ hk
    rw [if_neg hk, zero_mul]
  · intro hnot
    exact absurd (Finset.mem_range.2 i.isLt) hnot

/-- A row that satisfies its factorisation identity: the product of the two
factors read off the stored values gives the initial value at every
off-diagonal slot of the row. -/
theorem factored_product (A : SparseMatrix K) (hwf : A.cols.WellFormed) (a0 : List K)
    (i j : Fin A.m) (h : RowFactored A.cols a0 A.val i.val) (x : Nat)
    (hx1 : A.cols.rowstart i.val + 1 ≤ x) (hx2 : x < A.cols.rowstart (i.val + 1))
    (hj : A.cols.column x = j.val) :
    (L_factor A * U_factor A) i j = a0.getD x 0 := by
  obtain ⟨b1, b2, b3, b4⟩ := wf_lower_bound A.cols hwf i.val i.isLt
  obtain ⟨u1, u2⟩ := h x hx1 hx2
  have hne := (hwf.2.2 i.val i.isLt x hx1 hx2).2.1
  rw [factor_product_entry A hwf i j]
  have helx : A.el i.val j.val = A.val.getD x 0 := by
    rw [← hj]; exact el_slot A hwf i.val i.isLt x (by omega) hx2
  rcases Nat.lt_or_gt_of_ne hne with hlt | hgt
  · -- left of the diagonal
    have hxl : x < lower_bound A.cols (A.cols.rowstart i.val + 1)
        (A.cols.rowstart (i.val + 1)) i.val := by
      by_contra hge
      have := b4 x (by omega) hx2
      omega
    rw [if_neg (by omega), if_neg (by omega), add_zero, ← u2 hlt,
      ← Finset.sum_Ico_consecutive _ hx1 (le_of_lt hxl),
      Finset.sum_eq_sum_Ico_succ_bot hxl]
    have hz : ∑ s ∈ Finset.Ico (x + 1) (lower_bound A.cols (A.cols.rowstart i.val + 1)
          (A.cols.rowstart (i.val + 1)) i.val),
        A.val.getD s 0 *
          (if A.cols.column s < j.val then A.el (A.cols.column s) j.val
            else if j.val = A.cols.column s then 1 / A.el (A.cols.column s) (A.cols.column s)
            else 0) = 0 := by
      apply Finset.sum_eq_zero
      intro s hs
      rw [Finset.mem_Ico] at hs
      have := wf_col_lt A.cols hwf i.val i.isLt x s hx1 (by omega) (by omega)
      rw [if_neg (by omega), if_neg (by omega), mul_zero]
    have hjm : A.cols.column x < A.m := by rw [hj]; exact j.isLt
    rw [hz, add_zero, if_neg (by omega), if_pos hj.symm, el_diag A hwf _ hjm, add_comm]
    congr 1
    apply Finset.sum_congr rfl
    intro s hs
    rw [Finset.mem_Ico] at hs
    have := wf_col_lt A.cols hwf i.val i.isLt s x hs.1 hs.2 hx2
    rw [if_pos (by omega), hj]
  · -- right of the diagonal
    rw [if_pos (by omega), helx, ← u1 hgt, add_comm]
    congr 1
    apply Finset.sum_congr rfl
    intro s hs
    rw [Finset.mem_Ico] at hs
    have := b3 s hs.1 hs.2
    rw [if_pos (by omega), hj]

end FactorProduct

section DecomposeFactored

variable {K : Type} [LinearOrderedField K]

open SparsityPattern SparseILU

/-- A successful `decompose (matrix, 0)` on a well-formed target: the result
keeps the pattern, and every row satisfies its factorisation identity against
the values the copy step had stored. -/
theorem decompose_factored (self matrix : SparseMatrix K) (hwft : self.cols.WellFormed)
    (hwfm : matrix.cols.WellFormed) (hm : matrix.m = self.m)
    (hval : self.cols.n_nonzero_elements ≤ self.val.length)
    (hok : (decompose self matrix 0).error = none) :
    ∃ vF : List K, (decompose self matrix 0).matrix = ⟨self.cols, vF⟩ ∧
      ∀ i, i < self.m →
        RowFactored self.cols (strengthen (copy_from self matrix) 0).val vF i := by
  obtain ⟨c1, c2⟩ := copy_from_frame self matrix
  obtain ⟨f1, f2⟩ := strengthen_frame (copy_from self matrix) (0 : K)
  have hcols : (strengthen (copy_from self matrix) 0).cols = self.cols := f1.trans c1
  have hlen : (strengthen (copy_from self matrix) 0).val.length = self.val.length := f2.trans c2
  unfold decompose at hok ⊢
  rw [if_neg (show ¬ matrix.m ≠ matrix.n from not_not.2 hwfm.1),
    if_neg (show ¬ self.m ≠ self.n from not_not.2 hwft.1),
    if_neg (show ¬ matrix.m ≠ self.m from not_not.2 hm),
    if_neg (lt_irrefl (0 : K))] at hok ⊢
  simp only at hok ⊢
  generalize strengthen (copy_from self matrix) 0 = copied at hok hcols hlen ⊢
  obtain ⟨cc, cv⟩ := copied
  simp only at hcols hlen
  subst hcols
  simp only [SparseMatrix.m] at hok ⊢
  refine ⟨(eliminate self.cols (List.range' 1 (self.cols.rows - 1)) cv).2, rfl, ?_⟩
  intro i hi
  have hel : eliminate self.cols (List.range' 1 (self.cols.rows - 1)) cv =
      (none, (eliminate self.cols (List.range' 1 (self.cols.rows - 1)) cv).2) := Prod.ext hok rfl
  have := eliminate_factored self.cols hwft cv (self.cols.rows - 1) 1 cv _ (le_refl 1) (by omega)
    (by rw [hlen]; exact hval) (fun _ _ => rfl) (fun c hc => by omega)
    (fun i' hi' => by
      have e : i' = 0 := by omega
      rw [e]
      exact row_factored_zero self.cols hwft cv (by omega)) hel i (by omega)
  exact this

end DecomposeFactored

section Claims10

variable {K : Type} [LinearOrderedField K]

open SparsityPattern SparseILU SparseVanka Examples

/-- Claim C25: for a well-formed target pattern (diagonal slot first,
remaining columns strictly ascending), a source on a well-formed pattern of
the same dimension, and a `decompose (matrix, 0)` that raises no error: with
`L` the unit lower triangular matrix of the stored strictly lower entries and
`U` the upper triangular matrix of the stored strictly upper entries and the
reciprocals of the stored diagonal slots, `(L * U)(i,j)` is the entry `(i,j)`
of the source at every off-diagonal position `(i,j)` the target stores. -/
theorem ilu_offdiagonal_identity (self matrix : SparseMatrix K) (hwft : self.cols.WellFormed)
    (hwfm : matrix.cols.WellFormed) (hm : matrix.m = self.m)
    (hval : self.cols.n_nonzero_elements ≤ self.val.length)
    (hok : (decompose self matrix 0).error = none)
    (i j : Fin (decompose self matrix 0).matrix.m) (hij : i ≠ j)
    (hst : self.cols.index i.val j.val ≠ none) :
    (L_factor (decompose self matrix 0).matrix * U_factor (decompose self matrix 0).matrix) i j =
      matrix.el i.val j.val := by
  obtain ⟨vF, hdec, hrows⟩ := decompose_factored self matrix hwft hwfm hm hval hok
  obtain ⟨_, _, p3⟩ := prepared_spec self matrix hwft hwfm hm hval 0 (le_refl 0)
  revert i j
  rw [hdec]
  intro i j hij hst
  have hi : i.val < self.m := i.isLt
  cases hidx : self.cols.index i.val j.val with
  | none => exact absurd hidx hst
  | some x =>
    obtain ⟨x1, x2, x3⟩ := (index_some_iff self.cols hwft i.val hi j.val x).1 hidx
    have hx0 : x ≠ self.cols.rowstart i.val := by
      intro hc
      rw [hc, (hwft.2.1 i.val hi).2] at x3
      exact hij (Fin.ext x3)
    rw [factored_product ⟨self.cols, vF⟩ hwft (strengthen (copy_from self matrix) 0).val i j
      (hrows i.val hi) x (Nat.lt_of_le_of_ne x1 (Ne.symm hx0)) x2 x3,
      p3 i.val hi x (Nat.lt_of_le_of_ne x1 (Ne.symm hx0)) x2, x3]

/-- The theorem of claim C25 on the tridiagonal `4 × 4` matrix with `4` on the
diagonal and `-1` beside it, decomposed into a target that holds values from
earlier use. -/
theorem ilu_offdiagonal_identity_witness :
    used4.cols.WellFormed ∧ laplace4.cols.WellFormed ∧ laplace4.m = used4.m ∧
    used4.cols.n_nonzero_elements ≤ used4.val.length ∧
    (decompose used4 laplace4 0).error = none ∧
    ∀ i j : Fin (decompose used4 laplace4 0).matrix.m, i ≠ j →
      used4.cols.index i.val j.val ≠ none →
      (L_factor (decompose used4 laplace4 0).matrix *
        U_factor (decompose used4 laplace4 0).matrix) i j = laplace4.el i.val j.val :=
  ⟨by decide, by decide, rfl, by decide, by decide!,
    fun i j hij hst => ilu_offdiagonal_identity used4 laplace4 (by decide) (by decide) rfl
      (by decide) (by decide!) i j hij hst⟩

end Claims10

end DealII
